/-
Verification of the MovingAverage repository (skip-list windowed statistics
engine for Arduino).

The development shallowly embeds the two claim-bearing components:

* `SkipList` — the pointer-linked skip list of `src/src/SkipList.h` and
  `src/examples/Filters/SkipList.h` (insert/remove/getMedian/at are
  line-for-line identical in the two files except for the behaviour of
  `getMedian` on an empty list and the signature of `at`; both variants are
  embedded).  Nodes live in an arena (`List (Option Node)`); index 0 is the
  header sentinel; a freed slot becomes `none`.  Raw pointers of the C++
  become arena indices, `nullptr` becomes `Option.none`.  Every operation
  returns `Option _`: a `none` result models C++ undefined behaviour
  (null-pointer dereference, out-of-bounds `Vector` access, use after free)
  or a non-terminating traversal (loops carry fuel `arena.length + 1`,
  enough for any acyclic chain).  The coin flips of `randomLevel`
  (`rand() % 2 == 0` resp. `random(2) == 0`) are supplied as a list of
  booleans, `true` meaning the flip that continues the loop.
* `MovingAverage` — the engine of `src/examples/Filters/MovingAverage.h`
  with its default scalar instantiation `T = U = int16_t`.  Values are
  carried as `Int`; `static_cast<U>` on a wider intermediate is the
  explicit two's-complement wrap `wrap16`.  C++ `/` on integers is
  `Int.tdiv` (truncation toward zero).  `float` arithmetic occurs only in
  `readExponentialAverage`; it is modelled as exact rational arithmetic
  followed by truncation (IEEE rounding is not claim-relevant: the claims
  only exercise the disabled branch of that function).

The element type parameter `T`/`U` of the templates is instantiated at an
integer scalar (the library's default); the code uses only `<`, `==`, `!=`
on it.
-/
import Mathlib

namespace MovAvg

/-- Arena index standing for a `SkipListNode*`.  Index 0 is the header. -/
abbrev Ptr := Nat

/-- One `SkipListNode<T>`: a value and the per-level forward links
(`Vector<SkipListNode<T>*> next`, constructed as `next(level + 1, nullptr)`,
so `next.length = level + 1`).  `none` is `nullptr`. -/
structure Node where
  value : Int
  next : List (Option Ptr)
deriving DecidableEq, Repr

/-- The `SkipList<T>` object: `max_level`, the node arena (slot 0 holds the
header sentinel created by the constructor; a slot freed by `delete`
becomes `none`), and the member vector `update` used by `insert` and
`remove` — it persists between calls exactly as in the source. -/
structure SkipList where
  max_level : Nat
  arena : List (Option Node)
  update : List (Option Ptr)
deriving DecidableEq, Repr

namespace SkipList

/-- `SkipList(int max_lvl)`: header node with value `T()` (= 0) and
`max_lvl + 1` null forward links; `update` starts empty. -/
def create (max_lvl : Nat) : SkipList :=
  ⟨max_lvl, [some ⟨0, List.replicate (max_lvl + 1) none⟩], []⟩

/-- Dereference a node pointer; `none` if the slot is absent or freed
(use-after-free / wild pointer — undefined behaviour in the source). -/
def getNode (s : SkipList) (p : Ptr) : Option Node :=
  (s.arena.get? p).bind id

/-- Read `p->next[i]`.  The outer `none` is undefined behaviour (bad
pointer or out-of-range `Vector` index); the inner `Option Ptr` is the
stored link, `none` meaning `nullptr`. -/
def linkAt (s : SkipList) (p : Ptr) (i : Nat) : Option (Option Ptr) :=
  (getNode s p).bind fun n => n.next.get? i

/-- Write `p->next[i] = q`; undefined behaviour (`none`) if `p` is not a
live node or `i` is out of range for its link vector. -/
def setLink (s : SkipList) (p : Ptr) (i : Nat) (q : Option Ptr) : Option SkipList :=
  (getNode s p).bind fun n =>
    if i < n.next.length then
      some { s with arena := s.arena.set p (some { n with next := n.next.set i q }) }
    else none

/-- Fuel bound for the chain-following loops: a well-formed chain visits
pairwise distinct live slots, hence at most `arena.length` nodes. -/
def fuel (s : SkipList) : Nat := s.arena.length + 1

/-- `while (current->next[i] != nullptr && current->next[i]->value < val)
current = current->next[i];` — the advance loop common to `insert` and
`remove`, at level `i` starting from `cur`. -/
def walkLt (s : SkipList) (i : Nat) (val : Int) : Ptr → Nat → Option Ptr
  | _, 0 => none
  | cur, f + 1 => do
    let l ← linkAt s cur i
    match l with
    | none => pure cur
    | some q => do
      let n ← getNode s q
      if n.value < val then walkLt s i val q f else pure cur

/-- `int SkipList::randomLevel()`: starting at level 0, repeat
`while (coin && level < max_level) level++` where `coin` is
`rand() % 2 == 0` (resp. `random(2) == 0`); the finite list holds the
successive flips, an exhausted list acting as a failed flip. -/
def randomLevelGo (m : Nat) : List Bool → Nat → Nat
  | [], level => level
  | c :: cs, level => if c = true ∧ level < m then randomLevelGo m cs (level + 1) else level

def randomLevel (m : Nat) (coins : List Bool) : Nat := randomLevelGo m coins 0

/-- `Vector::resize(count)` of the custom vector: truncate or pad with the
default value (`nullptr` for pointers). -/
def listResize (l : List (Option Ptr)) (n : Nat) : List (Option Ptr) :=
  l.take n ++ List.replicate (n - l.length) none

/-- The top-down scan of `insert`: for `i = max_level … 0`, advance
`current` at level `i`, then record `update[i] = current`.  `k` counts the
levels still to process (the level being processed is `k - 1`), `u` is the
update vector being written. -/
def insScan (s : SkipList) (val : Int) :
    Nat → Ptr → List (Option Ptr) → Option (Ptr × List (Option Ptr))
  | 0, cur, u => some (cur, u)
  | k + 1, cur, u => do
    let cur2 ← walkLt s k val cur s.fuel
    insScan s val k cur2 (u.set k (some cur2))

/-- The splice loop of `insert`:
`for (i = 0; i <= new_level; i++) { newNode->next[i] = update[i]->next[i];
update[i]->next[i] = newNode; }`.  `i` is the current level, the second
argument the number of levels still to link. -/
def insLink (newPtr : Ptr) (u : List (Option Ptr)) (i : Nat) :
    Nat → SkipList → Option SkipList
  | 0, s => some s
  | k + 1, s => do
    let pu ← u.get? i
    let p ← pu
    let l ← linkAt s p i
    let s1 ← setLink s newPtr i l
    let s2 ← setLink s1 p i (some newPtr)
    insLink newPtr u (i + 1) k s2

/-- `void SkipList::insert(T val)`.  Mirrors the source: resize `update`,
scan top-down recording per-level predecessors, check the level-0 successor
for equality (duplicate insert is a no-op, though the mutated `update`
member persists), otherwise draw `new_level`, run the (dead, see
`randomLevel_le`) growth branch, allocate the node with `new_level + 1`
null links and splice it in at levels `0 … new_level`. -/
def insert (s : SkipList) (val : Int) (coins : List Bool) : Option SkipList := do
  let u0 := listResize s.update (s.max_level + 1)
  let (cur, u) ← insScan s val (s.max_level + 1) 0 u0
  let l ← linkAt s cur 0
  let dup ← match l with
    | none => pure false
    | some q => do
      let n ← getNode s q
      pure (n.value == val)
  if dup then
    pure { s with update := u }
  else
    let lvl := randomLevel s.max_level coins
    let (ml, u2) :=
      if s.max_level < lvl then
        (lvl, (listResize u (lvl + 1)).set (s.max_level + 1) (some 0))
      else (s.max_level, u)
    let newPtr := s.arena.length
    let s1 : SkipList :=
      { max_level := ml
        arena := s.arena ++ [some ⟨val, List.replicate (lvl + 1) none⟩]
        update := u2 }
    insLink newPtr u2 0 (lvl + 1) s1

/-- The top-down scan of `remove`: like `insScan`, but `update[i]` is only
written when `current->next[i]` exists and holds `val` (setting `found`);
a write with `i ≥ update.size()` would be out of bounds, hence `none`. -/
def remScan (s : SkipList) (val : Int) :
    Nat → Ptr → Bool → List (Option Ptr) → Option (Bool × List (Option Ptr))
  | 0, _, found, u => some (found, u)
  | k + 1, cur, found, u => do
    let cur2 ← walkLt s k val cur s.fuel
    let l ← linkAt s cur2 k
    match l with
    | some q => do
      let n ← getNode s q
      if n.value == val then
        if k < u.length then remScan s val k cur2 true (u.set k (some cur2))
        else none
      else remScan s val k cur2 found u
    | none => remScan s val k cur2 found u

/-- The relink loop of `remove`:
`for (i = 0; i <= max_level; i++) { if (update[i]->next[i] != current)
break; update[i]->next[i] = current->next[i]; }` with `current = target`. -/
def remUnlink (u : List (Option Ptr)) (target : Ptr) (i : Nat) :
    Nat → SkipList → Option SkipList
  | 0, s => some s
  | k + 1, s => do
    let pu ← u.get? i
    let p ← pu
    let l ← linkAt s p i
    if l = some target then do
      let tl ← linkAt s target i
      let s1 ← setLink s p i tl
      remUnlink u target (i + 1) k s1
    else some s

/-- `while (max_level > 0 && header->next[max_level] == nullptr)
max_level--;` — returns the shrunk `max_level`. -/
def shrinkLevel (s : SkipList) : Nat → Option Nat
  | 0 => some 0
  | m + 1 => do
    let l ← linkAt s 0 (m + 1)
    match l with
    | none => shrinkLevel s m
    | some _ => some (m + 1)

/-- `bool SkipList::remove(T val)`.  Scan recording found levels, return
`false` if not found; otherwise read `current = update[0]->next[0]`
(a null `current` would be dereferenced by the relink loop: `none`),
relink, shrink `max_level`, `delete current` (free the arena slot). -/
def remove (s : SkipList) (val : Int) : Option (Bool × SkipList) := do
  let (found, u) ← remScan s val (s.max_level + 1) 0 false s.update
  if found then do
    let pu ← u.get? 0
    let p0 ← pu
    let tOpt ← linkAt s p0 0
    match tOpt with
    | none => none
    | some t => do
      let s1 ← remUnlink u t 0 (s.max_level + 1) s
      let ml ← shrinkLevel s1 s1.max_level
      pure (true, { max_level := ml, arena := s1.arena.set t none, update := u })
  else pure (false, { s with update := u })

/-- The counting loop shared by `getMedian` and the chain traversal:
`while (current != nullptr) { count++; current = current->next[0]; }`. -/
def countGo (s : SkipList) : Option Ptr → Nat → Option Nat
  | none, _ => some 0
  | some _, 0 => none
  | some p, f + 1 => do
    let l ← linkAt s p 0
    let c ← countGo s l f
    pure (c + 1)

/-- `for (i = 0; i < k; i++) current = current->next[0];` starting at a
non-null `current`; `none` if a null link is stepped through. -/
def stepsGo (s : SkipList) : Ptr → Nat → Option Ptr
  | p, 0 => some p
  | p, k + 1 => do
    let l ← linkAt s p 0
    match l with
    | none => none
    | some q => stepsGo s q k

/-- `T SkipList::getMedian() const` of `src/src/SkipList.h`: count the
level-0 chain; `throw std::out_of_range` (= `none`) when `count == 0`;
otherwise walk `count / 2` steps from the first element and return its
value. -/
def getMedian (s : SkipList) : Option Int := do
  let l0 ← linkAt s 0 0
  let n ← countGo s l0 s.fuel
  if n = 0 then none
  else do
    let p0 ← l0
    let p ← stepsGo s p0 (n / 2)
    let nd ← getNode s p
    pure nd.value

/-- `T SkipList::getMedian() const` of `src/examples/Filters/SkipList.h`:
identical, except that on an empty list it executes `return T();` — the
default value 0 is returned as an ordinary result, no failure is
signalled. -/
def getMedianEx (s : SkipList) : Option Int := do
  let l0 ← linkAt s 0 0
  let n ← countGo s l0 s.fuel
  if n = 0 then pure 0
  else do
    let p0 ← l0
    let p ← stepsGo s p0 (n / 2)
    let nd ← getNode s p
    pure nd.value

/-- The lookup loop of `at`: walk the level-0 chain counting; return the
value when `count == index`.  Falling off the end is the failure case:
`throw std::out_of_range` in `src/src/SkipList.h`, `return false` in
`src/examples/Filters/SkipList.h` — both are the recoverable failure
`none` here, no value is produced. -/
def atGo (s : SkipList) (idx : Nat) : Option Ptr → Nat → Nat → Option Int
  | none, _, _ => none
  | some _, _, 0 => none
  | some p, cnt, f + 1 => do
    let nd ← getNode s p
    if cnt = idx then pure nd.value
    else do
      let l ← linkAt s p 0
      atGo s idx l (cnt + 1) f

/-- `T SkipList::at(int index) const` (and the `bool at(int, T&)` variant
of the examples tree, which signals the same failure by returning
`false`). -/
def atIndex (s : SkipList) (idx : Nat) : Option Int := do
  let l0 ← linkAt s 0 0
  atGo s idx l0 0 s.fuel

/-- The level-0 chain of arena indices, by the same traversal as
`countGo`; used to state the invariants. -/
def chainGo (s : SkipList) : Option Ptr → Nat → Option (List Ptr)
  | none, _ => some []
  | some _, 0 => none
  | some p, f + 1 => do
    let l ← linkAt s p 0
    let rest ← chainGo s l f
    pure (p :: rest)

def chainPtrs (s : SkipList) : Option (List Ptr) := do
  let l0 ← linkAt s 0 0
  chainGo s l0 s.fuel

/-- The level-0 chain of stored values. -/
def chainVals (s : SkipList) : Option (List Int) := do
  let ps ← chainPtrs s
  ps.mapM fun p => (getNode s p).map Node.value

end SkipList

/-- One mutating call on a skip list; an insertion carries the coin flips
its `randomLevel()` consumes. -/
inductive SkOp where
  | ins (v : Int) (coins : List Bool)
  | rem (v : Int)
deriving DecidableEq, Repr

def skStep (s : SkipList) : SkOp → Option SkipList
  | .ins v coins => s.insert v coins
  | .rem v => (s.remove v).map Prod.snd

/-- Run a sequence of insert/remove calls on a freshly constructed
`SkipList(max_lvl)`. -/
def skRun (max_lvl : Nat) (ops : List SkOp) : Option SkipList :=
  ops.foldlM skStep (SkipList.create max_lvl)

/-- `static_cast<int16_t>` of a wider signed integer: two's-complement
wrap into `[-2^15, 2^15)`. -/
def wrap16 (x : Int) : Int := (x + 2 ^ 15) % 2 ^ 16 - 2 ^ 15

/-- Truncation toward zero of an exact rational, standing for the C++
`float`-to-integer conversion in `readExponentialAverage`. -/
def ratTrunc (q : ℚ) : Int := q.num.tdiv q.den

/-- The `MovingAverage<T, U>` engine state of
`src/examples/Filters/MovingAverage.h`, at the default instantiation
`T = U = int16_t`.  Field names follow the source.  `window` and
`cumulative_data` are the two `Vector<U>` members. -/
structure MovingAverage where
  enabled : Bool
  window_updated : Bool
  simple_moving_average_calculated : Bool
  cumulative_average_calculated : Bool
  weighted_moving_average_calculated : Bool
  exponential_moving_average_calculated : Bool
  moving_median_calculated : Bool
  input : Int
  simple_moving_average : Int
  cumulative_average : Int
  weighted_moving_average : Int
  exponential_moving_average : Int
  moving_median : Int
  window : List Int
  cumulative_data : List Int
deriving DecidableEq, Repr

namespace MovingAverage

/-- `MovingAverage()`: every flag false, every numeric field 0, both
vectors empty. -/
def create : MovingAverage :=
  ⟨false, false, false, false, false, false, false, 0, 0, 0, 0, 0, 0, [], []⟩

/-- `void begin()`: `enabled = true`. -/
def begin (s : MovingAverage) : MovingAverage := { s with enabled := true }

/-- `void end()`: `enabled = false`.  (`end` is a Lean keyword.) -/
def stop (s : MovingAverage) : MovingAverage := { s with enabled := false }

/-- `void add(T input)`: record the latest input, append
`static_cast<U>(input)` to `cumulative_data`, mark the window stale.  The
`T`-typed parameter itself narrows the caller's argument to `int16_t`. -/
def add (v : Int) (s : MovingAverage) : MovingAverage :=
  { s with
    input := wrap16 v
    cumulative_data := s.cumulative_data ++ [wrap16 v]
    window_updated := false }

/-- `void updateWindow(uint8_t window_size)`: push the latest input, after
erasing the front element when the window has reached `window_size`.
`erase(begin())` on an empty vector underflows its copy loop —
undefined behaviour, hence `none` (only reachable when `window_size = 0`).
Both branches end with `window_updated = true`. -/
def updateWindow (window_size : Nat) (s : MovingAverage) : Option MovingAverage :=
  if s.window.length < window_size then
    some { s with window := s.window ++ [s.input], window_updated := true }
  else
    match s.window with
    | [] => none
    | _ :: t => some { s with window := t ++ [s.input], window_updated := true }

/-- The lazy window sync shared by the three windowed reads:
`if (!window_updated) updateWindow(window_size);`. -/
def sync (window_size : Nat) (s : MovingAverage) : Option MovingAverage :=
  if s.window_updated = false then updateWindow window_size s else some s

/-- The `int32_t sum` accumulation loop of `readAverage`.  Windows hold at
most 255 `int16_t` values, so the 32-bit sum cannot overflow and is an
exact `Int`. -/
def sumList (l : List Int) : Int := l.foldl (· + ·) 0

/-- `U readAverage(uint8_t window_size)`: 0 when disabled; otherwise sync
the window, then `simple_moving_average = static_cast<U>(sum /
window.size())`.  A division by `size() == 0` is undefined behaviour
(`none`); the quotient is signed truncating division (on targets whose
`size_t` is wider than `int32_t` the C++ division would be unsigned — not
claim-relevant, no claim divides a negative sum). -/
def readAverage (window_size : Nat) (s : MovingAverage) : Option (Int × MovingAverage) :=
  if s.enabled = false then some (0, s)
  else do
    let s1 ← sync window_size s
    if s1.window.length = 0 then none
    else
      let avg := wrap16 ((sumList s1.window).tdiv s1.window.length)
      some (avg, { s1 with
        simple_moving_average := avg
        window_updated := true
        simple_moving_average_calculated := true })

/-- `U readCumulativeAverage()`: 0 when disabled; otherwise
`cumulative_average = static_cast<U>(sum / cumulative_data.size())` with
no guard on the divisor — `size() == 0` is a division by zero (`none`).
The `long` sum is modelled exactly (overflow of a 32-bit `long` on very
long histories is not claim-relevant). -/
def readCumulativeAverage (s : MovingAverage) : Option (Int × MovingAverage) :=
  if s.enabled = false then some (0, s)
  else
    if s.cumulative_data.length = 0 then none
    else
      let avg := wrap16 ((sumList s.cumulative_data).tdiv s.cumulative_data.length)
      some (avg, { s with
        cumulative_average := avg
        cumulative_average_calculated := true })

/-- The weighted accumulation loop of `readWeightedAverage`:
`for (uint8_t i = 0; i < window.size(); i++) { weight = i + 1;
weighted_sum += window[i] * weight; weight_total += weight; }`, folded
left over the indexed window. -/
def wFold (l : List Int) : Int × Int :=
  l.enum.foldl (fun a p => (a.1 + p.2 * ((p.1 : Int) + 1), a.2 + ((p.1 : Int) + 1))) (0, 0)

/-- `U readWeightedAverage(uint8_t window_size)`: 0 when disabled;
otherwise sync, accumulate `weighted_sum`/`weight_total`, and divide with
no guard: `weight_total == 0` (empty window) divides by zero (`none`).
A window longer than 255 would make the `uint8_t` loop counter wrap and
the loop never terminate (`none`); unreachable through the engine. -/
def readWeightedAverage (window_size : Nat) (s : MovingAverage) : Option (Int × MovingAverage) :=
  if s.enabled = false then some (0, s)
  else do
    let s1 ← sync window_size s
    if 255 < s1.window.length then none
    else
      let (weighted_sum, weight_total) := wFold s1.window
      if weight_total = 0 then none
      else
        let avg := wrap16 (weighted_sum.tdiv weight_total)
        some (avg, { s1 with
          weighted_moving_average := avg
          window_updated := true
          weighted_moving_average_calculated := true })

/-- `U readExponentialAverage(float smoothing_factor)`: 0 when disabled;
otherwise `ema = smoothing_factor * input + (1 - smoothing_factor) * ema`
computed in `float` and narrowed to `U` — modelled as exact rational
arithmetic truncated toward zero. -/
def readExponentialAverage (a : ℚ) (s : MovingAverage) : Option (Int × MovingAverage) :=
  if s.enabled = false then some (0, s)
  else
    let v := ratTrunc (a * (s.input : ℚ) + (1 - a) * (s.exponential_moving_average : ℚ))
    some (v, { s with
      exponential_moving_average := v
      exponential_moving_average_calculated := true })

/-- `SkipList<U> skiplist(window_size); for (val : window)
skiplist.insert(val);` — each insertion draws its own coin flips. -/
def buildSkipListGo (s : SkipList) : List Int → List (List Bool) → Option SkipList
  | [], _ => some s
  | v :: vs, cs => do
    let s1 ← s.insert v (cs.headD [])
    buildSkipListGo s1 vs cs.tail

/-- `U readMovingMedian(uint8_t window_size)`: 0 when disabled; otherwise
sync, build a fresh skip list from the window and take its
`getMedian()` (the examples-tree variant, which returns the default on an
empty list). -/
def readMovingMedian (window_size : Nat) (coinss : List (List Bool)) (s : MovingAverage) :
    Option (Int × MovingAverage) :=
  if s.enabled = false then some (0, s)
  else do
    let s1 ← sync window_size s
    let sl ← buildSkipListGo (SkipList.create window_size) s1.window coinss
    let m ← sl.getMedianEx
    some (m, { s1 with
      moving_median := m
      window_updated := true
      moving_median_calculated := true })

end MovingAverage

/-- One call on the engine, for reasoning over traces.  Window-size
arguments are the caller's `uint8_t` values. -/
inductive MOp where
  | begin
  | stop
  | add (v : Int)
  | rAvg (w : Nat)
  | rCum
  | rWeighted (w : Nat)
  | rExp (a : ℚ)
  | rMed (w : Nat) (coinss : List (List Bool))
deriving DecidableEq

def maStep (s : MovingAverage) : MOp → Option MovingAverage
  | .begin => some s.begin
  | .stop => some s.stop
  | .add v => some (s.add v)
  | .rAvg w => (s.readAverage w).map Prod.snd
  | .rCum => s.readCumulativeAverage.map Prod.snd
  | .rWeighted w => (s.readWeightedAverage w).map Prod.snd
  | .rExp a => (s.readExponentialAverage a).map Prod.snd
  | .rMed w cs => (s.readMovingMedian w cs).map Prod.snd

/-- Run a call sequence on a default-constructed engine. -/
def maRun (ops : List MOp) : Option MovingAverage :=
  ops.foldlM maStep MovingAverage.create

/-! ### Observation helpers and well-formedness of the skip list

`IsChain s i l ps` says: starting from the link value `l` and repeatedly
following `next[i]`, one visits exactly the nodes `ps` and ends at
`nullptr`.  `WF s ch` is the representation invariant tying a `SkipList`
state to its level-0 chain `ch`; it is established for every state
reachable by `insert`/`remove` calls from a fresh list. -/

/-- The value stored at a live slot (0 for a dead slot; only ever used on
live ones). -/
def SkipList.nodeVal (s : SkipList) (p : Ptr) : Int :=
  ((s.getNode p).map Node.value).getD 0

/-- The number of forward links of a slot, i.e. node level + 1 (0 for a
dead slot). -/
def SkipList.linkCount (s : SkipList) (p : Ptr) : Nat :=
  ((s.getNode p).map (fun n => n.next.length)).getD 0

inductive IsChain (s : SkipList) (i : Nat) : Option Ptr → List Ptr → Prop where
  | nil : IsChain s i none []
  | cons {p : Ptr} {l : Option Ptr} {ps : List Ptr} {n : Node}
      (hn : s.getNode p = some n) (hl : n.next.get? i = some l)
      (hc : IsChain s i l ps) : IsChain s i (some p) (p :: ps)

/-- The sub-chain of `ch` made of the nodes participating at level `i`
(their link vector has more than `i` entries). -/
def chainAt (s : SkipList) (ch : List Ptr) (i : Nat) : List Ptr :=
  ch.filter fun p => decide (i < s.linkCount p)

/-- Representation invariant of a skip list whose level-0 chain is `ch`:
the header is live with enough links; exactly the chain members (plus the
header) are live; every level-`i` traversal from the header visits exactly
the level-`i` participants of `ch` in order; values strictly increase
along `ch`; the persistent `update` vector holds only live pointers with
enough links, and is fully populated once the list is non-empty. -/
structure WF (s : SkipList) (ch : List Ptr) : Prop where
  hdr : ∃ hn, s.getNode 0 = some hn ∧ s.max_level + 1 ≤ hn.next.length
  alive : ∀ p ∈ ch, ∃ n, s.getNode p = some n
  closed : ∀ p n, p ≠ 0 → s.getNode p = some n → p ∈ ch
  nodup : (0 :: ch).Nodup
  levels : ∀ p ∈ ch, 1 ≤ s.linkCount p ∧ s.linkCount p ≤ s.max_level + 1
  sorted : (ch.map s.nodeVal).Pairwise (· < ·)
  chains : ∀ i, i ≤ s.max_level → ∃ l, s.linkAt 0 i = some l ∧ IsChain s i l (chainAt s ch i)
  upd_wf : ∀ i p, s.update.get? i = some (some p) → ∃ n, s.getNode p = some n ∧ i < n.next.length
  upd_full : ch ≠ [] → s.max_level + 1 ≤ s.update.length ∧
    ∀ i, i ≤ s.max_level → ∃ p, s.update.get? i = some (some p)

/-- Sorted insertion of a value into a sorted list of distinct values,
skipping duplicates — the abstract effect of `SkipList::insert` on the
level-0 value chain. -/
def sInsert (v : Int) (l : List Int) : List Int :=
  if v ∈ l then l else l.takeWhile (· < v) ++ v :: l.dropWhile (· < v)

/-- Does slot `p` hold a value below `v`? -/
def valBelow (s : SkipList) (v : Int) (p : Ptr) : Bool := decide (s.nodeVal p < v)

/-- The last node of the level-`i` chain with value below `v` (the header
0 if there is none): where the top-down scans stop at level `i`. -/
def predAt (s : SkipList) (ch : List Ptr) (v : Int) (i : Nat) : Ptr :=
  ((chainAt s ch i).takeWhile (valBelow s v)).getLastD 0

/-- The first node of the level-`i` chain with value not below `v`
(`none` if there is none): the link the scans inspect after stopping. -/
def nextGE (s : SkipList) (ch : List Ptr) (v : Int) (i : Nat) : Option Ptr :=
  ((chainAt s ch i).dropWhile (valBelow s v)).head?

/-- A chain segment: following `next[i]` from the link value `l` visits
exactly `ps` and then continues with link value `lout` (so `IsChain`
is a segment ending in `nullptr`). -/
inductive IsSeg (s : SkipList) (i : Nat) : Option Ptr → List Ptr → Option Ptr → Prop where
  | nil {l : Option Ptr} : IsSeg s i l [] l
  | cons {p : Ptr} {l2 lout : Option Ptr} {ps : List Ptr} {n : Node}
      (hn : s.getNode p = some n) (hl : n.next.get? i = some l2)
      (hc : IsSeg s i l2 ps lout) : IsSeg s i (some p) (p :: ps) lout

/-! ### Spec-side helpers for the engine claims -/

/-- The effect of one window sync on the window contents: append the new
sample, evicting the oldest first when the window has reached capacity. -/
def pushEvict (W : Nat) (x : Int) (w : List Int) : List Int :=
  if w.length < W then w ++ [x] else w.tail ++ [x]

/-- The last `n` elements of a list, in order. -/
def lastN (n : Nat) (l : List Int) : List Int := l.drop (l.length - n)

/-- Modelled from the spec: the linearly recency-weighted window sum with
weights `k+1, k+2, …` from position `k` on; `wSumFrom 0 l` assigns weights
`1 .. len` oldest-to-newest (`Σ (i+1)·l[i]`).  Compared against the
accumulation loop of `readWeightedAverage`. -/
def wSumFrom (k : Nat) : List Int → Int
  | [] => 0
  | x :: xs => x * ((k : Int) + 1) + wSumFrom (k + 1) xs

/-- The weight total from position `k` on: `Σ (k+i+1)`. -/
def wTotFrom (k : Nat) : List Int → Int
  | [] => 0
  | _ :: xs => ((k : Int) + 1) + wTotFrom (k + 1) xs

/-- Modelled from the spec: weights `1 .. len` oldest-to-newest. -/
def specWeightedSum (l : List Int) : Int := wSumFrom 0 l

/-- The triangular number `n·(n+1)/2` as an integer. -/
def triangular (n : Nat) : Int := ((n * (n + 1)) / 2 : Nat)

/-- A windowed read (simple, weighted, or median) with its caller-supplied
window size, for the once-per-add sync claims. -/
inductive WRead where
  | avg (w : Nat)
  | wavg (w : Nat)
  | med (w : Nat) (coinss : List (List Bool))
deriving DecidableEq

def WRead.size : WRead → Nat
  | .avg w => w
  | .wavg w => w
  | .med w _ => w

def WRead.apply : WRead → MovingAverage → Option (Int × MovingAverage)
  | .avg w, s => s.readAverage w
  | .wavg w, s => s.readWeightedAverage w
  | .med w cs, s => s.readMovingMedian w cs

def foldWReads (rs : List WRead) (s : MovingAverage) : Option MovingAverage :=
  rs.foldlM (fun st r => (r.apply st).map Prod.snd) s

/-- Does the call use window size `W` (vacuously true for non-windowed
calls)?  Used to fix a single window size across a trace. -/
def usesW (W : Nat) : MOp → Bool
  | .rAvg w => w == W
  | .rWeighted w => w == W
  | .rMed w _ => w == W
  | _ => true

/-- The regular calling pattern of the caller contract: every `add` is
followed by one windowed read (here `readAverage`) before the next
`add`. -/
def blockStepAvg (W : Nat) (s : MovingAverage) (v : Int) : Option MovingAverage :=
  ((s.add v).readAverage W).map Prod.snd

def runBlocksAvg (W : Nat) (vs : List Int) : Option MovingAverage :=
  vs.foldlM (blockStepAvg W) MovingAverage.create.begin

/-- The same pattern with `readWeightedAverage` as the windowed read. -/
def blockStepWAvg (W : Nat) (s : MovingAverage) (v : Int) : Option MovingAverage :=
  ((s.add v).readWeightedAverage W).map Prod.snd

def runBlocksWAvg (W : Nat) (vs : List Int) : Option MovingAverage :=
  vs.foldlM (blockStepWAvg W) MovingAverage.create.begin

/-- The static-local weighted-average state of
`src/src/MovingAverage.h::readWeightedAverage` (fields `num_elements`,
`window`, `sum`), for evaluating that variant on a concrete input
sequence. -/
structure WmaStatic where
  num_elements : Nat
  window : List Int
  sum : Int
deriving DecidableEq, Repr

/-- One enabled call of `U readWeightedAverage(uint8_t window_size)` from
`src/src/MovingAverage.h`, in its filling phase (`num_elements <
window_size`, the only phase exercised by the claim's `[1,2,3]` input):
`weight_coefficient = num_elements + 1; window[num_elements] = input;
sum += input * weight_coefficient; num_elements++;` and then
`weighted_moving_average = 2 * sum / (num_elements * (num_elements + 1))`.
The sliding phase is not modelled (`none`). -/
def wmaStaticStep (window_size : Nat) (input : Int) (st : WmaStatic) :
    Option (Int × WmaStatic) :=
  if st.num_elements < window_size then
    let w := (st.num_elements : Int) + 1
    let st1 : WmaStatic :=
      { num_elements := st.num_elements + 1
        window := st.window ++ [input]
        sum := st.sum + input * w }
    some (wrap16 ((2 * st1.sum).tdiv ((st1.num_elements : Int) * ((st1.num_elements : Int) + 1))),
      st1)
  else none

/-- Feed a sequence of inputs to the static-local variant, returning the
last output. -/
def wmaStaticRun (window_size : Nat) (vs : List Int) : Option Int :=
  (vs.foldlM (fun (a : Int × WmaStatic) v => wmaStaticStep window_size v a.2)
    ((0 : Int), (⟨0, [], 0⟩ : WmaStatic))).map Prod.fst

/-- Is the call an `add`? -/
def isAddOp : MOp → Bool
  | .add _ => true
  | _ => false

/-- The sample a call appends to the unbounded history (empty for
non-`add` calls). -/
def addedSample : MOp → List Int
  | .add v => [wrap16 v]
  | _ => []

/-! ## Engine lemmas -/

namespace MovingAverage

lemma updateWindow_eq {W : Nat} {s : MovingAverage} (h : s.window ≠ [] ∨ 1 ≤ W) :
    updateWindow W s =
      some { s with window := pushEvict W s.input s.window, window_updated := true } := by
  unfold updateWindow pushEvict
  by_cases hlt : s.window.length < W
  · simp [hlt]
  · simp only [if_neg hlt]
    match hw : s.window with
    | [] =>
      exfalso
      rcases h with h | h
      · exact h hw
      · rw [hw] at hlt; simp at hlt; omega
    | a :: t => simp

lemma sync_of_updated {W : Nat} {s : MovingAverage} (h : s.window_updated = true) :
    sync W s = some s := by
  simp [sync, h]

lemma sync_of_stale {W : Nat} {s : MovingAverage} (h : s.window_updated = false)
    (h2 : s.window ≠ [] ∨ 1 ≤ W) :
    sync W s =
      some { s with window := pushEvict W s.input s.window, window_updated := true } := by
  simp [sync, h, updateWindow_eq h2]

/-- Whatever a `sync` does, it only touches `window` and `window_updated`. -/
lemma sync_frame {W : Nat} {s s1 : MovingAverage} (h : sync W s = some s1) :
    s1.enabled = s.enabled ∧ s1.cumulative_data = s.cumulative_data ∧
      s1.input = s.input := by
  unfold sync updateWindow at h
  by_cases hu : s.window_updated = false
  · simp only [hu, if_pos rfl] at h
    by_cases hlt : s.window.length < W
    · simp [hlt] at h; subst h; exact ⟨rfl, rfl, rfl⟩
    · simp only [if_neg hlt] at h
      match hw : s.window with
      | [] => rw [hw] at h; exact absurd h (by simp)
      | a :: t => rw [hw] at h; simp at h; subst h; exact ⟨rfl, rfl, rfl⟩
  · simp only [hu] at h
    simp at h hu
    subst h; exact ⟨rfl, rfl, rfl⟩

/-- `readAverage` never touches `cumulative_data` or `enabled`. -/
lemma readAverage_frame {w : Nat} {x : Int} {s s1 : MovingAverage}
    (h : readAverage w s = some (x, s1)) :
    s1.cumulative_data = s.cumulative_data ∧ s1.enabled = s.enabled := by
  unfold readAverage at h
  by_cases he : s.enabled = false
  · rw [if_pos he] at h
    simp at h
    rw [← h.2]
    exact ⟨rfl, rfl⟩
  · rw [if_neg he] at h
    obtain ⟨s2, hs2, h2⟩ := Option.bind_eq_some.mp h
    by_cases hl : s2.window.length = 0
    · rw [if_pos hl] at h2; exact absurd h2 (by simp)
    · rw [if_neg hl] at h2
      simp at h2
      obtain ⟨hf, hs⟩ := sync_frame hs2
      rw [← h2.2]
      exact ⟨hs.1, hf⟩

lemma readCumulativeAverage_frame {x : Int} {s s1 : MovingAverage}
    (h : readCumulativeAverage s = some (x, s1)) :
    s1.cumulative_data = s.cumulative_data ∧ s1.enabled = s.enabled := by
  unfold readCumulativeAverage at h
  by_cases he : s.enabled = false
  · rw [if_pos he] at h
    simp at h
    rw [← h.2]; exact ⟨rfl, rfl⟩
  · rw [if_neg he] at h
    by_cases hl : s.cumulative_data.length = 0
    · rw [if_pos hl] at h; exact absurd h (by simp)
    · rw [if_neg hl] at h
      simp at h
      rw [← h.2]; exact ⟨rfl, rfl⟩

lemma readWeightedAverage_frame {w : Nat} {x : Int} {s s1 : MovingAverage}
    (h : readWeightedAverage w s = some (x, s1)) :
    s1.cumulative_data = s.cumulative_data ∧ s1.enabled = s.enabled := by
  unfold readWeightedAverage at h
  by_cases he : s.enabled = false
  · rw [if_pos he] at h
    simp at h
    rw [← h.2]; exact ⟨rfl, rfl⟩
  · rw [if_neg he] at h
    obtain ⟨s2, hs2, h2⟩ := Option.bind_eq_some.mp h
    obtain ⟨hf, hs⟩ := sync_frame hs2
    by_cases hl : 255 < s2.window.length
    · rw [if_pos hl] at h2; exact absurd h2 (by simp)
    · rw [if_neg hl] at h2
      rcases hw : wFold s2.window with ⟨ws, wt⟩
      rw [hw] at h2
      dsimp only at h2
      by_cases hz : wt = 0
      · rw [if_pos hz] at h2; exact absurd h2 (by simp)
      · rw [if_neg hz] at h2
        simp at h2
        rw [← h2.2]; exact ⟨hs.1, hf⟩

lemma readExponentialAverage_frame {a : ℚ} {x : Int} {s s1 : MovingAverage}
    (h : readExponentialAverage a s = some (x, s1)) :
    s1.cumulative_data = s.cumulative_data ∧ s1.enabled = s.enabled := by
  unfold readExponentialAverage at h
  by_cases he : s.enabled = false
  · rw [if_pos he] at h
    simp at h
    rw [← h.2]; exact ⟨rfl, rfl⟩
  · rw [if_neg he] at h
    simp at h
    rw [← h.2]; exact ⟨rfl, rfl⟩

lemma readMovingMedian_frame {w : Nat} {cs : List (List Bool)} {x : Int}
    {s s1 : MovingAverage} (h : readMovingMedian w cs s = some (x, s1)) :
    s1.cumulative_data = s.cumulative_data ∧ s1.enabled = s.enabled := by
  unfold readMovingMedian at h
  by_cases he : s.enabled = false
  · rw [if_pos he] at h
    simp at h
    rw [← h.2]; exact ⟨rfl, rfl⟩
  · rw [if_neg he] at h
    obtain ⟨s2, hs2, h2⟩ := Option.bind_eq_some.mp h
    obtain ⟨sl, _, h3⟩ := Option.bind_eq_some.mp h2
    obtain ⟨m, _, h4⟩ := Option.bind_eq_some.mp h3
    simp at h4
    obtain ⟨hf, hs⟩ := sync_frame hs2
    rw [← h4.2]; exact ⟨hs.1, hf⟩

end MovingAverage

/-- Each engine call appends to `cumulative_data` exactly when it is an
`add` (of the narrowed sample), and preserves `enabled` except for
`begin`/`stop`. -/
lemma maStep_cumulative {s s1 : MovingAverage} {op : MOp} (h : maStep s op = some s1) :
    s1.cumulative_data = s.cumulative_data ++ addedSample op := by
  cases op with
  | begin => simp [maStep, MovingAverage.begin] at h; rw [← h]; simp [addedSample]
  | stop => simp [maStep, MovingAverage.stop] at h; rw [← h]; simp [addedSample]
  | add v => simp [maStep, MovingAverage.add] at h; rw [← h]; simp [addedSample]
  | rAvg w =>
    simp only [maStep, Option.map_eq_some'] at h
    obtain ⟨⟨x, s2⟩, hr, he⟩ := h
    rw [← he]
    simpa [addedSample] using (MovingAverage.readAverage_frame hr).1
  | rCum =>
    simp only [maStep, Option.map_eq_some'] at h
    obtain ⟨⟨x, s2⟩, hr, he⟩ := h
    rw [← he]
    simpa [addedSample] using (MovingAverage.readCumulativeAverage_frame hr).1
  | rWeighted w =>
    simp only [maStep, Option.map_eq_some'] at h
    obtain ⟨⟨x, s2⟩, hr, he⟩ := h
    rw [← he]
    simpa [addedSample] using (MovingAverage.readWeightedAverage_frame hr).1
  | rExp a =>
    simp only [maStep, Option.map_eq_some'] at h
    obtain ⟨⟨x, s2⟩, hr, he⟩ := h
    rw [← he]
    simpa [addedSample] using (MovingAverage.readExponentialAverage_frame hr).1
  | rMed w cs =>
    simp only [maStep, Option.map_eq_some'] at h
    obtain ⟨⟨x, s2⟩, hr, he⟩ := h
    rw [← he]
    simpa [addedSample] using (MovingAverage.readMovingMedian_frame hr).1

/-- Along any run, `cumulative_data` grows by exactly the `add`ed samples.
Nothing ever removes from it. -/
lemma maRun_cumulative_length : ∀ (tr : List MOp) (s0 s : MovingAverage),
    tr.foldlM maStep s0 = some s →
    s.cumulative_data.length = s0.cumulative_data.length + (tr.filter isAddOp).length := by
  intro tr
  induction tr with
  | nil => intro s0 s h; simp at h; rw [h]; simp
  | cons op tr ih =>
    intro s0 s h
    rw [List.foldlM_cons] at h
    obtain ⟨s1, h1, h2⟩ := Option.bind_eq_some.mp h
    have hc := maStep_cumulative h1
    have hr := ih s1 s h2
    rw [hr, hc]
    cases op <;> simp [isAddOp, addedSample, List.filter] <;> omega

/-- C7.  After `end()` (modelled as `stop`), every one of the five read
operations returns 0 and leaves the state exactly as it was (so no
accumulator or counter changes), and a subsequent `begin()` yields the
same state as calling `begin()` before the disablement — the estimator
state resumes exactly from its value before disablement. -/
theorem stop_reads_default_and_frame (s : MovingAverage) (w : Nat) (a : ℚ)
    (cs : List (List Bool)) :
    s.stop.readAverage w = some (0, s.stop) ∧
    s.stop.readCumulativeAverage = some (0, s.stop) ∧
    s.stop.readWeightedAverage w = some (0, s.stop) ∧
    s.stop.readExponentialAverage a = some (0, s.stop) ∧
    s.stop.readMovingMedian w cs = some (0, s.stop) ∧
    s.stop.begin = s.begin := by
  refine ⟨?_, ?_, ?_, ?_, ?_, rfl⟩ <;>
    simp [MovingAverage.readAverage, MovingAverage.readCumulativeAverage,
      MovingAverage.readWeightedAverage, MovingAverage.readExponentialAverage,
      MovingAverage.readMovingMedian, MovingAverage.stop]

/-- C10.  `readCumulativeAverage` divides by `cumulative_data.size()`
with no zero guard: on every enabled engine reached by a trace containing
at least one `add` the divisor is nonzero and the read succeeds, while
calling it enabled before any `add` (fresh engine after `begin`) runs into
the division by zero (`none`). -/
theorem readCumulativeAverage_guard :
    (∀ (tr : List MOp) (s : MovingAverage), maRun tr = some s → s.enabled = true →
      tr.filter isAddOp ≠ [] → ∃ v s2, s.readCumulativeAverage = some (v, s2)) ∧
    MovingAverage.create.begin.readCumulativeAverage = none := by
  constructor
  · intro tr s hrun he hadd
    have hlen := maRun_cumulative_length tr MovingAverage.create s hrun
    have h0 : s.cumulative_data.length ≠ 0 := by
      simp [MovingAverage.create] at hlen
      rw [hlen]
      simpa using hadd
    unfold MovingAverage.readCumulativeAverage
    rw [if_neg (by simp [he]), if_neg h0]
    exact ⟨_, _, rfl⟩
  · rfl

/-- Witness for the reachability hypotheses of
`readCumulativeAverage_guard`. -/
theorem readCumulativeAverage_guard_witness :
    ∃ v s2, (MovingAverage.create.begin.add 7).readCumulativeAverage = some (v, s2) :=
  readCumulativeAverage_guard.1 [MOp.begin, MOp.add 7]
    (MovingAverage.create.begin.add 7) (by decide) (by decide) (by decide)

/-- `updateWindow`, when it succeeds, replaces the window with
`pushEvict` of the latest input and marks it updated. -/
lemma MovingAverage.updateWindow_some {W : Nat} {s s1 : MovingAverage}
    (h : MovingAverage.updateWindow W s = some s1) :
    s1 = { s with window := pushEvict W s.input s.window, window_updated := true } ∧
      (s.window.length < W ∨ s.window ≠ []) := by
  unfold MovingAverage.updateWindow at h
  by_cases hlt : s.window.length < W
  · rw [if_pos hlt] at h
    simp at h
    exact ⟨h.symm ▸ by simp [pushEvict, hlt], Or.inl hlt⟩
  · rw [if_neg hlt] at h
    match hw : s.window with
    | [] => rw [hw] at h; exact absurd h (by simp)
    | a :: t =>
      rw [hw] at h hlt
      simp at h
      refine ⟨?_, Or.inr (by simp [hw])⟩
      rw [← h]
      simp only [pushEvict, hw, List.tail_cons]
      rw [if_neg (by simpa using hlt)]

lemma MovingAverage.sync_some {W : Nat} {s s1 : MovingAverage}
    (h : MovingAverage.sync W s = some s1) :
    s1.window = s.window ∨
      (s1.window = pushEvict W s.input s.window ∧ (s.window.length < W ∨ s.window ≠ [])) := by
  unfold MovingAverage.sync at h
  by_cases hu : s.window_updated = false
  · rw [if_pos hu] at h
    obtain ⟨he, hc⟩ := MovingAverage.updateWindow_some h
    exact Or.inr ⟨by rw [he], hc⟩
  · rw [if_neg hu] at h
    simp at h
    rw [← h]
    exact Or.inl rfl

/-- The window after a successful windowed read: unchanged, or one
`pushEvict` of the latest input. -/
lemma WRead.apply_window {r : WRead} {s : MovingAverage} {x : Int} {s1 : MovingAverage}
    (h : r.apply s = some (x, s1)) :
    s1.window = s.window ∨
      (s1.window = pushEvict r.size s.input s.window ∧
        (s.window.length < r.size ∨ s.window ≠ [])) := by
  cases r with
  | avg w =>
    simp only [WRead.apply] at h
    unfold MovingAverage.readAverage at h
    by_cases he : s.enabled = false
    · rw [if_pos he] at h; simp at h; rw [← h.2]; exact Or.inl rfl
    · rw [if_neg he] at h
      obtain ⟨s2, hs2, h2⟩ := Option.bind_eq_some.mp h
      by_cases hl : s2.window.length = 0
      · rw [if_pos hl] at h2; exact absurd h2 (by simp)
      · rw [if_neg hl] at h2
        simp at h2
        have : s1.window = s2.window := by rw [← h2.2]
        rw [this]
        exact MovingAverage.sync_some hs2
  | wavg w =>
    simp only [WRead.apply] at h
    unfold MovingAverage.readWeightedAverage at h
    by_cases he : s.enabled = false
    · rw [if_pos he] at h; simp at h; rw [← h.2]; exact Or.inl rfl
    · rw [if_neg he] at h
      obtain ⟨s2, hs2, h2⟩ := Option.bind_eq_some.mp h
      by_cases hl : 255 < s2.window.length
      · rw [if_pos hl] at h2; exact absurd h2 (by simp)
      · rw [if_neg hl] at h2
        rcases hw : MovingAverage.wFold s2.window with ⟨ws, wt⟩
        rw [hw] at h2
        dsimp only at h2
        by_cases hz : wt = 0
        · rw [if_pos hz] at h2; exact absurd h2 (by simp)
        · rw [if_neg hz] at h2
          simp at h2
          have : s1.window = s2.window := by rw [← h2.2]
          rw [this]
          exact MovingAverage.sync_some hs2
  | med w cs =>
    simp only [WRead.apply] at h
    unfold MovingAverage.readMovingMedian at h
    by_cases he : s.enabled = false
    · rw [if_pos he] at h; simp at h; rw [← h.2]; exact Or.inl rfl
    · rw [if_neg he] at h
      obtain ⟨s2, hs2, h2⟩ := Option.bind_eq_some.mp h
      obtain ⟨sl, _, h3⟩ := Option.bind_eq_some.mp h2
      obtain ⟨m, _, h4⟩ := Option.bind_eq_some.mp h3
      simp at h4
      have : s1.window = s2.window := by rw [← h4.2]
      rw [this]
      exact MovingAverage.sync_some hs2

/-- `pushEvict` keeps the window length bounded by the capacity, given
that it was so before (and that the evicting branch had something to
evict). -/
lemma pushEvict_length_le {W : Nat} {x : Int} {w : List Int}
    (hb : w.length ≤ W) (hc : w.length < W ∨ w ≠ []) :
    (pushEvict W x w).length ≤ W := by
  unfold pushEvict
  by_cases hlt : w.length < W
  · rw [if_pos hlt]; simp; omega
  · rw [if_neg hlt]
    rcases w with _ | ⟨a, t⟩
    · rcases hc with hc | hc
      · exact absurd hc hlt
      · exact absurd rfl hc
    · simp at hb ⊢
      omega

/-- Non-windowed reads never touch the window. -/
lemma readCumulativeAverage_window {x : Int} {s s1 : MovingAverage}
    (h : MovingAverage.readCumulativeAverage s = some (x, s1)) : s1.window = s.window := by
  unfold MovingAverage.readCumulativeAverage at h
  by_cases he : s.enabled = false
  · rw [if_pos he] at h; simp at h; rw [← h.2]
  · rw [if_neg he] at h
    by_cases hl : s.cumulative_data.length = 0
    · rw [if_pos hl] at h; exact absurd h (by simp)
    · rw [if_neg hl] at h; simp at h; rw [← h.2]

lemma readExponentialAverage_window {a : ℚ} {x : Int} {s s1 : MovingAverage}
    (h : MovingAverage.readExponentialAverage a s = some (x, s1)) : s1.window = s.window := by
  unfold MovingAverage.readExponentialAverage at h
  by_cases he : s.enabled = false
  · rw [if_pos he] at h; simp at h; rw [← h.2]
  · rw [if_neg he] at h; simp at h; rw [← h.2]

/-- One engine call keeps `window.length ≤ W` when its windowed reads all
use size `W`. -/
lemma maStep_window_bound {W : Nat} {s s1 : MovingAverage} {op : MOp}
    (h : maStep s op = some s1) (hu : usesW W op = true)
    (hb : s.window.length ≤ W) : s1.window.length ≤ W := by
  cases op with
  | begin => simp [maStep, MovingAverage.begin] at h; rw [← h]; exact hb
  | stop => simp [maStep, MovingAverage.stop] at h; rw [← h]; exact hb
  | add v => simp [maStep, MovingAverage.add] at h; rw [← h]; exact hb
  | rCum =>
    simp only [maStep, Option.map_eq_some'] at h
    obtain ⟨⟨x, s2⟩, hr, he⟩ := h
    rw [← he, readCumulativeAverage_window hr]
    exact hb
  | rExp a =>
    simp only [maStep, Option.map_eq_some'] at h
    obtain ⟨⟨x, s2⟩, hr, he⟩ := h
    rw [← he, readExponentialAverage_window hr]
    exact hb
  | rAvg w =>
    simp only [maStep, Option.map_eq_some'] at h
    obtain ⟨⟨x, s2⟩, hr, he⟩ := h
    simp [usesW] at hu
    subst hu
    rcases WRead.apply_window (r := WRead.avg w) hr with hw | ⟨hw, hc⟩
    · rw [← he, hw]; exact hb
    · rw [← he, hw]; exact pushEvict_length_le hb hc
  | rWeighted w =>
    simp only [maStep, Option.map_eq_some'] at h
    obtain ⟨⟨x, s2⟩, hr, he⟩ := h
    simp [usesW] at hu
    subst hu
    rcases WRead.apply_window (r := WRead.wavg w) hr with hw | ⟨hw, hc⟩
    · rw [← he, hw]; exact hb
    · rw [← he, hw]; exact pushEvict_length_le hb hc
  | rMed w cs =>
    simp only [maStep, Option.map_eq_some'] at h
    obtain ⟨⟨x, s2⟩, hr, he⟩ := h
    simp [usesW] at hu
    subst hu
    rcases WRead.apply_window (r := WRead.med w cs) hr with hw | ⟨hw, hc⟩
    · rw [← he, hw]; exact hb
    · rw [← he, hw]; exact pushEvict_length_le hb hc

/-- C5 counterexample.  The trace `begin; add 1; add 2; readAverage(3)`
performs two `add`s with no windowed read between them: the window after
the read holds only `[2]`, not the last `min(count, window_size) = 2`
samples `[1, 2]` required by the claim — the first sample was lost because
the lazy sync appends only the latest input. -/
theorem window_loses_unread_sample :
    (maRun [MOp.begin, MOp.add 1, MOp.add 2, MOp.rAvg 3]).map MovingAverage.window =
      some [2] ∧
    lastN (min 2 3) [1, 2] = [1, 2] ∧ ([2] : List Int) ≠ [1, 2] := by
  refine ⟨by decide, by decide, by decide⟩

/-- A regular block (`add v` then `readAverage W`) on an enabled engine
always succeeds and performs exactly one `pushEvict` on the window. -/
lemma blockStepAvg_some {W : Nat} {s : MovingAverage} (v : Int)
    (he : s.enabled = true) (hW : 1 ≤ W) :
    ∃ s1, blockStepAvg W s v = some s1 ∧
      s1.window = pushEvict W (wrap16 v) s.window ∧ s1.enabled = true := by
  unfold blockStepAvg
  have hadd : (s.add v).window_updated = false := rfl
  have hsync := MovingAverage.sync_of_stale (W := W) (s := s.add v) hadd
    (Or.inr hW)
  have hwin : (pushEvict W (s.add v).input (s.add v).window).length ≠ 0 := by
    unfold pushEvict
    by_cases hlt : (s.add v).window.length < W
    · rw [if_pos hlt]; simp
    · rw [if_neg hlt]; simp
  have hne : ¬((s.add v).enabled = false) := by simp [MovingAverage.add, he]
  unfold MovingAverage.readAverage
  rw [if_neg hne, hsync]
  simp only [Option.bind_eq_bind', Option.some_bind]
  rw [if_neg hwin]
  refine ⟨_, rfl, ?_, ?_⟩
  · simp [MovingAverage.add]
  · simp [MovingAverage.add, he]

/-- `pushEvict` turns the last-`min(n, W)` window of `vs` into the
last-`min(n+1, W)` window of `vs ++ [v]`. -/
lemma pushEvict_lastN {W : Nat} (hW : 1 ≤ W) (vs : List Int) (v : Int) :
    pushEvict W (wrap16 v) (lastN (min vs.length W) (vs.map wrap16)) =
      lastN (min (vs.length + 1) W) ((vs ++ [v]).map wrap16) := by
  have hlen : (vs.map wrap16).length = vs.length := by simp
  have hdlen : (lastN (min vs.length W) (vs.map wrap16)).length = min vs.length W := by
    unfold lastN
    simp
    omega
  unfold pushEvict
  by_cases hlt : vs.length < W
  · rw [if_pos (by rw [hdlen]; omega)]
    unfold lastN
    have e1 : min vs.length W = vs.length := by omega
    have e2 : min (vs.length + 1) W = vs.length + 1 := by omega
    rw [e1, e2, hlen]
    simp
  · rw [if_neg (by rw [hdlen]; omega)]
    unfold lastN
    have e1 : min vs.length W = W := by omega
    have e2 : min (vs.length + 1) W = W := by omega
    rw [e1, e2, hlen, List.map_append]
    simp only [List.length_append, List.length_map, List.length_cons, List.length_nil]
    rw [List.tail_drop, List.drop_append_of_le_length (by simp; omega)]
    simp only [List.map_cons, List.map_nil]
    congr 2
    omega

/-- Along the regular block pattern the engine stays enabled and the
window is exactly the last `min(count, W)` narrowed samples. -/
lemma runBlocksAvg_spec {W : Nat} (hW : 1 ≤ W) : ∀ (vs : List Int) (s : MovingAverage),
    runBlocksAvg W vs = some s →
    s.enabled = true ∧ s.window = lastN (min vs.length W) (vs.map wrap16) := by
  intro vs
  induction vs using List.reverseRecOn with
  | nil =>
    intro s h
    simp [runBlocksAvg] at h
    rw [← h]
    exact ⟨rfl, by simp [MovingAverage.create, MovingAverage.begin, lastN]⟩
  | append_singleton vs v ih =>
    intro s h
    unfold runBlocksAvg at h ih
    rw [List.foldlM_append] at h
    obtain ⟨s1, h1, h2⟩ := Option.bind_eq_some.mp h
    obtain ⟨hen1, hwin1⟩ := ih s1 h1
    obtain ⟨s2, hstep, hw2, hen2⟩ := blockStepAvg_some v hen1 hW
    simp only [List.foldlM_cons, List.foldlM_nil, hstep, Option.bind_some] at h2
    simp at h2
    rw [← h2]
    refine ⟨hen2, ?_⟩
    rw [hw2, hwin1, pushEvict_lastN hW]
    simp

/-- C5 as amended.  (a) For every trace whose windowed reads all use the
fixed window size `W`, the window length never exceeds `W`.  (b) Under the
caller contract — every `add` followed by a windowed read before the next
`add` — the window after each block is exactly the last
`min(count, window_size)` narrowed samples in arrival order, the oldest
evicted first. -/
theorem window_bound_and_contents :
    (∀ (W : Nat) (tr : List MOp) (s : MovingAverage),
      (∀ op ∈ tr, usesW W op = true) → maRun tr = some s → s.window.length ≤ W) ∧
    (∀ (W : Nat) (vs : List Int) (s : MovingAverage), 1 ≤ W →
      runBlocksAvg W vs = some s →
      s.window = lastN (min vs.length W) (vs.map wrap16)) := by
  constructor
  · intro W tr
    suffices h : ∀ (s0 s : MovingAverage), (∀ op ∈ tr, usesW W op = true) →
        s0.window.length ≤ W → tr.foldlM maStep s0 = some s → s.window.length ≤ W by
      intro s hall hrun
      exact h MovingAverage.create s hall (by simp [MovingAverage.create]) hrun
    induction tr with
    | nil => intro s0 s _ hb h; simp at h; rw [← h]; exact hb
    | cons op tr ih =>
      intro s0 s hall hb h
      rw [List.foldlM_cons] at h
      obtain ⟨s1, h1, h2⟩ := Option.bind_eq_some.mp h
      exact ih s1 s (fun o ho => hall o (List.mem_cons_of_mem _ ho))
        (maStep_window_bound h1 (hall op (List.mem_cons_self _ _)) hb) h2
  · intro W vs s hW h
    exact (runBlocksAvg_spec hW vs s h).2

/-- Witness for `window_bound_and_contents` at `W = 2` and samples
`[1, 2, 3]`. -/
theorem window_bound_and_contents_witness :
    ((maRun [MOp.begin, MOp.add 1, MOp.rAvg 2]).map
        (fun s => decide (s.window.length ≤ 2)) = some true) ∧
    ((runBlocksAvg 2 [1, 2, 3]).map MovingAverage.window =
      some (lastN (min 3 2) ([1, 2, 3].map wrap16))) := by
  constructor
  · rcases hr : maRun [MOp.begin, MOp.add 1, MOp.rAvg 2] with _ | s
    · exact absurd hr (by decide)
    · have hb := window_bound_and_contents.1 2 _ s (by decide) hr
      simp [hb]
  · rcases hr : runBlocksAvg 2 [1, 2, 3] with _ | s
    · exact absurd hr (by decide)
    · have hb := window_bound_and_contents.2 2 [1, 2, 3] s (by decide) hr
      simp [hb]

lemma triangular_succ (n : Nat) : triangular (n + 1) = triangular n + ((n : Int) + 1) := by
  unfold triangular
  have h : (n + 1) * (n + 1 + 1) = n * (n + 1) + (n + 1) * 2 := by ring
  rw [h, Nat.add_mul_div_right _ _ (by norm_num)]
  push_cast
  ring

lemma triangular_pos {n : Nat} (h : 1 ≤ n) : 1 ≤ triangular n := by
  unfold triangular
  have : 1 * 2 ≤ n * (n + 1) := Nat.mul_le_mul h (by omega)
  have h2 : 1 ≤ n * (n + 1) / 2 := (Nat.le_div_iff_mul_le (by norm_num)).mpr this
  exact_mod_cast h2

lemma wFold_go : ∀ (l : List Int) (k : Nat) (a b : Int),
    (l.enumFrom k).foldl
        (fun acc p => (acc.1 + p.2 * ((p.1 : Int) + 1), acc.2 + ((p.1 : Int) + 1)))
        (a, b) =
      (a + wSumFrom k l, b + wTotFrom k l) := by
  intro l
  induction l with
  | nil => intro k a b; simp [wSumFrom, wTotFrom]
  | cons x xs ih =>
    intro k a b
    simp only [List.enumFrom_cons, List.foldl_cons]
    rw [ih]
    simp only [wSumFrom, wTotFrom, Prod.mk.injEq]
    constructor <;> ring

/-- The accumulation loop of `readWeightedAverage` computes the
oldest-to-newest linear weighting of the spec and the running weight
total. -/
lemma wFold_eq (l : List Int) :
    MovingAverage.wFold l = (specWeightedSum l, wTotFrom 0 l) := by
  unfold MovingAverage.wFold specWeightedSum List.enum
  rw [wFold_go]
  simp

lemma wTotFrom_shift : ∀ (l : List Int) (k : Nat),
    wTotFrom (k + 1) l = wTotFrom k l + l.length := by
  intro l
  induction l with
  | nil => intro k; simp [wTotFrom]
  | cons x xs ih =>
    intro k
    unfold wTotFrom
    rw [ih (k + 1)]
    push_cast [List.length_cons]
    ring

/-- The loop's weight total is the triangular number
`len·(len+1)/2` of the spec. -/
lemma wTot_eq_triangular : ∀ l : List Int, wTotFrom 0 l = triangular l.length := by
  intro l
  induction l with
  | nil => simp [wTotFrom, triangular]
  | cons x xs ih =>
    unfold wTotFrom
    rw [wTotFrom_shift, ih]
    simp only [List.length_cons, triangular_succ]
    push_cast
    ring

/-- An enabled weighted read on a synced state divides the weighted sum by
the triangular weight total — silently, there is no guard. -/
lemma readWeightedAverage_of_sync {W : Nat} {s s1 : MovingAverage}
    (he : s.enabled = true) (hs : MovingAverage.sync W s = some s1)
    (hne : s1.window ≠ []) (h255 : s1.window.length ≤ 255) :
    s.readWeightedAverage W =
      some (wrap16 ((specWeightedSum s1.window).tdiv (triangular s1.window.length)),
        { s1 with
          weighted_moving_average :=
            wrap16 ((specWeightedSum s1.window).tdiv (triangular s1.window.length))
          window_updated := true
          weighted_moving_average_calculated := true }) := by
  have hlen : 1 ≤ s1.window.length := by
    cases hw : s1.window with
    | nil => exact absurd hw hne
    | cons a t => simp [hw]
  have hz : triangular s1.window.length ≠ 0 := by
    have := triangular_pos hlen
    omega
  unfold MovingAverage.readWeightedAverage
  rw [if_neg (by simp [he]), hs]
  simp only [Option.bind_eq_bind', Option.some_bind]
  rw [if_neg (by omega), wFold_eq, wTot_eq_triangular]
  dsimp only
  rw [if_neg hz]

lemma pushEvict_ne_nil {W : Nat} {x : Int} {w : List Int} : pushEvict W x w ≠ [] := by
  unfold pushEvict
  by_cases hlt : w.length < W
  · rw [if_pos hlt]; simp
  · rw [if_neg hlt]; simp

lemma pushEvict_length_le_succ {W : Nat} {x : Int} {w : List Int} :
    (pushEvict W x w).length ≤ w.length + 1 := by
  unfold pushEvict
  by_cases hlt : w.length < W
  · rw [if_pos hlt]; simp
  · rw [if_neg hlt]
    rcases w with _ | ⟨a, t⟩ <;> simp

lemma lastN_length (n : Nat) (l : List Int) : (lastN n l).length = min n l.length := by
  unfold lastN
  simp
  omega

/-- A weighted block (`add v` then `readWeightedAverage W`) on an enabled
engine: the window gets one `pushEvict` and the output is the spec's
weighted sum over the new window, divided (truncating) by the triangular
weight total. -/
lemma blockStepWAvg_some {W : Nat} {s : MovingAverage} (v : Int)
    (he : s.enabled = true) (hW : 1 ≤ W)
    (h255 : (pushEvict W (wrap16 v) s.window).length ≤ 255) :
    ∃ s1, blockStepWAvg W s v = some s1 ∧
      s1.window = pushEvict W (wrap16 v) s.window ∧ s1.enabled = true ∧
      s1.weighted_moving_average =
        wrap16 ((specWeightedSum s1.window).tdiv (triangular s1.window.length)) := by
  unfold blockStepWAvg
  have hadd : (s.add v).window_updated = false := rfl
  have hsync := MovingAverage.sync_of_stale (W := W) (s := s.add v) hadd (Or.inr hW)
  have hwin : pushEvict W (s.add v).input (s.add v).window = pushEvict W (wrap16 v) s.window := by
    simp [MovingAverage.add]
  rw [readWeightedAverage_of_sync (by simp [MovingAverage.add, he]) hsync
    (by simpa [hwin] using pushEvict_ne_nil) (by simpa [hwin] using h255)]
  refine ⟨_, rfl, by simpa [MovingAverage.add] using hwin, by simp [MovingAverage.add, he], ?_⟩
  simp [MovingAverage.add]

/-- Along weighted blocks: enabled, window = last `min(count, W)` samples,
and (once a sample has arrived) the stored weighted average is the spec
formula over the current window. -/
lemma runBlocksWAvg_spec {W : Nat} (hW : 1 ≤ W) (h255 : W ≤ 255) :
    ∀ (vs : List Int) (s : MovingAverage), runBlocksWAvg W vs = some s →
    s.enabled = true ∧ s.window = lastN (min vs.length W) (vs.map wrap16) ∧
      (vs ≠ [] → s.weighted_moving_average =
        wrap16 ((specWeightedSum s.window).tdiv (triangular s.window.length))) := by
  intro vs
  induction vs using List.reverseRecOn with
  | nil =>
    intro s h
    simp [runBlocksWAvg] at h
    rw [← h]
    exact ⟨rfl, by simp [MovingAverage.create, MovingAverage.begin, lastN], by simp⟩
  | append_singleton vs v ih =>
    intro s h
    unfold runBlocksWAvg at h ih
    rw [List.foldlM_append] at h
    obtain ⟨s1, h1, h2⟩ := Option.bind_eq_some.mp h
    obtain ⟨hen1, hwin1, _⟩ := ih s1 h1
    have hlen1 : s1.window.length ≤ W := by
      rw [hwin1, lastN_length]
      omega
    have hp : (pushEvict W (wrap16 v) s1.window).length ≤ 255 := by
      unfold pushEvict
      by_cases hlt : s1.window.length < W
      · rw [if_pos hlt]; simp; omega
      · rw [if_neg hlt]
        rcases hw : s1.window with _ | ⟨a, t⟩
        · rw [hw] at hlt; simp at hlt; omega
        · have := congrArg List.length hw
          simp at this
          simp
          omega
    obtain ⟨s2, hstep, hw2, hen2, hval2⟩ := blockStepWAvg_some v hen1 hW hp
    simp only [List.foldlM_cons, List.foldlM_nil, hstep, Option.bind_eq_bind',
      Option.some_bind] at h2
    simp at h2
    rw [← h2]
    refine ⟨hen2, ?_, fun _ => hval2⟩
    rw [hw2, hwin1, pushEvict_lastN hW]
    simp

/-- C8 counterexample.  Feeding `1, 2, 3` (window size 3, one read per
add, both for the weighted and the simple estimator): the weighted read
returns `⌊14/6⌋ = 2` — the integer division truncates — which equals the
simple average `2` and differs from the claimed exact value `14/6 ≈ 2.33`.
The static-local variant of `src/src/MovingAverage.h` also returns 2
(`2·14/(3·4) = 2`). -/
theorem weighted_average_truncates :
    (runBlocksWAvg 3 [1, 2, 3]).map MovingAverage.weighted_moving_average = some 2 ∧
    (runBlocksAvg 3 [1, 2, 3]).map MovingAverage.simple_moving_average = some 2 ∧
    ((2 : ℚ) ≠ 14 / 6) ∧ wmaStaticRun 3 [1, 2, 3] = some 2 := by
  exact ⟨by decide, by decide, by norm_num, by decide⟩

/-- C8 as amended.  Under the regular calling pattern, the weighted
estimator computes the recency weighting of the spec — weights
`1 .. len(window)` oldest-to-newest, normalized by the triangular total
`len·(len+1)/2` — but with integer division truncating toward zero, so
that for window `[1, 2, 3]` it returns 2, not `14/6`. -/
theorem weighted_recency_formula (W : Nat) (vs : List Int) (v : Int) (s : MovingAverage)
    (hW : 1 ≤ W) (h255 : W ≤ 255) (h : runBlocksWAvg W (vs ++ [v]) = some s) :
    s.window = lastN (min (vs.length + 1) W) ((vs ++ [v]).map wrap16) ∧
    s.weighted_moving_average =
      wrap16 ((specWeightedSum s.window).tdiv (triangular s.window.length)) := by
  obtain ⟨_, hwin, hval⟩ := runBlocksWAvg_spec hW h255 (vs ++ [v]) s h
  refine ⟨by simpa using hwin, hval (by simp)⟩

/-- Witness for `weighted_recency_formula` at `W = 3`, samples
`[1, 2] ++ [3]`. -/
theorem weighted_recency_formula_witness :
    ((runBlocksWAvg 3 ([1, 2] ++ [3])).map
        (fun s => decide (s.weighted_moving_average =
          wrap16 ((specWeightedSum s.window).tdiv (triangular s.window.length)))) =
      some true) := by
  rcases hr : runBlocksWAvg 3 ([1, 2] ++ [3]) with _ | s
  · exact absurd hr (by decide)
  · have hb := weighted_recency_formula 3 [1, 2] 3 s (by decide) (by decide) hr
    simp [hb.2]

/-- C9 counterexample.  With window size 1 the weight total is the
degenerate value 1, yet `readWeightedAverage` reports nothing to the
caller: it silently performs the division and returns the sample itself
(`5·1/1 = 5`) as an ordinary value — there is no guard and no
precondition-violation signal in the code. -/
theorem weighted_degenerate_unguarded :
    ((MovingAverage.create.begin.add 5).readWeightedAverage 1).map Prod.fst = some 5 := by
  decide

/-- C9 as amended.  `readWeightedAverage` has no guard on the weight
total: on an enabled engine with a pending sample (or a non-empty synced
window) the post-sync window is non-empty, the weight total is the
triangular number ≥ 1, and the division is silently performed, returning
an ordinary value — including the boundary case `window_size = 1`. -/
theorem weighted_division_silent (W : Nat) (s : MovingAverage)
    (he : s.enabled = true) (hW : 1 ≤ W) (hlen : s.window.length ≤ 254)
    (hc : s.window_updated = false ∨ s.window ≠ []) :
    ∃ x s2, s.readWeightedAverage W = some (x, s2) ∧
      s2.weighted_moving_average = x := by
  by_cases hu : s.window_updated = false
  · have hsync := MovingAverage.sync_of_stale (W := W) hu (Or.inr hW)
    have h255 : (pushEvict W s.input s.window).length ≤ 255 := by
      have := pushEvict_length_le_succ (W := W) (x := s.input) (w := s.window)
      omega
    rw [readWeightedAverage_of_sync he hsync (by simpa using pushEvict_ne_nil)
      (by simpa using h255)]
    exact ⟨_, _, rfl, rfl⟩
  · have hne : s.window ≠ [] := by
      rcases hc with hc | hc
      · exact absurd hc hu
      · exact hc
    have hu2 : s.window_updated = true := by
      cases hv : s.window_updated
      · exact absurd hv hu
      · rfl
    have hsync := MovingAverage.sync_of_updated (W := W) hu2
    rw [readWeightedAverage_of_sync he hsync hne (by omega)]
    exact ⟨_, _, rfl, rfl⟩

/-- Witness for `weighted_division_silent` at the boundary case
`window_size = 1`. -/
theorem weighted_division_silent_witness :
    ∃ x s2, (MovingAverage.create.begin.add 5).readWeightedAverage 1 = some (x, s2) ∧
      s2.weighted_moving_average = x :=
  weighted_division_silent 1 (MovingAverage.create.begin.add 5) (by decide) (by decide)
    (by decide) (Or.inl (by decide))

/-! ## Skip-list chain lemmas -/

lemma IsChain.congr {s s2 : SkipList} {i : Nat} {l : Option Ptr} {ps : List Ptr}
    (h : IsChain s i l ps) (hg : ∀ p ∈ ps, s2.getNode p = s.getNode p) :
    IsChain s2 i l ps := by
  induction h with
  | nil => exact IsChain.nil
  | cons hn hl hc ih =>
    rename_i p l' ps' n
    exact IsChain.cons (by rw [hg p (by simp)] ; exact hn) hl
      (ih fun q hq => hg q (by simp [hq]))

lemma IsChain.mem_live {s : SkipList} {i : Nat} {l : Option Ptr} {ps : List Ptr}
    (h : IsChain s i l ps) : ∀ p ∈ ps, ∃ n, s.getNode p = some n ∧ i < n.next.length := by
  induction h with
  | nil => simp
  | cons hn hl hc ih =>
    rename_i p l' ps' n
    intro q hq
    rcases List.mem_cons.mp hq with hq | hq
    · subst hq
      exact ⟨n, hn, (List.get?_eq_some.mp hl).1⟩
    · exact ih q hq

lemma IsChain.eq_nil {s : SkipList} {i : Nat} {l : Option Ptr}
    (h : IsChain s i l []) : l = none := by
  cases h; rfl

lemma IsChain.head_eq {s : SkipList} {i : Nat} {l : Option Ptr} {p : Ptr} {ps : List Ptr}
    (h : IsChain s i l (p :: ps)) : l = some p := by
  cases h; rfl

lemma IsChain.tail_link {s : SkipList} {i : Nat} {l : Option Ptr} {p : Ptr} {ps : List Ptr}
    (h : IsChain s i l (p :: ps)) :
    ∃ l', s.linkAt p i = some l' ∧ IsChain s i l' ps := by
  cases h with
  | cons hn hl hc =>
    exact ⟨_, by unfold SkipList.linkAt; rw [hn]; exact hl, hc⟩

/-- A member of a chain starts the chain of the elements after it. -/
lemma IsChain.split {s : SkipList} {i : Nat} :
    ∀ {xs : List Ptr} {l : Option Ptr} {p : Ptr} {ys : List Ptr},
    IsChain s i l (xs ++ p :: ys) →
    ∃ l', s.linkAt p i = some l' ∧ IsChain s i l' ys := by
  intro xs
  induction xs with
  | nil =>
    intro l p ys h
    exact h.tail_link
  | cons x xs ih =>
    intro l p ys h
    cases h with
    | cons hn hl hc => exact ih hc

/-- The head link of a chain is its first element (as an `Option`). -/
lemma IsChain.link_eq_head {s : SkipList} {i : Nat} {l : Option Ptr} {ps : List Ptr}
    (h : IsChain s i l ps) : l = ps.head? := by
  cases h <;> rfl

/-- Correctness of the advance loop `walkLt`: starting at `q` whose
level-`i` successor chain is `rest`, it stops at the last node of
`q :: rest` whose value is below `val` — equivalently the last of the
`takeWhile` prefix, defaulting to `q`. -/
lemma walkLt_spec {s : SkipList} {i : Nat} {v : Int} :
    ∀ (rest : List Ptr) (q : Ptr) (l : Option Ptr) (f : Nat),
    s.linkAt q i = some l → IsChain s i l rest → rest.length < f →
    s.walkLt i v q f =
      some ((rest.takeWhile fun p => decide (s.nodeVal p < v)).getLastD q) := by
  intro rest
  induction rest with
  | nil =>
    intro q l f hq hc hf
    rcases f with _ | f
    · omega
    · rw [hc.eq_nil] at hq
      unfold SkipList.walkLt
      rw [hq]
      simp
  | cons r rest ih =>
    intro q l f hq hc hf
    rcases f with _ | f
    · omega
    · rw [hc.head_eq] at hq
      obtain ⟨l', hr, hc'⟩ := hc.tail_link
      have hn : ∃ n, s.getNode r = some n := by
        unfold SkipList.linkAt at hr
        rcases hg : s.getNode r with _ | n
        · rw [hg] at hr; exact absurd hr (by simp)
        · exact ⟨n, rfl⟩
      obtain ⟨n, hn⟩ := hn
      have hval : s.nodeVal r = n.value := by simp [SkipList.nodeVal, hn]
      unfold SkipList.walkLt
      rw [hq]
      simp only [Option.bind_eq_bind', Option.some_bind, hn]
      by_cases hlt : n.value < v
      · rw [if_pos hlt]
        rw [ih r l' f hr hc' (by simpa using Nat.lt_of_succ_lt_succ hf)]
        have ht : (r :: rest).takeWhile (fun p => decide (s.nodeVal p < v)) =
            r :: rest.takeWhile (fun p => decide (s.nodeVal p < v)) := by
          rw [List.takeWhile_cons_of_pos (by simp [hval, hlt])]
        rw [ht, List.getLastD_cons]
      · rw [if_neg hlt]
        have ht : (r :: rest).takeWhile (fun p => decide (s.nodeVal p < v)) = [] := by
          rw [List.takeWhile_cons_of_neg (by simp [hval, hlt])]
        rw [ht]
        simp

/-! ## Sorted-chain decomposition -/

lemma getLastD_mem {α : Type} : ∀ {l : List α} (d : α), l ≠ [] → l.getLastD d ∈ l := by
  intro l
  induction l with
  | nil => intro d h; exact absurd rfl h
  | cons a t ih =>
    intro d _
    rw [List.getLastD_cons]
    rcases ht : t with _ | ⟨b, t2⟩
    · simp
    · rw [← ht]
      exact List.mem_cons_of_mem a (ih a (by simp [ht]))

lemma getLastD_append_cons {α : Type} :
    ∀ (P : List α) (p : α) (S : List α) (d : α), (P ++ p :: S).getLastD d = S.getLastD p := by
  intro P
  induction P with
  | nil => intro p S d; rw [List.nil_append, List.getLastD_cons]
  | cons a P ih =>
    intro p S d
    rw [List.cons_append, List.getLastD_cons, ih]

lemma takeWhile_all_append {α : Type} {pr : α → Bool} :
    ∀ {S : List α}, (∀ a ∈ S, pr a = true) →
    ∀ (B : List α), (S ++ B).takeWhile pr = S ++ B.takeWhile pr := by
  intro S
  induction S with
  | nil => intro _ B; simp
  | cons a S ih =>
    intro hall B
    rw [List.cons_append, List.takeWhile_cons_of_pos (hall a (by simp)), List.cons_append,
      ih (fun b hb => hall b (by simp [hb])) B]

lemma dropWhile_takeWhile_nil {α : Type} {pr : α → Bool} :
    ∀ (l : List α), (l.dropWhile pr).takeWhile pr = [] := by
  intro l
  induction l with
  | nil => simp
  | cons a t ih =>
    by_cases ha : pr a = true
    · rw [List.dropWhile_cons_of_pos ha]; exact ih
    · rw [List.dropWhile_cons_of_neg ha, List.takeWhile_cons_of_neg ha]

lemma takeWhile_eq_filter_of_sorted {α : Type} {f : α → Int} :
    ∀ {l : List α}, l.Pairwise (fun a b => f a < f b) → ∀ (v : Int),
    l.takeWhile (fun p => decide (f p < v)) = l.filter (fun p => decide (f p < v)) := by
  intro l
  induction l with
  | nil => intro _ v; simp
  | cons a t ih =>
    intro h v
    obtain ⟨ha, ht⟩ := List.pairwise_cons.mp h
    by_cases hav : f a < v
    · rw [List.takeWhile_cons_of_pos (by simp [hav]), List.filter_cons_of_pos (by simp [hav]),
        ih ht v]
    · rw [List.takeWhile_cons_of_neg (by simp [hav]), List.filter_cons_of_neg (by simp [hav])]
      symm
      rw [List.filter_eq_nil]
      intro b hb
      have := ha b hb
      simp
      omega

lemma mem_dropWhile_of_sorted {α : Type} {f : α → Int} :
    ∀ {l : List α}, l.Pairwise (fun a b => f a < f b) → ∀ {v : Int} {x : α},
    x ∈ l.dropWhile (fun p => decide (f p < v)) → v ≤ f x := by
  intro l
  induction l with
  | nil => intro _ v x hx; simp at hx
  | cons a t ih =>
    intro h v x hx
    obtain ⟨ha, ht⟩ := List.pairwise_cons.mp h
    by_cases hav : f a < v
    · rw [List.dropWhile_cons_of_pos (by simp [hav])] at hx
      exact ih ht hx
    · rw [List.dropWhile_cons_of_neg (by simp [hav])] at hx
      rcases List.mem_cons.mp hx with hx | hx
      · subst hx; omega
      · have := ha x hx; omega

lemma dropLast_append_getLastD {α : Type} :
    ∀ {l : List α} (d : α), l ≠ [] → l.dropLast ++ [l.getLastD d] = l := by
  intro l
  induction l with
  | nil => intro d h; exact absurd rfl h
  | cons a t ih =>
    intro d _
    rcases ht : t with _ | ⟨b, t2⟩
    · simp
    · rw [← ht, List.getLastD_cons]
      have hd : (a :: t).dropLast = a :: t.dropLast := by
        rw [ht]; rfl
      rw [hd, List.cons_append, ih a (by simp [ht])]

lemma WF.nodup_ch {s : SkipList} {ch : List Ptr} (hwf : WF s ch) : ch.Nodup :=
  (List.nodup_cons.mp hwf.nodup).2

lemma WF.zero_not_mem {s : SkipList} {ch : List Ptr} (hwf : WF s ch) : 0 ∉ ch :=
  (List.nodup_cons.mp hwf.nodup).1

lemma WF.ch_sorted {s : SkipList} {ch : List Ptr} (hwf : WF s ch) :
    ch.Pairwise (fun p q => s.nodeVal p < s.nodeVal q) :=
  List.pairwise_map.mp hwf.sorted

lemma WF.ch_length_le {s : SkipList} {ch : List Ptr} (hwf : WF s ch) :
    ch.length ≤ s.arena.length := by
  have hsub : ∀ p ∈ ch, p ∈ List.range s.arena.length := by
    intro p hp
    obtain ⟨n, hn⟩ := hwf.alive p hp
    unfold SkipList.getNode at hn
    rcases hg : s.arena.get? p with _ | x
    · rw [hg] at hn; exact absurd hn (by simp)
    · exact List.mem_range.mpr (List.get?_eq_some.mp hg).1
  calc ch.length = ch.toFinset.card := (List.toFinset_card_of_nodup hwf.nodup_ch).symm
    _ ≤ (List.range s.arena.length).toFinset.card := by
        apply Finset.card_le_card
        intro p hp
        rw [List.mem_toFinset] at hp ⊢
        exact hsub p hp
    _ ≤ s.arena.length := by
        rw [List.toFinset_card_of_nodup (List.nodup_range _)]
        simp

lemma chainAt_sublist {s : SkipList} {ch : List Ptr} {i : Nat} :
    (chainAt s ch i).Sublist ch := List.filter_sublist ch

lemma chainAt_sorted {s : SkipList} {ch : List Ptr} (hwf : WF s ch) (i : Nat) :
    (chainAt s ch i).Pairwise (fun p q => s.nodeVal p < s.nodeVal q) :=
  hwf.ch_sorted.sublist chainAt_sublist

lemma WF.chainAt_zero {s : SkipList} {ch : List Ptr} (hwf : WF s ch) :
    chainAt s ch 0 = ch := by
  unfold chainAt
  rw [List.filter_eq_self]
  intro p hp
  have := (hwf.levels p hp).1
  simp
  omega

lemma WF.chainAt_high {s : SkipList} {ch : List Ptr} (hwf : WF s ch) {i : Nat}
    (hi : s.max_level < i) : chainAt s ch i = [] := by
  unfold chainAt
  rw [List.filter_eq_nil]
  intro p hp
  have := (hwf.levels p hp).2
  simp
  omega

/-- Members of the `takeWhile` prefix at a higher level stay in the
`takeWhile` prefix one level down. -/
lemma mem_takeWhile_lower {s : SkipList} {ch : List Ptr} (hwf : WF s ch) {v : Int}
    {i : Nat} {q : Ptr}
    (hq : q ∈ (chainAt s ch (i + 1)).takeWhile (valBelow s v)) :
    q ∈ (chainAt s ch i).takeWhile (valBelow s v) := by
  have hbelow : valBelow s v q = true := List.mem_takeWhile_imp hq
  have hmem : q ∈ chainAt s ch (i + 1) := (List.takeWhile_sublist _).subset hq
  unfold chainAt at hmem
  rw [List.mem_filter] at hmem
  obtain ⟨hch, hlc⟩ := hmem
  have hmem2 : q ∈ chainAt s ch i := by
    unfold chainAt
    rw [List.mem_filter]
    refine ⟨hch, by simp at hlc ⊢; omega⟩
  show q ∈ (chainAt s ch i).takeWhile (fun p => decide (s.nodeVal p < v))
  rw [takeWhile_eq_filter_of_sorted (chainAt_sorted hwf i), List.mem_filter]
  exact ⟨hmem2, hbelow⟩

/-- The central scan step: at level `i`, walking from the level-`(i+1)`
stop point reaches the level-`i` stop point. -/
lemma walk_pred {s : SkipList} {ch : List Ptr} (hwf : WF s ch) (v : Int) {i : Nat}
    (hi : i ≤ s.max_level) :
    s.walkLt i v (predAt s ch v (i + 1)) s.fuel = some (predAt s ch v i) := by
  obtain ⟨l, hl, hc⟩ := hwf.chains i hi
  have hfl : (chainAt s ch i).length < s.fuel := by
    have h1 : (chainAt s ch i).length ≤ ch.length :=
      List.Sublist.length_le chainAt_sublist
    have h2 := hwf.ch_length_le
    unfold SkipList.fuel
    omega
  rcases hA : (chainAt s ch (i + 1)).takeWhile (valBelow s v) with _ | ⟨a, A2⟩
  · have hp : predAt s ch v (i + 1) = 0 := by unfold predAt; rw [hA]; rfl
    rw [hp, walkLt_spec (chainAt s ch i) 0 l s.fuel hl hc hfl]
    rfl
  · have hne : (chainAt s ch (i + 1)).takeWhile (valBelow s v) ≠ [] := by simp [hA]
    set q := predAt s ch v (i + 1) with hqdef
    have hqmem : q ∈ (chainAt s ch (i + 1)).takeWhile (valBelow s v) :=
      getLastD_mem 0 hne
    have hqlow : q ∈ (chainAt s ch i).takeWhile (valBelow s v) :=
      mem_takeWhile_lower hwf hqmem
    obtain ⟨P, S, hPS⟩ := List.append_of_mem hqlow
    have hsplit : chainAt s ch i = P ++ q :: (S ++ (chainAt s ch i).dropWhile (valBelow s v)) := by
      conv_lhs => rw [← List.takeWhile_append_dropWhile (p := valBelow s v) (l := chainAt s ch i)]
      rw [hPS]
      simp
    have hchain2 : IsChain s i l (P ++ q :: (S ++ (chainAt s ch i).dropWhile (valBelow s v))) := by
      rw [← hsplit]; exact hc
    obtain ⟨l2, hql, hc2⟩ := hchain2.split
    have hrest : (S ++ (chainAt s ch i).dropWhile (valBelow s v)).length < s.fuel := by
      have hlen := congrArg List.length hsplit
      simp at hlen
      simp
      omega
    rw [walkLt_spec _ q l2 s.fuel hql hc2 hrest]
    have hSsub : ∀ a2 ∈ S, valBelow s v a2 = true := by
      intro a2 ha2
      have : a2 ∈ (chainAt s ch i).takeWhile (valBelow s v) := by
        rw [hPS]
        simp [ha2]
      exact List.mem_takeWhile_imp this
    have htw : (S ++ (chainAt s ch i).dropWhile (valBelow s v)).takeWhile
        (fun p => decide (s.nodeVal p < v)) = S := by
      have he : (fun p => decide (s.nodeVal p < v)) = valBelow s v := rfl
      rw [he, takeWhile_all_append hSsub, dropWhile_takeWhile_nil, List.append_nil]
    rw [htw]
    unfold predAt
    rw [hPS, getLastD_append_cons]

/-- The link inspected after the stop at level `i` is the first node with
value not below `v`. -/
lemma link_pred {s : SkipList} {ch : List Ptr} (hwf : WF s ch) (v : Int) {i : Nat}
    (hi : i ≤ s.max_level) :
    s.linkAt (predAt s ch v i) i = some (nextGE s ch v i) := by
  obtain ⟨l, hl, hc⟩ := hwf.chains i hi
  rcases hA : (chainAt s ch i).takeWhile (valBelow s v) with _ | ⟨a, A2⟩
  · have hp : predAt s ch v i = 0 := by unfold predAt; rw [hA]; rfl
    have hdrop : (chainAt s ch i).dropWhile (valBelow s v) = chainAt s ch i := by
      conv_rhs => rw [← List.takeWhile_append_dropWhile (p := valBelow s v) (l := chainAt s ch i)]
      rw [hA, List.nil_append]
    rw [hp, hl]
    unfold nextGE
    rw [hdrop, hc.link_eq_head]
  · have hne : (chainAt s ch i).takeWhile (valBelow s v) ≠ [] := by simp [hA]
    have hApr : ((chainAt s ch i).takeWhile (valBelow s v)).dropLast ++ [predAt s ch v i] =
        (chainAt s ch i).takeWhile (valBelow s v) :=
      dropLast_append_getLastD 0 hne
    have hsplit : chainAt s ch i =
        ((chainAt s ch i).takeWhile (valBelow s v)).dropLast ++
          (predAt s ch v i) :: (chainAt s ch i).dropWhile (valBelow s v) := by
      conv_lhs => rw [← List.takeWhile_append_dropWhile (p := valBelow s v) (l := chainAt s ch i)]
      conv_lhs => rw [← hApr]
      simp
    have hchain2 : IsChain s i l
        (((chainAt s ch i).takeWhile (valBelow s v)).dropLast ++
          (predAt s ch v i) :: (chainAt s ch i).dropWhile (valBelow s v)) := by
      rw [← hsplit]; exact hc
    obtain ⟨l2, hql, hc2⟩ := hchain2.split
    rw [hql, hc2.link_eq_head]
    rfl

/-! ## Value facts about the stop points -/

lemma pairwise_val_inj {s : SkipList} : ∀ {ch : List Ptr},
    ch.Pairwise (fun p q => s.nodeVal p < s.nodeVal q) →
    ∀ {p q : Ptr}, p ∈ ch → q ∈ ch → s.nodeVal p = s.nodeVal q → p = q := by
  intro ch
  induction ch with
  | nil => intro _ p q hp; simp at hp
  | cons a t ih =>
    intro h p q hp hq hv
    obtain ⟨ha, ht⟩ := List.pairwise_cons.mp h
    rcases List.mem_cons.mp hp with hp | hp <;> rcases List.mem_cons.mp hq with hq | hq
    · rw [hp, hq]
    · exfalso; have := ha q hq; rw [hp] at hv; omega
    · exfalso; have := ha p hp; rw [hq] at hv; omega
    · exact ih ht hp hq hv

lemma nextGE_mem {s : SkipList} {ch : List Ptr} {v : Int} {i : Nat} {b : Ptr}
    (hwf : WF s ch) (h : nextGE s ch v i = some b) :
    b ∈ chainAt s ch i ∧ v ≤ s.nodeVal b := by
  unfold nextGE at h
  have hmem : b ∈ (chainAt s ch i).dropWhile (valBelow s v) := by
    rcases hd : (chainAt s ch i).dropWhile (valBelow s v) with _ | ⟨x, rest⟩
    · rw [hd] at h; exact absurd h (by simp)
    · rw [hd] at h
      simp at h
      simp [h]
  constructor
  · exact (List.dropWhile_sublist _).subset hmem
  · exact mem_dropWhile_of_sorted (chainAt_sorted hwf i) hmem

/-- When a node with value `v` participates at level `i`, the stop link at
level `i` is exactly that node; when it does not (or no such node
exists), the stop link never carries value `v`. -/
lemma nextGE_target {s : SkipList} {ch : List Ptr} {v : Int} {t : Ptr}
    (hwf : WF s ch) (ht : t ∈ ch) (hv : s.nodeVal t = v) {i : Nat} :
    (i < s.linkCount t → nextGE s ch v i = some t) ∧
    (s.linkCount t ≤ i → ∀ b, nextGE s ch v i = some b → s.nodeVal b ≠ v) := by
  constructor
  · intro hlc
    have htc : t ∈ chainAt s ch i := by
      unfold chainAt
      rw [List.mem_filter]
      exact ⟨ht, by simp; omega⟩
    have htd : t ∈ (chainAt s ch i).dropWhile (valBelow s v) := by
      have := List.takeWhile_append_dropWhile (p := valBelow s v) (l := chainAt s ch i)
      have hnt : t ∉ (chainAt s ch i).takeWhile (valBelow s v) := by
        intro hmem
        have := List.mem_takeWhile_imp hmem
        unfold valBelow at this
        simp [hv] at this
      rw [← this] at htc
      rcases List.mem_append.mp htc with hm | hm
      · exact absurd hm hnt
      · exact hm
    unfold nextGE
    rcases hd : (chainAt s ch i).dropWhile (valBelow s v) with _ | ⟨b, rest⟩
    · rw [hd] at htd; simp at htd
    · simp
      rw [hd] at htd
      rcases List.mem_cons.mp htd with htd | htd
      · rw [htd]
      · exfalso
        have hsort : ((chainAt s ch i).dropWhile (valBelow s v)).Pairwise
            (fun p q => s.nodeVal p < s.nodeVal q) :=
          (chainAt_sorted hwf i).sublist (List.dropWhile_sublist _)
        rw [hd] at hsort
        have hbt := (List.pairwise_cons.mp hsort).1 t htd
        have hbv : v ≤ s.nodeVal b := by
          have : b ∈ (chainAt s ch i).dropWhile (valBelow s v) := by rw [hd]; simp
          exact mem_dropWhile_of_sorted (chainAt_sorted hwf i) this
        omega
  · intro hlc b hb hbv
    obtain ⟨hbc, _⟩ := nextGE_mem hwf hb
    have hbch : b ∈ ch := chainAt_sublist.subset hbc
    have hbt : b = t := pairwise_val_inj hwf.ch_sorted hbch ht (by rw [hbv, hv])
    subst hbt
    unfold chainAt at hbc
    rw [List.mem_filter] at hbc
    have := hbc.2
    simp at this
    omega

/-! ## Scan-loop specifications -/

lemma predAt_top {s : SkipList} {ch : List Ptr} (hwf : WF s ch) (v : Int) :
    predAt s ch v (s.max_level + 1) = 0 := by
  unfold predAt
  rw [hwf.chainAt_high (by omega)]
  rfl

/-- The top-down scan of `insert` ends at the level-0 stop point and
fills `update[i]` with the level-`i` stop point at every level. -/
lemma insScan_spec {s : SkipList} {ch : List Ptr} (hwf : WF s ch) (v : Int) :
    ∀ (k : Nat), k ≤ s.max_level + 1 → ∀ (u : List (Option Ptr)), s.max_level + 1 ≤ u.length →
    ∃ u2, s.insScan v k (predAt s ch v k) u = some (predAt s ch v 0, u2) ∧
      u2.length = u.length ∧
      (∀ j, j < k → u2.get? j = some (some (predAt s ch v j))) ∧
      (∀ j, k ≤ j → u2.get? j = u.get? j) := by
  intro k
  induction k with
  | zero =>
    intro _ u _
    exact ⟨u, rfl, rfl, by omega, fun j _ => rfl⟩
  | succ k ih =>
    intro hk u hu
    unfold SkipList.insScan
    rw [walk_pred hwf v (by omega)]
    simp only [Option.bind_eq_bind', Option.some_bind]
    obtain ⟨u2, hrun, hlen, hset, hkeep⟩ :=
      ih (by omega) (u.set k (some (predAt s ch v k))) (by rw [List.length_set]; omega)
    refine ⟨u2, hrun, by rw [hlen, List.length_set], ?_, ?_⟩
    · intro j hj
      rcases Nat.lt_or_ge j k with hjk | hjk
      · exact hset j hjk
      · have hjeq : j = k := by omega
        subst hjeq
        rw [hkeep j (by omega), List.get?_set_eq_of_lt _ (by omega)]
    · intro j hj
      rw [hkeep j (by omega), List.get?_set_ne _ _ (by omega)]

/-- The top-down scan of `remove` when no node holds `val`: `found` stays
false and `update` is untouched. -/
lemma remScan_absent {s : SkipList} {ch : List Ptr} (hwf : WF s ch) {v : Int}
    (hab : ∀ p ∈ ch, s.nodeVal p ≠ v) :
    ∀ (k : Nat), k ≤ s.max_level + 1 → ∀ (u : List (Option Ptr)),
    s.remScan v k (predAt s ch v k) false u = some (false, u) := by
  intro k
  induction k with
  | zero => intro _ u; rfl
  | succ k ih =>
    intro hk u
    unfold SkipList.remScan
    rw [walk_pred hwf v (by omega)]
    simp only [Option.bind_eq_bind', Option.some_bind]
    rw [link_pred hwf v (by omega)]
    simp only [Option.bind_eq_bind', Option.some_bind]
    rcases hn : nextGE s ch v k with _ | b
    · exact ih (by omega) u
    · obtain ⟨hbc, _⟩ := nextGE_mem hwf hn
      obtain ⟨nb, hnb⟩ := hwf.alive b (chainAt_sublist.subset hbc)
      simp only [hnb, Option.some_bind]
      have hne : ¬((nb.value == v) = true) := by
        have := hab b (chainAt_sublist.subset hbc)
        unfold SkipList.nodeVal at this
        rw [hnb] at this
        simp at this
        simp [this]
      rw [if_neg hne]
      exact ih (by omega) u

/-- The top-down scan of `remove` when node `t` holds `val`: `found`
becomes true and `update[i]` is freshly set exactly at the levels `t`
participates in. -/
lemma remScan_present {s : SkipList} {ch : List Ptr} {v : Int} {t : Ptr}
    (hwf : WF s ch) (ht : t ∈ ch) (hv : s.nodeVal t = v) :
    ∀ (k : Nat), k ≤ s.max_level + 1 → ∀ (u : List (Option Ptr)), s.max_level + 1 ≤ u.length →
    ∃ u2, s.remScan v k (predAt s ch v k) (decide (k < s.linkCount t)) u = some (true, u2) ∧
      u2.length = u.length ∧
      (∀ j, j < k → j < s.linkCount t → u2.get? j = some (some (predAt s ch v j))) ∧
      (∀ j, k ≤ j ∨ s.linkCount t ≤ j → u2.get? j = u.get? j) := by
  intro k
  induction k with
  | zero =>
    intro _ u _
    have hlc : (decide (0 < s.linkCount t)) = true := by
      have := (hwf.levels t ht).1
      simp
      omega
    rw [hlc]
    exact ⟨u, rfl, rfl, by omega, fun j _ => rfl⟩
  | succ k ih =>
    intro hk u hu
    unfold SkipList.remScan
    rw [walk_pred hwf v (by omega)]
    simp only [Option.bind_eq_bind', Option.some_bind]
    rw [link_pred hwf v (by omega)]
    simp only [Option.bind_eq_bind', Option.some_bind]
    rcases Nat.lt_or_ge k (s.linkCount t) with hklt | hkge
    · rw [(nextGE_target hwf ht hv).1 hklt]
      obtain ⟨nt, hnt⟩ := hwf.alive t ht
      simp only [hnt, Option.some_bind]
      have heq : (nt.value == v) = true := by
        unfold SkipList.nodeVal at hv
        rw [hnt] at hv
        simp at hv
        simp [hv]
      have hklen : k < u.length := by omega
      rw [if_pos heq, if_pos hklen]
      obtain ⟨u2, hrun, hlen, hset, hkeep⟩ :=
        ih (by omega) (u.set k (some (predAt s ch v k))) (by rw [List.length_set]; omega)
      have hd : decide (k < s.linkCount t) = true := by simp [hklt]
      rw [hd] at hrun
      refine ⟨u2, hrun, by rw [hlen, List.length_set], ?_, ?_⟩
      · intro j hj hjl
        rcases Nat.lt_or_ge j k with hjk | hjk
        · exact hset j hjk hjl
        · have hjeq : j = k := by omega
          subst hjeq
          rw [hkeep j (Or.inl (by omega)), List.get?_set_eq_of_lt _ (by omega)]
      · intro j hj
        have hj2 : k ≤ j := by
          rcases hj with hj | hj
          · omega
          · omega
        rw [hkeep j (Or.inl (by omega)), List.get?_set_ne _ _ (by omega)]
    · have hd : decide (k + 1 < s.linkCount t) = false := by simp; omega
      have hd2 : decide (k < s.linkCount t) = false := by simp; omega
      rw [hd]
      rcases hn : nextGE s ch v k with _ | b
      · obtain ⟨u2, hrun, hlen, hset, hkeep⟩ := ih (by omega) u hu
        rw [hd2] at hrun
        exact ⟨u2, hrun, hlen, fun j hj hjl => hset j (by omega) hjl,
          fun j hj => hkeep j (hj.elim (fun h2 => Or.inl (by omega)) Or.inr)⟩
      · obtain ⟨hbc, _⟩ := nextGE_mem hwf hn
        obtain ⟨nb, hnb⟩ := hwf.alive b (chainAt_sublist.subset hbc)
        simp only [hnb, Option.some_bind]
        have hne : ¬((nb.value == v) = true) := by
          have := (nextGE_target hwf ht hv).2 hkge b hn
          unfold SkipList.nodeVal at this
          rw [hnb] at this
          simp at this
          simp [this]
        rw [if_neg hne]
        obtain ⟨u2, hrun, hlen, hset, hkeep⟩ := ih (by omega) u hu
        rw [hd2] at hrun
        exact ⟨u2, hrun, hlen, fun j hj hjl => hset j (by omega) hjl,
          fun j hj => hkeep j (hj.elim (fun h2 => Or.inl (by omega)) Or.inr)⟩

/-! ## Pointer-surgery infrastructure -/

lemma randomLevelGo_le {m : Nat} : ∀ (cs : List Bool) (l : Nat), l ≤ m →
    SkipList.randomLevelGo m cs l ≤ m := by
  intro cs
  induction cs with
  | nil => intro l h; exact h
  | cons c cs ih =>
    intro l h
    unfold SkipList.randomLevelGo
    by_cases hc : c = true ∧ l < m
    · rw [if_pos hc]; exact ih (l + 1) (by omega)
    · rw [if_neg hc]; exact h

lemma randomLevel_le (m : Nat) (cs : List Bool) : SkipList.randomLevel m cs ≤ m :=
  randomLevelGo_le cs 0 (by omega)

lemma listResize_length (l : List (Option Ptr)) (n : Nat) :
    (SkipList.listResize l n).length = n := by
  unfold SkipList.listResize
  simp
  omega

lemma linkAt_inv {s : SkipList} {p : Ptr} {i : Nat} {l : Option Ptr}
    (h : s.linkAt p i = some l) :
    ∃ n, s.getNode p = some n ∧ n.next.get? i = some l := by
  unfold SkipList.linkAt at h
  rcases hg : s.getNode p with _ | n
  · rw [hg] at h; exact absurd h (by simp)
  · rw [hg] at h
    simp only [Option.some_bind] at h
    exact ⟨n, rfl, h⟩

/-- Reading and writing around a `setLink`. -/
lemma setLink_spec {σ : SkipList} {p : Ptr} {i : Nat} {q : Option Ptr} {σ2 : SkipList}
    (h : σ.setLink p i q = some σ2) :
    (∀ r, r ≠ p → σ2.getNode r = σ.getNode r) ∧
    (∃ n, σ.getNode p = some n ∧ i < n.next.length ∧
      σ2.getNode p = some { n with next := n.next.set i q }) ∧
    σ2.max_level = σ.max_level ∧ σ2.update = σ.update ∧
    σ2.arena.length = σ.arena.length := by
  unfold SkipList.setLink at h
  rcases hg : σ.getNode p with _ | n
  · rw [hg] at h; exact absurd h (by simp)
  · rw [hg] at h
    simp only [Option.some_bind] at h
    by_cases hlen : i < n.next.length
    · rw [if_pos hlen] at h
      simp at h
      have hplt : p < σ.arena.length := by
        unfold SkipList.getNode at hg
        rcases ha : σ.arena.get? p with _ | x
        · rw [ha] at hg; exact absurd hg (by simp)
        · exact (List.get?_eq_some.mp ha).1
      refine ⟨?_, ⟨n, rfl, hlen, ?_⟩, ?_, ?_, ?_⟩
      · intro r hr
        rw [← h]
        unfold SkipList.getNode
        simp only
        rw [List.get?_set_ne _ _ (Ne.symm hr)]
      · rw [← h]
        unfold SkipList.getNode
        simp only
        rw [List.get?_set_eq_of_lt _ hplt]
        rfl
      · rw [← h]
      · rw [← h]
      · rw [← h]; simp
    · rw [if_neg hlen] at h; exact absurd h (by simp)

/-- Chains are preserved by state changes that keep the level-`i` links of
their members. -/
lemma IsChain.congrLinks {s s2 : SkipList} {i : Nat} {l : Option Ptr} {ps : List Ptr}
    (h : IsChain s i l ps) (hg : ∀ p ∈ ps, s2.linkAt p i = s.linkAt p i) :
    IsChain s2 i l ps := by
  induction h with
  | nil => exact IsChain.nil
  | cons hn hl hc ih =>
    rename_i p l2 ps2 n
    have hlk : s.linkAt p i = some l2 := by
      unfold SkipList.linkAt
      rw [hn]
      exact hl
    have hlk2 : s2.linkAt p i = some l2 := by rw [hg p (by simp), hlk]
    obtain ⟨n2, hn2, hl2⟩ := linkAt_inv hlk2
    exact IsChain.cons hn2 hl2 (ih fun q hq => hg q (by simp [hq]))

lemma IsSeg.append {s : SkipList} {i : Nat} {l lm lout : Option Ptr}
    {xs ys : List Ptr} (h1 : IsSeg s i l xs lm) (h2 : IsSeg s i lm ys lout) :
    IsSeg s i l (xs ++ ys) lout := by
  induction h1 with
  | nil => exact h2
  | cons hn hl hc ih => exact IsSeg.cons hn hl (ih h2)

lemma IsSeg.toChain {s : SkipList} {i : Nat} {l : Option Ptr} {ps : List Ptr}
    (h : IsSeg s i l ps none) : IsChain s i l ps := by
  generalize hout : (none : Option Ptr) = lout at h
  induction h with
  | nil => rw [← hout]; exact IsChain.nil
  | cons hn hl hc ih => exact IsChain.cons hn hl (ih hout)

lemma IsChain.toSeg {s : SkipList} {i : Nat} {l : Option Ptr} {ps : List Ptr}
    (h : IsChain s i l ps) : IsSeg s i l ps none := by
  induction h with
  | nil => exact IsSeg.nil
  | cons hn hl hc ih => exact IsSeg.cons hn hl ih

/-- Split a chain over an append into a segment and a chain. -/
lemma IsChain.append_split {s : SkipList} {i : Nat} :
    ∀ {xs : List Ptr} {l : Option Ptr} {ys : List Ptr},
    IsChain s i l (xs ++ ys) → ∃ lm, IsSeg s i l xs lm ∧ IsChain s i lm ys := by
  intro xs
  induction xs with
  | nil => intro l ys h; exact ⟨l, IsSeg.nil, h⟩
  | cons x xs ih =>
    intro l ys h
    cases h with
    | cons hn hl hc =>
      obtain ⟨lm, hseg, hch⟩ := ih hc
      exact ⟨lm, IsSeg.cons hn hl hseg, hch⟩

lemma IsSeg.congrSeg {s s2 : SkipList} {i : Nat} {l lout : Option Ptr} {ps : List Ptr}
    (h : IsSeg s i l ps lout) (hg : ∀ p ∈ ps, s2.linkAt p i = s.linkAt p i) :
    IsSeg s2 i l ps lout := by
  induction h with
  | nil => exact IsSeg.nil
  | cons hn hl hc ih =>
    rename_i p l2 lout2 ps2 n
    have hlk2 : s2.linkAt p i = some l2 := by
      rw [hg p (by simp)]
      unfold SkipList.linkAt
      rw [hn]
      exact hl
    obtain ⟨n2, hn2, hl2⟩ := linkAt_inv hlk2
    exact IsSeg.cons hn2 hl2 (ih fun q hq => hg q (by simp [hq]))

lemma dropWhile_eq_filter_of_sorted {α : Type} {f : α → Int} :
    ∀ {l : List α}, l.Pairwise (fun a b => f a < f b) → ∀ (v : Int),
    l.dropWhile (fun p => decide (f p < v)) = l.filter (fun p => !decide (f p < v)) := by
  intro l
  induction l with
  | nil => intro _ v; simp
  | cons a t ih =>
    intro h v
    obtain ⟨ha, ht⟩ := List.pairwise_cons.mp h
    by_cases hav : f a < v
    · rw [List.dropWhile_cons_of_pos (by simp [hav]), List.filter_cons_of_neg (by simp [hav]),
        ih ht v]
    · rw [List.dropWhile_cons_of_neg (by simp [hav]), List.filter_cons_of_pos (by simp [hav])]
      congr 1
      symm
      rw [List.filter_eq_self]
      intro b hb
      have := ha b hb
      simp
      omega

/-- Live pointers are inside the arena. -/
lemma WF.mem_lt_arena {s : SkipList} {ch : List Ptr} (hwf : WF s ch) {p : Ptr}
    (hp : p ∈ ch) : p < s.arena.length := by
  obtain ⟨n, hn⟩ := hwf.alive p hp
  unfold SkipList.getNode at hn
  rcases ha : s.arena.get? p with _ | x
  · rw [ha] at hn; exact absurd hn (by simp)
  · exact (List.get?_eq_some.mp ha).1

lemma WF.header_lt_arena {s : SkipList} {ch : List Ptr} (hwf : WF s ch) :
    0 < s.arena.length := by
  obtain ⟨hn, hh, _⟩ := hwf.hdr
  unfold SkipList.getNode at hh
  rcases ha : s.arena.get? 0 with _ | x
  · rw [ha] at hh; exact absurd hh (by simp)
  · exact (List.get?_eq_some.mp ha).1

/-! ## Write-effect lemmas -/

lemma setLink_defined {σ : SkipList} {p : Ptr} {i : Nat} {n : Node}
    (hn : σ.getNode p = some n) (hi : i < n.next.length) (q : Option Ptr) :
    ∃ σ2, σ.setLink p i q = some σ2 := by
  unfold SkipList.setLink
  rw [hn]
  simp only [Option.some_bind]
  rw [if_pos hi]
  exact ⟨_, rfl⟩

/-- All observable effects of a successful `setLink`: values, link counts
and the other slots' links are untouched; the written link reads back. -/
lemma setLink_preserve {σ : SkipList} {p : Ptr} {i : Nat} {q : Option Ptr} {σ2 : SkipList}
    (h : σ.setLink p i q = some σ2) :
    (∀ r, (σ2.getNode r).map Node.value = (σ.getNode r).map Node.value) ∧
    (∀ r, σ2.linkCount r = σ.linkCount r) ∧
    (∀ r j, r ≠ p ∨ j ≠ i → σ2.linkAt r j = σ.linkAt r j) ∧
    σ2.linkAt p i = some q ∧
    σ2.max_level = σ.max_level ∧ σ2.update = σ.update ∧
    σ2.arena.length = σ.arena.length := by
  obtain ⟨hother, ⟨n, hn, hlen, hset⟩, hml, hup, hal⟩ := setLink_spec h
  refine ⟨?_, ?_, ?_, ?_, hml, hup, hal⟩
  · intro r
    by_cases hr : r = p
    · subst hr
      rw [hset, hn]
      rfl
    · rw [hother r hr]
  · intro r
    by_cases hr : r = p
    · subst hr
      unfold SkipList.linkCount
      rw [hset, hn]
      simp
    · unfold SkipList.linkCount
      rw [hother r hr]
  · intro r j hrj
    by_cases hr : r = p
    · subst hr
      have hj : j ≠ i := by
        rcases hrj with hrj | hrj
        · exact absurd rfl hrj
        · exact hrj
      unfold SkipList.linkAt
      rw [hset, hn]
      simp only [Option.some_bind]
      rw [List.get?_set_ne _ _ (fun he => hj he.symm)]
    · unfold SkipList.linkAt
      rw [hother r hr]
  · unfold SkipList.linkAt
    rw [hset]
    simp only [Option.some_bind]
    rw [List.get?_set_eq_of_lt _ hlen]

/-- Transfer a liveness-with-enough-links fact across a state change that
preserves values and link counts. -/
lemma node_len_transfer {σ2 σ : SkipList} {r : Ptr} {j : Nat}
    (hvm : (σ2.getNode r).map Node.value = (σ.getNode r).map Node.value)
    (hlc : σ2.linkCount r = σ.linkCount r)
    (h : ∃ n, σ.getNode r = some n ∧ j < n.next.length) :
    ∃ n2, σ2.getNode r = some n2 ∧ j < n2.next.length := by
  obtain ⟨n, hn, hj⟩ := h
  rcases hg2 : σ2.getNode r with _ | n2
  · rw [hg2, hn] at hvm
    exact absurd hvm (by simp)
  · refine ⟨n2, rfl, ?_⟩
    unfold SkipList.linkCount at hlc
    rw [hg2, hn] at hlc
    simp at hlc
    omega

lemma live_transfer {σ2 σ : SkipList} {r : Ptr}
    (hvm : (σ2.getNode r).map Node.value = (σ.getNode r).map Node.value)
    (h : ∃ n, σ.getNode r = some n) : ∃ n2, σ2.getNode r = some n2 := by
  obtain ⟨n, hn⟩ := h
  rcases hg2 : σ2.getNode r with _ | n2
  · rw [hg2, hn] at hvm
    exact absurd hvm (by simp)
  · exact ⟨n2, rfl⟩

lemma nodeVal_transfer {σ2 σ : SkipList} {r : Ptr}
    (hvm : (σ2.getNode r).map Node.value = (σ.getNode r).map Node.value) :
    σ2.nodeVal r = σ.nodeVal r := by
  unfold SkipList.nodeVal
  rw [hvm]

/-- A segment whose last node's level-`i` link is overwritten follows the
new link, provided the earlier nodes' links are untouched. -/
lemma IsSeg.relast {s s2 : SkipList} {i : Nat} {l lout lout2 : Option Ptr} :
    ∀ {ps : List Ptr}, IsSeg s i l ps lout → ps ≠ [] →
    (∀ p ∈ ps.dropLast, s2.linkAt p i = s.linkAt p i) →
    s2.linkAt (ps.getLastD 0) i = some lout2 →
    IsSeg s2 i l ps lout2 := by
  intro ps h
  induction h with
  | nil => intro hne _ _; exact absurd rfl hne
  | cons hn hl hc ih =>
    rename_i p l2 lo ps2 n
    intro _ hg hlast
    rcases hps2 : ps2 with _ | ⟨a, t⟩
    · subst hps2
      cases hc
      rw [List.getLastD_cons, List.getLastD_nil] at hlast
      obtain ⟨n2, hn2, hl2⟩ := linkAt_inv hlast
      exact IsSeg.cons hn2 hl2 IsSeg.nil
    · subst hps2
      have hpl : s2.linkAt p i = some l2 := by
        rw [hg p (by rw [List.dropLast_cons_of_ne_nil (by simp)]; simp)]
        unfold SkipList.linkAt
        rw [hn]
        exact hl
      obtain ⟨n2, hn2, hl2⟩ := linkAt_inv hpl
      refine IsSeg.cons hn2 hl2 (ih (by simp) ?_ ?_)
      · intro q hq
        exact hg q (by rw [List.dropLast_cons_of_ne_nil (by simp)]; simp [hq])
      · rw [List.getLastD_cons] at hlast
        rcases t with _ | ⟨b, t2⟩
        · simp only [List.getLastD_cons, List.getLastD_nil] at hlast ⊢
          exact hlast
        · simp only [List.getLastD_cons] at hlast ⊢
          exact hlast

/-- Glue a segment onto a chain continuing from its out-link. -/
lemma IsSeg.appendChain {s : SkipList} {i : Nat} {l lm : Option Ptr}
    {xs ys : List Ptr} (h1 : IsSeg s i l xs lm) (h2 : IsChain s i lm ys) :
    IsChain s i l (xs ++ ys) :=
  (h1.append h2.toSeg).toChain

/-- Inside a chain, every member's level-`i` link is `nullptr` or another
member. -/
lemma IsChain.mem_link {s : SkipList} {i : Nat} :
    ∀ {l : Option Ptr} {ps : List Ptr}, IsChain s i l ps →
    ∀ {p : Ptr}, p ∈ ps → ∀ {l2 : Option Ptr}, s.linkAt p i = some l2 →
    ∀ q, l2 = some q → q ∈ ps := by
  intro l ps h
  induction h with
  | nil => intro p hp; simp at hp
  | cons hn hl hc ih =>
    rename_i p0 l' ps' n
    intro p hp l2 hl2 q hq
    rcases List.mem_cons.mp hp with hp | hp
    · subst hp
      have hpl : s.linkAt p i = some l' := by
        unfold SkipList.linkAt
        rw [hn]
        exact hl
      rw [hpl] at hl2
      have hll := Option.some.inj hl2
      subst hll
      subst hq
      have hhd := hc.link_eq_head
      rcases ps' with _ | ⟨a, t⟩
      · simp at hhd
      · simp at hhd
        simp [hhd]
    · exact List.mem_cons_of_mem _ (ih hp hl2 q hq)

/-- Full characterization of the splice loop of `insert`: linking levels
`i … i + k - 1` succeeds when every `update` slot in that range holds a
live non-new node with enough links (and the new node has enough links);
afterwards the new node's links copy the old links of the per-level
predecessors, the predecessors point at the new node, and everything else
is untouched. -/
lemma insLink_go {newPtr : Ptr} {u : List (Option Ptr)} :
    ∀ (k i : Nat) (σ : SkipList),
    (∀ j, i ≤ j → j < i + k → ∃ p, u.get? j = some (some p) ∧ p ≠ newPtr ∧
      (∃ n, σ.getNode p = some n ∧ j < n.next.length) ∧
      (∃ np, σ.getNode newPtr = some np ∧ j < np.next.length)) →
    ∃ σ2, SkipList.insLink newPtr u i k σ = some σ2 ∧
      σ2.max_level = σ.max_level ∧ σ2.update = σ.update ∧
      σ2.arena.length = σ.arena.length ∧
      (∀ r, (σ2.getNode r).map Node.value = (σ.getNode r).map Node.value) ∧
      (∀ r, σ2.linkCount r = σ.linkCount r) ∧
      (∀ r j, j < i ∨ i + k ≤ j → σ2.linkAt r j = σ.linkAt r j) ∧
      (∀ j p, i ≤ j → j < i + k → u.get? j = some (some p) →
        σ2.linkAt newPtr j = σ.linkAt p j ∧
        σ2.linkAt p j = some (some newPtr) ∧
        (∀ r, r ≠ p → r ≠ newPtr → σ2.linkAt r j = σ.linkAt r j)) := by
  intro k
  induction k with
  | zero =>
    intro i σ _
    exact ⟨σ, rfl, rfl, rfl, rfl, fun r => rfl, fun r => rfl, fun r j _ => rfl,
      fun j p h1 h2 => absurd h2 (by omega)⟩
  | succ k ih =>
    intro i σ hh
    obtain ⟨p, hup, hpne, ⟨n, hn, hni⟩, ⟨np, hnp, hnpi⟩⟩ := hh i (le_refl i) (by omega)
    unfold SkipList.insLink
    rw [hup]
    simp only [Option.bind_eq_bind', Option.some_bind]
    have hli : σ.linkAt p i = some (n.next.get ⟨i, hni⟩) := by
      unfold SkipList.linkAt
      rw [hn]
      simp only [Option.some_bind]
      exact List.get?_eq_get hni
    rw [hli]
    simp only [Option.some_bind]
    obtain ⟨σa, hσa⟩ := setLink_defined hnp hnpi (n.next.get ⟨i, hni⟩)
    rw [hσa]
    simp only [Option.some_bind]
    obtain ⟨avm, alc, alk, awr, aml, aud, aln⟩ := setLink_preserve hσa
    have hpa : σa.getNode p = some n := by
      obtain ⟨haO, _, _, _, _⟩ := setLink_spec hσa
      rw [haO p hpne, hn]
    obtain ⟨σb, hσb⟩ := setLink_defined hpa hni (some newPtr)
    rw [hσb]
    simp only [Option.some_bind]
    obtain ⟨bvm, blc, blk, bwr, bml, bud, bln⟩ := setLink_preserve hσb
    have hvmb : ∀ r, (σb.getNode r).map Node.value = (σ.getNode r).map Node.value :=
      fun r => (bvm r).trans (avm r)
    have hlcb : ∀ r, σb.linkCount r = σ.linkCount r :=
      fun r => (blc r).trans (alc r)
    have hh2 : ∀ j, i + 1 ≤ j → j < (i + 1) + k → ∃ q, u.get? j = some (some q) ∧
        q ≠ newPtr ∧ (∃ n2, σb.getNode q = some n2 ∧ j < n2.next.length) ∧
        (∃ np2, σb.getNode newPtr = some np2 ∧ j < np2.next.length) := by
      intro j hj1 hj2
      obtain ⟨q, huq, hqne, hqn, hqp⟩ := hh j (by omega) (by omega)
      exact ⟨q, huq, hqne, node_len_transfer (hvmb q) (hlcb q) hqn,
        node_len_transfer (hvmb newPtr) (hlcb newPtr) hqp⟩
    obtain ⟨σ2, hrun, hml, hud, hal, hvm, hlc, hfr, hlev⟩ := ih (i + 1) σb hh2
    refine ⟨σ2, hrun, by rw [hml, bml, aml], by rw [hud, bud, aud],
      by rw [hal, bln, aln], fun r => (hvm r).trans (hvmb r),
      fun r => (hlc r).trans (hlcb r), ?_, ?_⟩
    · intro r j hj
      have hji : j ≠ i := by omega
      have h1 : σ2.linkAt r j = σb.linkAt r j := by
        refine hfr r j ?_
        rcases hj with hj | hj
        · exact Or.inl (by omega)
        · exact Or.inr (by omega)
      rw [h1, blk r j (Or.inr hji), alk r j (Or.inr hji)]
    · intro j q hj1 hj2 huq
      by_cases hji : j = i
      · subst hji
        rw [hup] at huq
        have hqp : q = p := by
          have := Option.some.inj huq
          exact (Option.some.inj this).symm
        subst hqp
        have hfrj : ∀ r, σ2.linkAt r j = σb.linkAt r j :=
          fun r => hfr r j (Or.inl (by omega))
        refine ⟨?_, ?_, ?_⟩
        · rw [hfrj newPtr, blk newPtr j (Or.inl (fun he => hpne he.symm)), awr, hli]
        · rw [hfrj q, bwr]
        · intro r hrp hrn
          rw [hfrj r, blk r j (Or.inl hrp), alk r j (Or.inl hrn)]
      · have hji2 : i + 1 ≤ j := by omega
        obtain ⟨e1, e2, e3⟩ := hlev j q hji2 (by omega) huq
        refine ⟨?_, ?_, ?_⟩
        · rw [e1, blk q j (Or.inr hji), alk q j (Or.inr hji)]
        · exact e2
        · intro r hrq hrn
          rw [e3 r hrq hrn, blk r j (Or.inr hji), alk r j (Or.inr hji)]

/-! ## The two `insert` outcomes -/

lemma valBelow_fun (s : SkipList) (v : Int) :
    (fun p => decide (s.nodeVal p < v)) = valBelow s v := rfl

lemma filter_comm {α : Type} (p q : α → Bool) (l : List α) :
    (l.filter p).filter q = (l.filter q).filter p := by
  rw [List.filter_filter, List.filter_filter]
  exact List.filter_congr fun a _ => Bool.and_comm _ _

lemma getLastD_not_mem_dropLast {α : Type} (l : List α) (d : α) (hne : l ≠ [])
    (hnd : l.Nodup) : l.getLastD d ∉ l.dropLast := by
  intro hmem
  have h2 : (l.dropLast ++ [l.getLastD d]).Nodup := by
    rw [dropLast_append_getLastD d hne]
    exact hnd
  exact List.disjoint_of_nodup_append h2 hmem (by simp)

/-- The level-`i` stop point is a live node with more than `i` links. -/
lemma predAt_live {s : SkipList} {ch : List Ptr} (hwf : WF s ch) (v : Int) {i : Nat}
    (hi : i ≤ s.max_level) :
    ∃ n, s.getNode (predAt s ch v i) = some n ∧ i < n.next.length := by
  unfold predAt
  rcases hA : (chainAt s ch i).takeWhile (valBelow s v) with _ | ⟨a, A2⟩
  · obtain ⟨hn, hh, hlen⟩ := hwf.hdr
    exact ⟨hn, hh, by omega⟩
  · have hne : (chainAt s ch i).takeWhile (valBelow s v) ≠ [] := by simp [hA]
    rw [← hA]
    set q := ((chainAt s ch i).takeWhile (valBelow s v)).getLastD 0 with hq
    have hqm : q ∈ (chainAt s ch i).takeWhile (valBelow s v) := getLastD_mem 0 hne
    have hqc : q ∈ chainAt s ch i := (List.takeWhile_sublist _).subset hqm
    have hqch : q ∈ ch := chainAt_sublist.subset hqc
    obtain ⟨n, hn⟩ := hwf.alive q hqch
    refine ⟨n, hn, ?_⟩
    unfold chainAt at hqc
    rw [List.mem_filter] at hqc
    have := hqc.2
    unfold SkipList.linkCount at this
    rw [hn] at this
    simpa using this

lemma predAt_lt_arena {s : SkipList} {ch : List Ptr} (hwf : WF s ch) (v : Int) {i : Nat}
    (hi : i ≤ s.max_level) : predAt s ch v i < s.arena.length := by
  unfold predAt
  rcases hA : (chainAt s ch i).takeWhile (valBelow s v) with _ | ⟨a, A2⟩
  · exact hwf.header_lt_arena
  · have hne : (chainAt s ch i).takeWhile (valBelow s v) ≠ [] := by simp [hA]
    rw [← hA]
    have hqm := getLastD_mem 0 hne
    exact hwf.mem_lt_arena (chainAt_sublist.subset ((List.takeWhile_sublist _).subset hqm))

/-- Replacing the persistent `update` vector by another well-formed one
preserves the representation invariant. -/
lemma WF.set_update {s : SkipList} {ch : List Ptr} (hwf : WF s ch)
    {u : List (Option Ptr)}
    (h1 : ∀ i p, u.get? i = some (some p) → ∃ n, s.getNode p = some n ∧ i < n.next.length)
    (h2 : ch ≠ [] → s.max_level + 1 ≤ u.length ∧
      ∀ i, i ≤ s.max_level → ∃ p, u.get? i = some (some p)) :
    WF { s with update := u } ch := by
  refine ⟨hwf.hdr, hwf.alive, hwf.closed, hwf.nodup, hwf.levels, hwf.sorted, ?_, h1, h2⟩
  intro i hi
  obtain ⟨l, hl, hc⟩ := hwf.chains i hi
  exact ⟨l, hl, hc.congr fun p _ => rfl⟩

/-- Inserting an already-present value only overwrites the `update`
member: arena and `max_level` survive unchanged, and well-formedness (for
the same chain) is preserved. -/
lemma insert_present {s : SkipList} {ch : List Ptr} {v : Int} {t : Ptr}
    (hwf : WF s ch) (ht : t ∈ ch) (hv : s.nodeVal t = v) (coins : List Bool) :
    ∃ u, s.insert v coins = some { s with update := u } ∧
      WF { s with update := u } ch := by
  obtain ⟨u, hrun, hulen, hufill, hukeep⟩ :=
    insScan_spec hwf v (s.max_level + 1) (le_refl _)
      (SkipList.listResize s.update (s.max_level + 1)) (by rw [listResize_length])
  rw [predAt_top hwf v] at hrun
  have hlc0 : 0 < s.linkCount t := (hwf.levels t ht).1
  have hnext : nextGE s ch v 0 = some t := (nextGE_target hwf ht hv).1 hlc0
  obtain ⟨nt, hnt⟩ := hwf.alive t ht
  have hvt : (nt.value == v) = true := by
    unfold SkipList.nodeVal at hv
    rw [hnt] at hv
    simp at hv
    simp [hv]
  refine ⟨u, ?_, ?_⟩
  · unfold SkipList.insert
    simp only [Option.bind_eq_bind', Option.some_bind]
    rw [hrun]
    simp only [Option.some_bind]
    rw [link_pred hwf v (Nat.zero_le _)]
    simp only [Option.some_bind, hnext, hnt]
    simp only [Option.pure_def, Option.some_bind]
    rw [if_pos hvt]
  · refine hwf.set_update ?_ ?_
    · intro i p hp
      by_cases hi : i ≤ s.max_level
      · rw [hufill i (by omega)] at hp
        have hpe : p = predAt s ch v i := by
          have h2 := Option.some.inj hp
          exact (Option.some.inj h2).symm
        rw [hpe]
        exact predAt_live hwf v hi
      · rw [hukeep i (by omega)] at hp
        rw [List.get?_eq_none.mpr (by rw [listResize_length]; omega)] at hp
        exact absurd hp (by simp)
    · intro _
      refine ⟨by rw [hulen, listResize_length], fun i hi => ?_⟩
      exact ⟨predAt s ch v i, hufill i (by omega)⟩

/-- Scanning below `v` commutes with restricting to level `i`: the
level-`i` prefix below `v` is the level-`i` filtering of the level-0
prefix below `v`. -/
lemma chainAt_takeWhile {s : SkipList} {ch : List Ptr} (hwf : WF s ch) (v : Int) (i : Nat) :
    (chainAt s ch i).takeWhile (valBelow s v) =
      (ch.takeWhile (valBelow s v)).filter (fun p => decide (i < s.linkCount p)) := by
  have h1 := takeWhile_eq_filter_of_sorted (chainAt_sorted hwf i) v
  rw [valBelow_fun] at h1
  have h0 := takeWhile_eq_filter_of_sorted hwf.ch_sorted v
  rw [valBelow_fun] at h0
  calc (chainAt s ch i).takeWhile (valBelow s v)
      = (ch.filter fun p => decide (i < s.linkCount p)).filter (valBelow s v) := h1
    _ = (ch.filter (valBelow s v)).filter (fun p => decide (i < s.linkCount p)) :=
        filter_comm _ _ _
    _ = (ch.takeWhile (valBelow s v)).filter (fun p => decide (i < s.linkCount p)) := by
        rw [h0]

lemma chainAt_dropWhile {s : SkipList} {ch : List Ptr} (hwf : WF s ch) (v : Int) (i : Nat) :
    (chainAt s ch i).dropWhile (valBelow s v) =
      (ch.dropWhile (valBelow s v)).filter (fun p => decide (i < s.linkCount p)) := by
  have h1 := dropWhile_eq_filter_of_sorted (chainAt_sorted hwf i) v
  rw [valBelow_fun] at h1
  have h0 := dropWhile_eq_filter_of_sorted hwf.ch_sorted v
  rw [valBelow_fun] at h0
  calc (chainAt s ch i).dropWhile (valBelow s v)
      = (ch.filter fun p => decide (i < s.linkCount p)).filter
          (fun p => !decide (s.nodeVal p < v)) := h1
    _ = (ch.filter fun p => !decide (s.nodeVal p < v)).filter
          (fun p => decide (i < s.linkCount p)) := filter_comm _ _ _
    _ = (ch.dropWhile (valBelow s v)).filter (fun p => decide (i < s.linkCount p)) := by
        rw [h0]

/-! ## Reading an arena extended by one freshly allocated node -/

lemma getNode_append_lt {s : SkipList} {m2 : Nat} {u : List (Option Ptr)} {nd : Node}
    {r : Ptr} (hr : r < s.arena.length) :
    SkipList.getNode ⟨m2, s.arena ++ [some nd], u⟩ r = s.getNode r := by
  unfold SkipList.getNode
  simp only
  rw [List.get?_append hr]

lemma getNode_append_self {s : SkipList} {m2 : Nat} {u : List (Option Ptr)} {nd : Node} :
    SkipList.getNode ⟨m2, s.arena ++ [some nd], u⟩ s.arena.length = some nd := by
  unfold SkipList.getNode
  simp only
  rw [List.get?_concat_length]
  rfl

lemma getNode_append_hi {s : SkipList} {m2 : Nat} {u : List (Option Ptr)} {nd : Node}
    {r : Ptr} (hr : s.arena.length < r) :
    SkipList.getNode ⟨m2, s.arena ++ [some nd], u⟩ r = none := by
  unfold SkipList.getNode
  simp only
  rw [List.get?_eq_none.mpr (by simp; omega)]
  rfl

/-- After the splice, every level's traversal from the header visits the
old level-`i` participants with the new node `N` inserted between the
below-`v` prefix and the rest (at the levels the new node takes part in),
and is untouched above the new node's level. -/
lemma splice_chains {s σF : SkipList} {ch : List Ptr} (hwf : WF s ch) {v : Int}
    {N : Ptr} {lvl : Nat}
    (hltN : ∀ p ∈ ch, p < N) (h0N : 0 < N)
    (hlcF : ∀ r, r ∈ ch ∨ r = 0 → σF.linkCount r = s.linkCount r)
    (hlcFN : σF.linkCount N = lvl + 1)
    (hlinkN : ∀ j, j ≤ lvl → σF.linkAt N j = some (nextGE s ch v j))
    (hlinkP : ∀ j, j ≤ lvl → σF.linkAt (predAt s ch v j) j = some (some N))
    (hlinkO : ∀ j r, j ≤ lvl → r ≠ predAt s ch v j → r ≠ N → r ∈ ch ∨ r = 0 →
      σF.linkAt r j = s.linkAt r j)
    (hlinkHi : ∀ j r, lvl < j → r ∈ ch ∨ r = 0 → σF.linkAt r j = s.linkAt r j) :
    ∀ i, i ≤ s.max_level → ∃ l, σF.linkAt 0 i = some l ∧
      IsChain σF i l
        (chainAt σF (ch.takeWhile (valBelow s v) ++ N :: ch.dropWhile (valBelow s v)) i) := by
  intro i hi
  have hA0ch : ∀ p ∈ ch.takeWhile (valBelow s v), p ∈ ch :=
    fun p hp => (List.takeWhile_sublist _).subset hp
  have hB0ch : ∀ p ∈ ch.dropWhile (valBelow s v), p ∈ ch :=
    fun p hp => (List.dropWhile_sublist _).subset hp
  have hsplit : ch.takeWhile (valBelow s v) ++ ch.dropWhile (valBelow s v) = ch :=
    List.takeWhile_append_dropWhile (p := valBelow s v) (l := ch)
  set Af := (ch.takeWhile (valBelow s v)).filter (fun p => decide (i < s.linkCount p)) with hAf
  set Bf := (ch.dropWhile (valBelow s v)).filter (fun p => decide (i < s.linkCount p)) with hBf
  have hAfch : ∀ p ∈ Af, p ∈ ch := fun p hp => hA0ch p (List.mem_of_mem_filter hp)
  have hBfch : ∀ p ∈ Bf, p ∈ ch := fun p hp => hB0ch p (List.mem_of_mem_filter hp)
  have hchS : chainAt s ch i = Af ++ Bf := by
    unfold chainAt
    rw [← hsplit, List.filter_append]
  have hAf_take : (chainAt s ch i).takeWhile (valBelow s v) = Af := chainAt_takeWhile hwf v i
  have hBf_drop : (chainAt s ch i).dropWhile (valBelow s v) = Bf := chainAt_dropWhile hwf v i
  have hpredi : predAt s ch v i = Af.getLastD 0 := by unfold predAt; rw [hAf_take]
  have hnexti : nextGE s ch v i = Bf.head? := by unfold nextGE; rw [hBf_drop]
  have hnodCh : (chainAt s ch i).Nodup := hwf.nodup_ch.sublist chainAt_sublist
  have hdisj : ∀ p ∈ Af, p ∉ Bf := by
    have hnod2 : (Af ++ Bf).Nodup := by rw [← hchS]; exact hnodCh
    exact fun p hp hq => List.disjoint_of_nodup_append hnod2 hp hq
  have hfA : (ch.takeWhile (valBelow s v)).filter (fun p => decide (i < σF.linkCount p)) = Af :=
    List.filter_congr fun p hp => by rw [hlcF p (Or.inl (hA0ch p hp))]
  have hfB : (ch.dropWhile (valBelow s v)).filter (fun p => decide (i < σF.linkCount p)) = Bf :=
    List.filter_congr fun p hp => by rw [hlcF p (Or.inl (hB0ch p hp))]
  obtain ⟨l, hl0, hc⟩ := hwf.chains i hi
  by_cases hil : i ≤ lvl
  · have hchain2 : chainAt σF (ch.takeWhile (valBelow s v) ++ N :: ch.dropWhile (valBelow s v)) i
        = Af ++ N :: Bf := by
      unfold chainAt
      rw [List.filter_append, List.filter_cons]
      have hcN : decide (i < σF.linkCount N) = true := by rw [hlcFN]; simp; omega
      rw [hcN, hfA, hfB]
      simp
    rw [hchain2]
    have hcS : IsChain s i l (Af ++ Bf) := by rw [← hchS]; exact hc
    obtain ⟨lm, hseg, hcB⟩ := hcS.append_split
    have hlm : lm = Bf.head? := hcB.link_eq_head
    subst hlm
    have hrneB : ∀ r ∈ Bf, r ≠ predAt s ch v i := by
      intro r hr he
      by_cases hAf0 : Af = []
      · rw [hpredi, hAf0, List.getLastD_nil] at he
        exact hwf.zero_not_mem (he ▸ hBfch r hr)
      · have hpm : predAt s ch v i ∈ Af := by rw [hpredi]; exact getLastD_mem 0 hAf0
        exact hdisj _ (he ▸ hpm) (he ▸ hr)
    have hcB_F : IsChain σF i Bf.head? Bf := by
      refine hcB.congrLinks fun r hr => ?_
      exact hlinkO i r hil (hrneB r hr) (Nat.ne_of_lt (hltN r (hBfch r hr)))
        (Or.inl (hBfch r hr))
    have hlN := hlinkN i hil
    rw [hnexti] at hlN
    obtain ⟨nN, hnN, hgetN⟩ := linkAt_inv hlN
    have hchainN : IsChain σF i (some N) (N :: Bf) := IsChain.cons hnN hgetN hcB_F
    by_cases hAf0 : Af = []
    · have hpred0 : predAt s ch v i = 0 := by rw [hpredi, hAf0]; rfl
      have hl0F : σF.linkAt 0 i = some (some N) := by rw [← hpred0]; exact hlinkP i hil
      refine ⟨some N, hl0F, ?_⟩
      rw [hAf0, List.nil_append]
      exact hchainN
    · have hpredAf : predAt s ch v i ∈ Af := by rw [hpredi]; exact getLastD_mem 0 hAf0
      have hpredch : predAt s ch v i ∈ ch := hAfch _ hpredAf
      have hpred_ne0 : predAt s ch v i ≠ 0 := fun he => hwf.zero_not_mem (he ▸ hpredch)
      have hl0F : σF.linkAt 0 i = some l := by
        have h00 := hlinkO i 0 hil (fun he => hpred_ne0 he.symm)
          (Nat.ne_of_lt h0N) (Or.inr rfl)
        rw [h00, hl0]
      have hnodAf : Af.Nodup := by
        have hsub : Af.Sublist ch :=
          (List.filter_sublist _).trans (List.takeWhile_sublist _)
        exact hwf.nodup_ch.sublist hsub
      have hsegF : IsSeg σF i l Af (some N) := by
        refine hseg.relast hAf0 ?_ ?_
        · intro r hr
          have hrAf : r ∈ Af := (List.dropLast_sublist Af).subset hr
          have hrne : r ≠ predAt s ch v i := by
            rw [hpredi]
            intro he
            exact getLastD_not_mem_dropLast Af 0 hAf0 hnodAf (he ▸ hr)
          exact hlinkO i r hil hrne (Nat.ne_of_lt (hltN r (hAfch r hrAf)))
            (Or.inl (hAfch r hrAf))
        · rw [← hpredi]
          exact hlinkP i hil
      exact ⟨l, hl0F, hsegF.appendChain hchainN⟩
  · have hchain2 : chainAt σF (ch.takeWhile (valBelow s v) ++ N :: ch.dropWhile (valBelow s v)) i
        = Af ++ Bf := by
      unfold chainAt
      rw [List.filter_append, List.filter_cons]
      have hcN : decide (i < σF.linkCount N) = false := by rw [hlcFN]; simp; omega
      rw [hcN, hfA, hfB]
      simp
    rw [hchain2, ← hchS]
    refine ⟨l, ?_, hc.congrLinks fun r hr => hlinkHi i r (by omega)
      (Or.inl (chainAt_sublist.subset hr))⟩
    rw [hlinkHi i 0 (by omega) (Or.inr rfl)]
    exact hl0

/-- Inserting a value not yet present: the call succeeds, the new node is
allocated at the end of the arena and spliced between the below-`v`
prefix and the rest of the chain, `max_level` is unchanged (the growth
branch is dead because `randomLevel` caps at `max_level`), and
well-formedness is preserved for the extended chain. -/
lemma insert_absent {s : SkipList} {ch : List Ptr} {v : Int}
    (hwf : WF s ch) (habs : v ∉ ch.map s.nodeVal) (coins : List Bool) :
    ∃ s2, s.insert v coins = some s2 ∧
      WF s2 (ch.takeWhile (valBelow s v) ++ s.arena.length :: ch.dropWhile (valBelow s v)) ∧
      s2.max_level = s.max_level ∧ s2.arena.length = s.arena.length + 1 ∧
      (ch.takeWhile (valBelow s v) ++
          s.arena.length :: ch.dropWhile (valBelow s v)).map s2.nodeVal =
        (ch.map s.nodeVal).takeWhile (fun x => decide (x < v)) ++
          v :: (ch.map s.nodeVal).dropWhile (fun x => decide (x < v)) := by
  have habs' : ∀ p ∈ ch, s.nodeVal p ≠ v := by
    intro p hp he
    exact habs (he ▸ List.mem_map_of_mem _ hp)
  obtain ⟨u, hrun, hulen, hufill, hukeep⟩ :=
    insScan_spec hwf v (s.max_level + 1) (le_refl _)
      (SkipList.listResize s.update (s.max_level + 1)) (by rw [listResize_length])
  rw [predAt_top hwf v] at hrun
  have hulen' : u.length = s.max_level + 1 := by rw [hulen, listResize_length]
  have hlvl : SkipList.randomLevel s.max_level coins ≤ s.max_level := randomLevel_le _ _
  set lvl := SkipList.randomLevel s.max_level coins with hlvldef
  set N := s.arena.length with hNdef
  set σ1 : SkipList :=
    ⟨s.max_level, s.arena ++ [some ⟨v, List.replicate (lvl + 1) none⟩], u⟩ with hσ1def
  have hg1 : ∀ r, r < s.arena.length → σ1.getNode r = s.getNode r :=
    fun r hr => getNode_append_lt hr
  have hgN : σ1.getNode N = some ⟨v, List.replicate (lvl + 1) none⟩ := getNode_append_self
  have hlk1 : ∀ r j, r < s.arena.length → σ1.linkAt r j = s.linkAt r j := by
    intro r j hr
    unfold SkipList.linkAt
    rw [hg1 r hr]
  have hlc1 : ∀ r, r < s.arena.length → σ1.linkCount r = s.linkCount r := by
    intro r hr
    unfold SkipList.linkCount
    rw [hg1 r hr]
  have hlcN1 : σ1.linkCount N = lvl + 1 := by
    unfold SkipList.linkCount
    rw [hgN]
    simp
  have hltN : ∀ p ∈ ch, p < N := fun p hp => hwf.mem_lt_arena hp
  have h0N : 0 < N := hwf.header_lt_arena
  have hpre : ∀ j, 0 ≤ j → j < 0 + (lvl + 1) → ∃ p, u.get? j = some (some p) ∧
      p ≠ N ∧ (∃ n, σ1.getNode p = some n ∧ j < n.next.length) ∧
      (∃ np, σ1.getNode N = some np ∧ j < np.next.length) := by
    intro j _ hj
    have hjm : j ≤ s.max_level := by omega
    obtain ⟨n, hn, hni⟩ := predAt_live hwf v hjm
    have hplt : predAt s ch v j < s.arena.length := predAt_lt_arena hwf v hjm
    refine ⟨predAt s ch v j, hufill j (by omega), Nat.ne_of_lt hplt, ⟨n, ?_, hni⟩,
      ⟨_, hgN, by simp; omega⟩⟩
    rw [hg1 _ hplt]
    exact hn
  obtain ⟨σF, hF, hFml, hFud, hFal, hFvm, hFlc, hFfr, hFlev⟩ := insLink_go (lvl + 1) 0 σ1 hpre
  have hFml' : σF.max_level = s.max_level := hFml
  have hFud' : σF.update = u := hFud
  have hFal' : σF.arena.length = s.arena.length + 1 := by
    rw [hFal, hσ1def]
    simp
  have hvm2 : ∀ r, r < s.arena.length →
      (σF.getNode r).map Node.value = (s.getNode r).map Node.value :=
    fun r hr => (hFvm r).trans (by rw [hg1 r hr])
  have hvmN : (σF.getNode N).map Node.value = some v := by
    rw [hFvm N, hgN]
    rfl
  have hlc2 : ∀ r, r < s.arena.length → σF.linkCount r = s.linkCount r :=
    fun r hr => (hFlc r).trans (hlc1 r hr)
  have hlcFN : σF.linkCount N = lvl + 1 := (hFlc N).trans hlcN1
  have hval2 : ∀ r, r < s.arena.length → σF.nodeVal r = s.nodeVal r := by
    intro r hr
    unfold SkipList.nodeVal
    rw [hvm2 r hr]
  have hvalN : σF.nodeVal N = v := by
    unfold SkipList.nodeVal
    rw [hvmN]
    rfl
  have hmemlt : ∀ r, r ∈ ch ∨ r = 0 → r < s.arena.length := by
    intro r hr
    rcases hr with hr | hr
    · exact hltN r hr
    · rw [hr]
      exact h0N
  have hlinkHi : ∀ j r, lvl < j → r ∈ ch ∨ r = 0 → σF.linkAt r j = s.linkAt r j := by
    intro j r hj hr
    rw [hFfr r j (Or.inr (by omega)), hlk1 r j (hmemlt r hr)]
  have hub : ∀ j, j ≤ lvl → u.get? j = some (some (predAt s ch v j)) :=
    fun j hj => hufill j (by omega)
  have hlinkN : ∀ j, j ≤ lvl → σF.linkAt N j = some (nextGE s ch v j) := by
    intro j hj
    have h3 := (hFlev j (predAt s ch v j) (by omega) (by omega) (hub j hj)).1
    rw [h3, hlk1 _ j (predAt_lt_arena hwf v (by omega)), link_pred hwf v (by omega)]
  have hlinkP : ∀ j, j ≤ lvl → σF.linkAt (predAt s ch v j) j = some (some N) :=
    fun j hj => (hFlev j _ (by omega) (by omega) (hub j hj)).2.1
  have hlinkO : ∀ j r, j ≤ lvl → r ≠ predAt s ch v j → r ≠ N → r ∈ ch ∨ r = 0 →
      σF.linkAt r j = s.linkAt r j := by
    intro j r hj hrp hrN hr
    rw [(hFlev j _ (by omega) (by omega) (hub j hj)).2.2 r hrp hrN, hlk1 r j (hmemlt r hr)]
  have hlive : ∀ p, p ∈ ch ∨ p = 0 → ∃ n, σF.getNode p = some n := by
    intro p hp
    refine live_transfer (hvm2 p (hmemlt p hp)) ?_
    rcases hp with hp | hp
    · exact hwf.alive p hp
    · obtain ⟨n0, h0, _⟩ := hwf.hdr
      rw [hp]
      exact ⟨n0, h0⟩
  have hliveN : ∃ n, σF.getNode N = some n := by
    rcases hN : σF.getNode N with _ | n
    · rw [hN] at hvmN
      exact absurd hvmN (by simp)
    · exact ⟨n, rfl⟩
  have hins : s.insert v coins = some σF := by
    unfold SkipList.insert
    simp only [Option.bind_eq_bind', Option.some_bind]
    rw [hrun]
    simp only [Option.some_bind]
    rw [link_pred hwf v (Nat.zero_le _)]
    simp only [Option.some_bind]
    rcases hnx : nextGE s ch v 0 with _ | b
    · simp only [hnx, Option.pure_def, Option.some_bind]
      rw [if_neg (by simp)]
      rw [if_neg (show ¬ s.max_level < lvl by omega)]
      exact hF
    · have hbch : b ∈ ch := chainAt_sublist.subset (nextGE_mem hwf hnx).1
      obtain ⟨nb, hnb⟩ := hwf.alive b hbch
      have hnbv : (nb.value == v) = false := by
        have h4 := habs' b hbch
        unfold SkipList.nodeVal at h4
        rw [hnb] at h4
        simp at h4
        simp [h4]
      simp only [hnx, hnb, Option.some_bind, Option.pure_def]
      rw [if_neg (by simp [hnbv])]
      rw [if_neg (show ¬ s.max_level < lvl by omega)]
      exact hF
  have hA0ch : ∀ p ∈ ch.takeWhile (valBelow s v), p ∈ ch :=
    fun p hp => (List.takeWhile_sublist _).subset hp
  have hB0ch : ∀ p ∈ ch.dropWhile (valBelow s v), p ∈ ch :=
    fun p hp => (List.dropWhile_sublist _).subset hp
  have hsplitAB : ch.takeWhile (valBelow s v) ++ ch.dropWhile (valBelow s v) = ch :=
    List.takeWhile_append_dropWhile (p := valBelow s v) (l := ch)
  have hmapA : (ch.takeWhile (valBelow s v)).map σF.nodeVal =
      (ch.takeWhile (valBelow s v)).map s.nodeVal :=
    List.map_congr_left fun p hp => hval2 p (hltN p (hA0ch p hp))
  have hmapB : (ch.dropWhile (valBelow s v)).map σF.nodeVal =
      (ch.dropWhile (valBelow s v)).map s.nodeVal :=
    List.map_congr_left fun p hp => hval2 p (hltN p (hB0ch p hp))
  have hmap2 : (ch.takeWhile (valBelow s v) ++ N :: ch.dropWhile (valBelow s v)).map σF.nodeVal
      = (ch.takeWhile (valBelow s v)).map s.nodeVal ++
          v :: (ch.dropWhile (valBelow s v)).map s.nodeVal := by
    rw [List.map_append, List.map_cons, hmapA, hmapB, hvalN]
  have hsorted2 : ((ch.takeWhile (valBelow s v) ++
      N :: ch.dropWhile (valBelow s v)).map σF.nodeVal).Pairwise (· < ·) := by
    rw [hmap2]
    have hAp : ((ch.takeWhile (valBelow s v)).map s.nodeVal).Pairwise (· < ·) :=
      hwf.sorted.sublist ((List.takeWhile_sublist _).map _)
    have hBp : ((ch.dropWhile (valBelow s v)).map s.nodeVal).Pairwise (· < ·) :=
      hwf.sorted.sublist ((List.dropWhile_sublist _).map _)
    have hAv : ∀ x ∈ (ch.takeWhile (valBelow s v)).map s.nodeVal, x < v := by
      intro x hx
      obtain ⟨p, hp, he⟩ := List.mem_map.mp hx
      have h5 := List.mem_takeWhile_imp hp
      unfold valBelow at h5
      simp at h5
      rw [← he]
      exact h5
    have hBv : ∀ x ∈ (ch.dropWhile (valBelow s v)).map s.nodeVal, v < x := by
      intro x hx
      obtain ⟨p, hp, he⟩ := List.mem_map.mp hx
      have hp2 : p ∈ ch.dropWhile (fun q => decide (s.nodeVal q < v)) := by
        rw [valBelow_fun]
        exact hp
      have h1 := mem_dropWhile_of_sorted hwf.ch_sorted hp2
      have h2 := habs' p (hB0ch p hp)
      rw [← he]
      omega
    rw [List.pairwise_append]
    refine ⟨hAp, ?_, ?_⟩
    · rw [List.pairwise_cons]
      exact ⟨fun b hb => hBv b hb, hBp⟩
    · intro a ha b hb
      rcases List.mem_cons.mp hb with hb | hb
      · rw [hb]
        exact hAv a ha
      · have h6 := hBv b hb
        have h7 := hAv a ha
        omega
  have hwf2 : WF σF (ch.takeWhile (valBelow s v) ++ N :: ch.dropWhile (valBelow s v)) := by
    refine ⟨?_, ?_, ?_, ?_, ?_, hsorted2, ?_, ?_, ?_⟩
    · obtain ⟨n0, h0, hlen0⟩ := hwf.hdr
      obtain ⟨n2, h2, hl2⟩ :=
        node_len_transfer (j := s.max_level) (hvm2 0 h0N) (hlc2 0 h0N) ⟨n0, h0, by omega⟩
      exact ⟨n2, h2, by rw [hFml']; omega⟩
    · intro p hp
      have hp2 : p ∈ ch.takeWhile (valBelow s v) ∨ p = N ∨
          p ∈ ch.dropWhile (valBelow s v) := by simpa using hp
      rcases hp2 with hp2 | hp2 | hp2
      · exact hlive p (Or.inl (hA0ch p hp2))
      · rw [hp2]
        exact hliveN
      · exact hlive p (Or.inl (hB0ch p hp2))
    · intro p n hp0 hpn
      rcases Nat.lt_trichotomy p N with hlt | heq | hgt
      · have hs : ∃ n2, s.getNode p = some n2 := by
          rcases hg : s.getNode p with _ | n2
          · have h8 := hvm2 p hlt
            rw [hpn, hg] at h8
            exact absurd h8 (by simp)
          · exact ⟨n2, rfl⟩
        obtain ⟨n2, hn2⟩ := hs
        have hpch : p ∈ ch := hwf.closed p n2 hp0 hn2
        have hpAB : p ∈ ch.takeWhile (valBelow s v) ++ ch.dropWhile (valBelow s v) := by
          rw [hsplitAB]
          exact hpch
        rcases List.mem_append.mp hpAB with hm | hm
        · exact List.mem_append_left _ hm
        · exact List.mem_append_right _ (List.mem_cons_of_mem _ hm)
      · rw [heq]
        exact List.mem_append_right _ (List.mem_cons_self _ _)
      · exfalso
        have h1 : σ1.getNode p = none := getNode_append_hi hgt
        have h9 : (σF.getNode p).map Node.value = none := by rw [hFvm p, h1]; rfl
        rw [hpn] at h9
        exact absurd h9 (by simp)
    · refine List.nodup_cons.mpr ⟨?_, ?_⟩
      · intro h0mem
        have h02 : (0 : Ptr) ∈ ch.takeWhile (valBelow s v) ∨ 0 = N ∨
            (0 : Ptr) ∈ ch.dropWhile (valBelow s v) := by simpa using h0mem
        rcases h02 with h02 | h02 | h02
        · exact hwf.zero_not_mem (hA0ch 0 h02)
        · omega
        · exact hwf.zero_not_mem (hB0ch 0 h02)
      · rw [List.nodup_middle]
        refine List.nodup_cons.mpr ⟨?_, ?_⟩
        · rw [hsplitAB]
          exact fun h => lt_irrefl N (hltN N h)
        · rw [hsplitAB]
          exact hwf.nodup_ch
    · intro p hp
      have hp2 : p ∈ ch.takeWhile (valBelow s v) ∨ p = N ∨
          p ∈ ch.dropWhile (valBelow s v) := by simpa using hp
      rcases hp2 with hp2 | hp2 | hp2
      · have hpch : p ∈ ch := hA0ch p hp2
        rw [hlc2 p (hltN p hpch), hFml']
        exact hwf.levels p hpch
      · rw [hp2, hlcFN, hFml']
        exact ⟨by omega, by omega⟩
      · have hpch : p ∈ ch := hB0ch p hp2
        rw [hlc2 p (hltN p hpch), hFml']
        exact hwf.levels p hpch
    · intro i hi
      rw [hFml'] at hi
      exact splice_chains hwf hltN h0N (fun r hr => hlc2 r (hmemlt r hr)) hlcFN
        hlinkN hlinkP hlinkO hlinkHi i hi
    · intro i p hp
      rw [hFud'] at hp
      by_cases hi : i ≤ s.max_level
      · rw [hufill i (by omega)] at hp
        have hpe : p = predAt s ch v i := by
          have h2 := Option.some.inj hp
          exact (Option.some.inj h2).symm
        rw [hpe]
        exact node_len_transfer (hvm2 _ (predAt_lt_arena hwf v hi))
          (hlc2 _ (predAt_lt_arena hwf v hi)) (predAt_live hwf v hi)
      · rw [hukeep i (by omega),
          List.get?_eq_none.mpr (by rw [listResize_length]; omega)] at hp
        exact absurd hp (by simp)
    · intro _
      refine ⟨by rw [hFud', hulen', hFml'], fun i hi => ?_⟩
      rw [hFml'] at hi
      exact ⟨predAt s ch v i, by rw [hFud']; exact hufill i (by omega)⟩
  refine ⟨σF, hins, hwf2, hFml', by rw [hFal'], ?_⟩
  rw [hmap2, List.takeWhile_map, List.dropWhile_map]
  have hcomp : ((fun x : Int => decide (x < v)) ∘ s.nodeVal) = valBelow s v := rfl
  rw [hcomp]

/-- `SkipList::insert` never fails from a well-formed state, preserves
well-formedness, effects `sInsert` on the value chain, never changes
`max_level`, and is a complete no-op on the arena for duplicates. -/
lemma insert_ok {s : SkipList} {ch : List Ptr} (hwf : WF s ch) (v : Int) (coins : List Bool) :
    ∃ s2 ch2, s.insert v coins = some s2 ∧ WF s2 ch2 ∧
      ch2.map s2.nodeVal = sInsert v (ch.map s.nodeVal) ∧
      s2.max_level = s.max_level ∧
      (v ∈ ch.map s.nodeVal → s2.arena = s.arena ∧ ch2 = ch) ∧
      (v ∉ ch.map s.nodeVal → s2.arena.length = s.arena.length + 1) := by
  by_cases hmem : v ∈ ch.map s.nodeVal
  · obtain ⟨t, ht, hv⟩ := List.mem_map.mp hmem
    obtain ⟨u, hins, hwf2⟩ := insert_present hwf ht hv coins
    refine ⟨_, ch, hins, hwf2, ?_, rfl, fun _ => ⟨rfl, rfl⟩, fun h => absurd hmem h⟩
    have h1 : ch.map (SkipList.nodeVal { s with update := u }) = ch.map s.nodeVal := rfl
    rw [h1]
    unfold sInsert
    rw [if_pos hmem]
  · obtain ⟨s2, hins, hwf2, hml, hal, hmap⟩ := insert_absent hwf hmem coins
    refine ⟨s2, _, hins, hwf2, ?_, hml, fun h => absurd h hmem, fun _ => hal⟩
    rw [hmap]
    unfold sInsert
    rw [if_neg hmem]

/-- The freshly constructed `SkipList(max_lvl)` is well-formed with an
empty chain. -/
lemma WF_create (m : Nat) : WF (SkipList.create m) [] := by
  refine ⟨⟨⟨0, List.replicate (m + 1) none⟩, rfl, by simp [SkipList.create]⟩,
    ?_, ?_, ?_, ?_, ?_, ?_, ?_, ?_⟩
  · intro p hp
    simp at hp
  · intro p n hp0 hpn
    unfold SkipList.getNode SkipList.create at hpn
    rcases p with _ | p2
    · exact absurd rfl hp0
    · simp at hpn
  · simp
  · intro p hp
    simp at hp
  · simp
  · intro i hi
    have him : i ≤ m := by simpa [SkipList.create] using hi
    refine ⟨none, ?_, ?_⟩
    · unfold SkipList.linkAt SkipList.getNode SkipList.create
      simp only [List.get?_cons_zero, Option.some_bind, Option.bind_some, id_eq]
      rw [List.get?_eq_get (by simp; omega)]
      rw [List.get_replicate]
    · have h2 : chainAt (SkipList.create m) [] i = [] := rfl
      rw [h2]
      exact IsChain.nil
  · intro i p hp
    simp [SkipList.create] at hp
  · intro h
    exact absurd rfl h

/-! ## The `remove` machinery -/

/-- The level-`i` out-link of the node holding `v`: the head of what
follows the drop point. -/
lemma t_out_link {s : SkipList} {ch : List Ptr} {v : Int} {t : Ptr}
    (hwf : WF s ch) (ht : t ∈ ch) (hv : s.nodeVal t = v) {i : Nat}
    (hi : i < s.linkCount t) (him : i ≤ s.max_level) :
    s.linkAt t i = some ((((chainAt s ch i).dropWhile (valBelow s v)).tail).head?) := by
  have hnx : nextGE s ch v i = some t := (nextGE_target hwf ht hv).1 hi
  unfold nextGE at hnx
  rcases hd : (chainAt s ch i).dropWhile (valBelow s v) with _ | ⟨x, rest⟩
  · rw [hd] at hnx
    exact absurd hnx (by simp)
  · rw [hd] at hnx
    simp at hnx
    rw [hnx] at hd
    have hsp : chainAt s ch i = (chainAt s ch i).takeWhile (valBelow s v) ++ t :: rest := by
      conv_lhs => rw [← List.takeWhile_append_dropWhile (p := valBelow s v)
        (l := chainAt s ch i)]
      rw [hd]
    obtain ⟨l, hl, hc⟩ := hwf.chains i him
    rw [hsp] at hc
    obtain ⟨l2, hql, hc2⟩ := hc.split
    rw [hql, hc2.link_eq_head]
    simp

/-- From a live slot with enough links, a level-`i` link can only lead to
a level-`i` chain participant. -/
lemma link_in_chain {s : SkipList} {ch : List Ptr} (hwf : WF s ch) {p : Ptr} {i : Nat}
    {l : Option Ptr} (hp : ∃ n, s.getNode p = some n ∧ i < n.next.length)
    (him : i ≤ s.max_level) (hl : s.linkAt p i = some l) :
    ∀ q, l = some q → q ∈ chainAt s ch i := by
  obtain ⟨n, hn, hni⟩ := hp
  by_cases hp0 : p = 0
  · subst hp0
    obtain ⟨l0, hl0, hc⟩ := hwf.chains i him
    rw [hl0] at hl
    have hle : l0 = l := Option.some.inj hl
    subst hle
    intro q hq
    subst hq
    have hhd := hc.link_eq_head
    rcases hcc : chainAt s ch i with _ | ⟨a, rest⟩
    · rw [hcc] at hhd
      exact absurd hhd (by simp)
    · rw [hcc] at hhd
      simp at hhd
      simp [hhd]
  · have hpch : p ∈ ch := hwf.closed p n hp0 hn
    have hlcp : s.linkCount p = n.next.length := by
      unfold SkipList.linkCount
      rw [hn]
      rfl
    have hpcAt : p ∈ chainAt s ch i := by
      unfold chainAt
      rw [List.mem_filter]
      refine ⟨hpch, ?_⟩
      simp [hlcp]
      omega
    obtain ⟨l0, hl0, hc⟩ := hwf.chains i him
    exact hc.mem_link hpcAt hl

/-- Full characterization of the relink loop of `remove`: walking levels
`i` upward it rewires the per-level predecessors around the target until
the first level the target does not participate in (the stale `update`
entry read there is live by the invariant, so the comparison is safe and
breaks the loop), leaving all other links, all values and the shape of
the state untouched. -/
lemma remUnlink_go {s : SkipList} {ch : List Ptr} {v : Int} {t : Ptr}
    {u : List (Option Ptr)}
    (hwf : WF s ch) (ht : t ∈ ch) (hv : s.nodeVal t = v)
    (hu : ∀ j, j ≤ s.max_level → ∃ p, u.get? j = some (some p) ∧
        (j < s.linkCount t → p = predAt s ch v j) ∧
        (∃ n, s.getNode p = some n ∧ j < n.next.length)) :
    ∀ (k i : Nat) (σ : SkipList), i + k = s.max_level + 1 → i ≤ s.linkCount t →
    (∀ r, (σ.getNode r).map Node.value = (s.getNode r).map Node.value) →
    (∀ r, σ.linkCount r = s.linkCount r) →
    σ.max_level = s.max_level → σ.update = s.update → σ.arena.length = s.arena.length →
    (∀ r j, i ≤ j → σ.linkAt r j = s.linkAt r j) →
    (∀ j, j < i → σ.linkAt (predAt s ch v j) j =
        some ((((chainAt s ch j).dropWhile (valBelow s v)).tail).head?)) →
    (∀ r j, j < i → r ≠ predAt s ch v j → σ.linkAt r j = s.linkAt r j) →
    ∃ σ2, SkipList.remUnlink u t i k σ = some σ2 ∧
      (∀ r, (σ2.getNode r).map Node.value = (s.getNode r).map Node.value) ∧
      (∀ r, σ2.linkCount r = s.linkCount r) ∧
      σ2.max_level = s.max_level ∧ σ2.update = s.update ∧
      σ2.arena.length = s.arena.length ∧
      (∀ r j, s.linkCount t ≤ j → σ2.linkAt r j = s.linkAt r j) ∧
      (∀ j, j < s.linkCount t → σ2.linkAt (predAt s ch v j) j =
        some ((((chainAt s ch j).dropWhile (valBelow s v)).tail).head?)) ∧
      (∀ r j, r ≠ predAt s ch v j → σ2.linkAt r j = s.linkAt r j) := by
  have hlct : s.linkCount t ≤ s.max_level + 1 := (hwf.levels t ht).2
  intro k
  induction k with
  | zero =>
    intro i σ hik hit hvm hlc hml hud hal hfr hP hO
    refine ⟨σ, rfl, hvm, hlc, hml, hud, hal, ?_, ?_, ?_⟩
    · intro r j hj
      exact hfr r j (by omega)
    · intro j hj
      exact hP j (by omega)
    · intro r j hrp
      rcases Nat.lt_or_ge j i with hji | hji
      · exact hO r j hji hrp
      · exact hfr r j hji
  | succ k ih =>
    intro i σ hik hit hvm hlc hml hud hal hfr hP hO
    have him : i ≤ s.max_level := by omega
    obtain ⟨p, hup, hpP, ⟨n, hn, hni⟩⟩ := hu i him
    unfold SkipList.remUnlink
    rw [hup]
    simp only [Option.bind_eq_bind', Option.some_bind]
    rcases Nat.lt_or_ge i (s.linkCount t) with hilt | hige
    · have hpe : p = predAt s ch v i := hpP hilt
      subst hpe
      have hlkp : σ.linkAt (predAt s ch v i) i = some (nextGE s ch v i) := by
        rw [hfr _ i (le_refl i), link_pred hwf v him]
      rw [hlkp]
      simp only [Option.some_bind]
      have hnx : nextGE s ch v i = some t := (nextGE_target hwf ht hv).1 hilt
      rw [hnx, if_pos rfl]
      have hlkt : σ.linkAt t i =
          some ((((chainAt s ch i).dropWhile (valBelow s v)).tail).head?) := by
        rw [hfr t i (le_refl i)]
        exact t_out_link hwf ht hv hilt him
      rw [hlkt]
      simp only [Option.some_bind]
      obtain ⟨n2, hn2, hn2i⟩ := node_len_transfer (hvm _) (hlc _) ⟨n, hn, hni⟩
      obtain ⟨σb, hσb⟩ :=
        setLink_defined hn2 hn2i ((((chainAt s ch i).dropWhile (valBelow s v)).tail).head?)
      rw [hσb]
      simp only [Option.some_bind]
      obtain ⟨bvm, blc, blk, bwr, bml, bud, bal⟩ := setLink_preserve hσb
      refine ih (i + 1) σb (by omega) (by omega) (fun r => (bvm r).trans (hvm r))
        (fun r => (blc r).trans (hlc r)) (bml.trans hml) (bud.trans hud) (bal.trans hal)
        ?_ ?_ ?_
      · intro r j hj
        rw [blk r j (Or.inr (by omega)), hfr r j (by omega)]
      · intro j hj
        rcases Nat.lt_or_ge j i with hji | hji
        · rw [blk _ j (Or.inr (by omega))]
          exact hP j hji
        · have hje : j = i := by omega
          subst hje
          exact bwr
      · intro r j hj hrp
        rcases Nat.lt_or_ge j i with hji | hji
        · rw [blk r j (Or.inr (by omega))]
          exact hO r j hji hrp
        · have hje : j = i := by omega
          subst hje
          rw [blk r j (Or.inl hrp)]
          exact hfr r j (le_refl j)
    · have hlS : s.linkAt p i = some (n.next.get ⟨i, hni⟩) := by
        unfold SkipList.linkAt
        rw [hn]
        simp only [Option.some_bind]
        exact List.get?_eq_get hni
      have hlσ : σ.linkAt p i = some (n.next.get ⟨i, hni⟩) := by
        rw [hfr p i (le_refl i)]
        exact hlS
      rw [hlσ]
      simp only [Option.some_bind]
      have hne : ¬(n.next.get ⟨i, hni⟩ = some t) := by
        intro he
        have hmem := link_in_chain hwf ⟨n, hn, hni⟩ him hlS t he
        unfold chainAt at hmem
        rw [List.mem_filter] at hmem
        have h2 := hmem.2
        simp at h2
        omega
      rw [if_neg hne]
      refine ⟨σ, rfl, hvm, hlc, hml, hud, hal, ?_, ?_, ?_⟩
      · intro r j hj
        exact hfr r j (by omega)
      · intro j hj
        exact hP j (by omega)
      · intro r j hrp
        rcases Nat.lt_or_ge j i with hji | hji
        · exact hO r j hji hrp
        · exact hfr r j hji

/-- `while (max_level > 0 && header->next[max_level] == nullptr)`: the
result is below the start, the levels strictly above it have null header
links, and (unless 0) the result level's header link is non-null. -/
lemma shrinkLevel_spec {σ : SkipList} :
    ∀ (M : Nat), (∀ j, j ≤ M → ∃ l, σ.linkAt 0 j = some l) →
    ∃ ml, σ.shrinkLevel M = some ml ∧ ml ≤ M ∧
      (∀ j, ml < j → j ≤ M → σ.linkAt 0 j = some none) ∧
      (ml = 0 ∨ ∃ q, σ.linkAt 0 ml = some (some q)) := by
  intro M
  induction M with
  | zero =>
    intro _
    exact ⟨0, rfl, le_refl 0, fun j h1 h2 => absurd h2 (by omega), Or.inl rfl⟩
  | succ M ih =>
    intro hl
    obtain ⟨l, hlM⟩ := hl (M + 1) (le_refl _)
    unfold SkipList.shrinkLevel
    rw [hlM]
    simp only [Option.bind_eq_bind', Option.some_bind]
    rcases l with _ | q
    · obtain ⟨ml, hrun, hle, hnone, hlast⟩ := ih (fun j hj => hl j (by omega))
      refine ⟨ml, hrun, by omega, ?_, hlast⟩
      intro j h1 h2
      rcases Nat.lt_or_ge j (M + 1) with hj | hj
      · exact hnone j h1 (by omega)
      · have hje : j = M + 1 := by omega
        rw [hje]
        exact hlM
    · exact ⟨M + 1, rfl, le_refl _, fun j h1 h2 => absurd h1 (by omega), Or.inr ⟨q, hlM⟩⟩

/-! ## Reading an arena with one slot freed -/

lemma getNode_free_ne {σ : SkipList} {m2 : Nat} {u : List (Option Ptr)} {t r : Ptr}
    (hr : r ≠ t) :
    SkipList.getNode ⟨m2, σ.arena.set t none, u⟩ r = σ.getNode r := by
  unfold SkipList.getNode
  simp only
  rw [List.get?_set_ne _ _ (fun he => hr he.symm)]

lemma getNode_free_self {σ : SkipList} {m2 : Nat} {u : List (Option Ptr)} {t : Ptr}
    (ht : t < σ.arena.length) :
    SkipList.getNode ⟨m2, σ.arena.set t none, u⟩ t = none := by
  unfold SkipList.getNode
  simp only
  rw [List.get?_set_eq_of_lt _ ht]
  rfl

/-- The stop points never coincide with the node holding `v` itself. -/
lemma predAt_ne_t {s : SkipList} {ch : List Ptr} (hwf : WF s ch) {v : Int} {t : Ptr}
    (ht : t ∈ ch) (hv : s.nodeVal t = v) (j : Nat) : predAt s ch v j ≠ t := by
  unfold predAt
  rcases hA : (chainAt s ch j).takeWhile (valBelow s v) with _ | ⟨a, A2⟩
  · intro he
    rw [List.getLastD_nil] at he
    rw [← he] at ht
    exact hwf.zero_not_mem ht
  · have hne : (chainAt s ch j).takeWhile (valBelow s v) ≠ [] := by simp [hA]
    rw [← hA]
    intro he
    have hmem := getLastD_mem 0 hne
    rw [he] at hmem
    have hb := List.mem_takeWhile_imp hmem
    unfold valBelow at hb
    rw [hv] at hb
    simp at hb

/-- The chains of the post-`remove` state: at every level the traversal
visits the old participants with the removed node excised. -/
lemma unsplice_chains {s σ2 : SkipList} {ch : List Ptr} (hwf : WF s ch) {v : Int} {t : Ptr}
    (ht : t ∈ ch) (hv : s.nodeVal t = v)
    (hlc2 : ∀ r, r ∈ ch ∨ r = 0 → r ≠ t → σ2.linkCount r = s.linkCount r)
    (hlk_hi : ∀ r j, s.linkCount t ≤ j → r ≠ t → r ∈ ch ∨ r = 0 →
      σ2.linkAt r j = s.linkAt r j)
    (hlkP : ∀ j, j < s.linkCount t → σ2.linkAt (predAt s ch v j) j =
      some ((((chainAt s ch j).dropWhile (valBelow s v)).tail).head?))
    (hlkO : ∀ r j, r ≠ predAt s ch v j → r ≠ t → r ∈ ch ∨ r = 0 →
      σ2.linkAt r j = s.linkAt r j) :
    ∀ i, i ≤ s.max_level → ∃ l, σ2.linkAt 0 i = some l ∧
      IsChain σ2 i l
        (chainAt σ2 (ch.takeWhile (valBelow s v) ++ (ch.dropWhile (valBelow s v)).tail) i) := by
  have ht0 : t ≠ 0 := fun he => hwf.zero_not_mem (he ▸ ht)
  have hlct : 0 < s.linkCount t := (hwf.levels t ht).1
  have htA : t ∉ ch.takeWhile (valBelow s v) := by
    intro hmem
    have hb := List.mem_takeWhile_imp hmem
    unfold valBelow at hb
    rw [hv] at hb
    simp at hb
  have hd0 : ch.dropWhile (valBelow s v) = t :: (ch.dropWhile (valBelow s v)).tail := by
    have hnx : nextGE s ch v 0 = some t := (nextGE_target hwf ht hv).1 hlct
    unfold nextGE at hnx
    rw [hwf.chainAt_zero] at hnx
    rcases hd : ch.dropWhile (valBelow s v) with _ | ⟨x, rest⟩
    · rw [hd] at hnx
      exact absurd hnx (by simp)
    · rw [hd] at hnx
      simp at hnx
      rw [hnx]
      rfl
  have hsplit : ch = ch.takeWhile (valBelow s v) ++ t :: (ch.dropWhile (valBelow s v)).tail := by
    conv_lhs => rw [← List.takeWhile_append_dropWhile (p := valBelow s v) (l := ch), hd0]
  have htR : t ∉ (ch.dropWhile (valBelow s v)).tail := by
    have hnd : ch.Nodup := hwf.nodup_ch
    rw [hsplit] at hnd
    have := List.nodup_middle.mp hnd
    exact (List.nodup_cons.mp this).1 ∘ List.mem_append_right _
  have hA0ch : ∀ p ∈ ch.takeWhile (valBelow s v), p ∈ ch :=
    fun p hp => (List.takeWhile_sublist _).subset hp
  have hR0ch : ∀ p ∈ (ch.dropWhile (valBelow s v)).tail, p ∈ ch := by
    intro p hp
    rw [hsplit]
    exact List.mem_append_right _ (List.mem_cons_of_mem _ hp)
  intro i hi
  set Af := (ch.takeWhile (valBelow s v)).filter (fun p => decide (i < s.linkCount p)) with hAf
  set Rf := ((ch.dropWhile (valBelow s v)).tail).filter
    (fun p => decide (i < s.linkCount p)) with hRf
  have hAfch : ∀ p ∈ Af, p ∈ ch := fun p hp => hA0ch p (List.mem_of_mem_filter hp)
  have hRfch : ∀ p ∈ Rf, p ∈ ch := fun p hp => hR0ch p (List.mem_of_mem_filter hp)
  have hAft : t ∉ Af := fun hmem => htA (List.mem_of_mem_filter hmem)
  have hRft : t ∉ Rf := fun hmem => htR (List.mem_of_mem_filter hmem)
  have hchain2 : chainAt σ2
      (ch.takeWhile (valBelow s v) ++ (ch.dropWhile (valBelow s v)).tail) i = Af ++ Rf := by
    unfold chainAt
    rw [List.filter_append]
    have hfA : (ch.takeWhile (valBelow s v)).filter (fun p => decide (i < σ2.linkCount p))
        = Af := List.filter_congr fun p hp => by
      rw [hlc2 p (Or.inl (hA0ch p hp)) (fun he => htA (he ▸ hp))]
    have hfR : ((ch.dropWhile (valBelow s v)).tail).filter
        (fun p => decide (i < σ2.linkCount p)) = Rf := List.filter_congr fun p hp => by
      rw [hlc2 p (Or.inl (hR0ch p hp)) (fun he => htR (he ▸ hp))]
    rw [hfA, hfR]
  rw [hchain2]
  have hAf_take : (chainAt s ch i).takeWhile (valBelow s v) = Af := chainAt_takeWhile hwf v i
  have hpredi : predAt s ch v i = Af.getLastD 0 := by unfold predAt; rw [hAf_take]
  obtain ⟨l, hl0, hc⟩ := hwf.chains i hi
  rcases Nat.lt_or_ge i (s.linkCount t) with hilt | hige
  · -- `t` participates at level `i`
    have hdrop_i : (chainAt s ch i).dropWhile (valBelow s v) = t :: Rf := by
      rw [chainAt_dropWhile hwf v i, hd0, List.filter_cons]
      have hct : decide (i < s.linkCount t) = true := by simp; omega
      rw [hct]
      simp
    have htOut : (((chainAt s ch i).dropWhile (valBelow s v)).tail).head? = Rf.head? := by
      rw [hdrop_i]
      rfl
    have hchS : chainAt s ch i = Af ++ t :: Rf := by
      conv_lhs => rw [← List.takeWhile_append_dropWhile (p := valBelow s v)
        (l := chainAt s ch i), hAf_take, hdrop_i]
    have hcS : IsChain s i l (Af ++ t :: Rf) := by rw [← hchS]; exact hc
    obtain ⟨lm, hseg, hcT⟩ := hcS.append_split
    have hlm : lm = some t := hcT.head_eq
    subst hlm
    obtain ⟨l2, hql2, hcR⟩ := hcT.tail_link
    have hl2e : l2 = Rf.head? := hcR.link_eq_head
    subst hl2e
    have hnodC : (Af ++ t :: Rf).Nodup := by
      rw [← hchS]
      exact hwf.nodup_ch.sublist chainAt_sublist
    have hdisj : ∀ p ∈ Af, p ∉ t :: Rf := fun p hp hq =>
      List.disjoint_of_nodup_append hnodC hp hq
    have hrneR : ∀ r ∈ Rf, r ≠ predAt s ch v i := by
      intro r hr he
      by_cases hAf0 : Af = []
      · rw [hpredi, hAf0, List.getLastD_nil] at he
        exact hwf.zero_not_mem (he ▸ hRfch r hr)
      · have hpm : predAt s ch v i ∈ Af := by rw [hpredi]; exact getLastD_mem 0 hAf0
        rw [he] at hr
        exact hdisj _ hpm (List.mem_cons_of_mem _ hr)
    have hcR_F : IsChain σ2 i Rf.head? Rf := by
      refine hcR.congrLinks fun r hr => ?_
      exact hlkO r i (hrneR r hr) (fun he => hRft (he ▸ hr)) (Or.inl (hRfch r hr))
    by_cases hAf0 : Af = []
    · have hpred0 : predAt s ch v i = 0 := by rw [hpredi, hAf0, List.getLastD_nil]
      have hl0F : σ2.linkAt 0 i = some Rf.head? := by
        have hp := hlkP i hilt
        rw [hpred0, htOut] at hp
        exact hp
      refine ⟨Rf.head?, hl0F, ?_⟩
      rw [hAf0, List.nil_append]
      exact hcR_F
    · have hpredAf : predAt s ch v i ∈ Af := by rw [hpredi]; exact getLastD_mem 0 hAf0
      have hpredch : predAt s ch v i ∈ ch := hAfch _ hpredAf
      have hpred_ne0 : predAt s ch v i ≠ 0 := fun he => hwf.zero_not_mem (he ▸ hpredch)
      have hl0F : σ2.linkAt 0 i = some l := by
        rw [hlkO 0 i (fun he => hpred_ne0 he.symm) (fun he => ht0 he.symm) (Or.inr rfl)]
        exact hl0
      have hnodAf : Af.Nodup := by
        have hsub : Af.Sublist ch :=
          (List.filter_sublist _).trans (List.takeWhile_sublist _)
        exact hwf.nodup_ch.sublist hsub
      have hsegF : IsSeg σ2 i l Af Rf.head? := by
        refine hseg.relast hAf0 ?_ ?_
        · intro r hr
          have hrAf : r ∈ Af := (List.dropLast_sublist Af).subset hr
          have hrne : r ≠ predAt s ch v i := by
            rw [hpredi]
            intro he
            exact getLastD_not_mem_dropLast Af 0 hAf0 hnodAf (he ▸ hr)
          exact hlkO r i hrne (fun he => hAft (he ▸ hrAf)) (Or.inl (hAfch r hrAf))
        · have hp := hlkP i hilt
          rw [htOut, hpredi] at hp
          exact hp
      exact ⟨l, hl0F, hsegF.appendChain hcR_F⟩
  · -- `t` does not participate at level `i`
    have hchS : chainAt s ch i = Af ++ Rf := by
      unfold chainAt
      conv_lhs => rw [hsplit]
      rw [List.filter_append, List.filter_cons]
      have hct : decide (i < s.linkCount t) = false := by simp; omega
      rw [hct]
      simp
    have hcS : IsChain s i l (Af ++ Rf) := by rw [← hchS]; exact hc
    refine ⟨l, ?_, ?_⟩
    · rw [hlk_hi 0 i (by omega) (fun he => ht0 he.symm) (Or.inr rfl)]
      exact hl0
    · refine hcS.congrLinks fun r hr => ?_
      have hrch : r ∈ ch := by
        rcases List.mem_append.mp hr with hm | hm
        · exact hAfch r hm
        · exact hRfch r hm
      have hrt : r ≠ t := by
        intro he
        rcases List.mem_append.mp hr with hm | hm
        · exact hAft (he ▸ hm)
        · exact hRft (he ▸ hm)
      exact hlk_hi r i (by omega) hrt (Or.inl hrch)

/-- `SkipList::remove` never fails from a well-formed state: it reports
presence of the value, removes exactly that value from the chain,
preserves well-formedness (shrinking `max_level` past empty top levels),
and leaves the state intact (but for the persisted `update`, which is
untouched here) when the value is absent. -/
lemma remove_ok {s : SkipList} {ch : List Ptr} (hwf : WF s ch) (v : Int) :
    ∃ b s2 ch2, s.remove v = some (b, s2) ∧ WF s2 ch2 ∧
      ch2.map s2.nodeVal = (ch.map s.nodeVal).filter (fun x => decide (x ≠ v)) ∧
      ((b = true) ↔ v ∈ ch.map s.nodeVal) ∧
      (b = false → s2 = s ∧ ch2 = ch) := by
  by_cases hmem : v ∈ ch.map s.nodeVal
  · obtain ⟨t, ht, hv⟩ := List.mem_map.mp hmem
    have hchne : ch ≠ [] := by
      intro he
      rw [he] at ht
      simp at ht
    have hlc0t : 0 < s.linkCount t := (hwf.levels t ht).1
    have hlctm : s.linkCount t ≤ s.max_level + 1 := (hwf.levels t ht).2
    have ht0 : t ≠ 0 := fun he => hwf.zero_not_mem (he ▸ ht)
    have htlt : t < s.arena.length := hwf.mem_lt_arena ht
    have hulen : s.max_level + 1 ≤ s.update.length := (hwf.upd_full hchne).1
    obtain ⟨u2, hscan, hu2len, hu2fill, hu2keep⟩ :=
      remScan_present hwf ht hv (s.max_level + 1) (le_refl _) s.update hulen
    have hd0 : decide (s.max_level + 1 < s.linkCount t) = false := by simp; omega
    rw [predAt_top hwf v, hd0] at hscan
    have hu : ∀ j, j ≤ s.max_level → ∃ p, u2.get? j = some (some p) ∧
        (j < s.linkCount t → p = predAt s ch v j) ∧
        (∃ n, s.getNode p = some n ∧ j < n.next.length) := by
      intro j hj
      by_cases hjt : j < s.linkCount t
      · exact ⟨predAt s ch v j, hu2fill j (by omega) hjt, fun _ => rfl,
          predAt_live hwf v hj⟩
      · obtain ⟨p, hpu⟩ := (hwf.upd_full hchne).2 j hj
        refine ⟨p, ?_, fun h => absurd h hjt, hwf.upd_wf j p hpu⟩
        rw [hu2keep j (Or.inr (by omega))]
        exact hpu
    obtain ⟨σR, hrunU, Rvm, Rlc, Rml, Rud, Ral, Rhi, RP, RO⟩ :=
      remUnlink_go hwf ht hv hu (s.max_level + 1) 0 s (by omega) (by omega)
        (fun r => rfl) (fun r => rfl) rfl rfl rfl (fun r j _ => rfl)
        (fun j hj => absurd hj (Nat.not_lt_zero j))
        (fun r j hj _ => absurd hj (Nat.not_lt_zero j))
    have hdr_links : ∀ j, j ≤ σR.max_level → ∃ l, σR.linkAt 0 j = some l := by
      intro j hj
      rw [Rml] at hj
      by_cases hjp : j < s.linkCount t ∧ predAt s ch v j = 0
      · obtain ⟨h1, h2⟩ := hjp
        have h3 := RP j h1
        rw [h2] at h3
        exact ⟨_, h3⟩
      · obtain ⟨l, hl, _⟩ := hwf.chains j hj
        refine ⟨l, ?_⟩
        rcases Nat.lt_or_ge j (s.linkCount t) with hjl | hjl
        · have hne : (0 : Ptr) ≠ predAt s ch v j := fun he => hjp ⟨hjl, he.symm⟩
          rw [RO 0 j hne]
          exact hl
        · rw [Rhi 0 j hjl]
          exact hl
    obtain ⟨ml, hshr, hmlle, hnone, _⟩ := shrinkLevel_spec σR.max_level hdr_links
    have hmlm : ml ≤ s.max_level := by rw [← Rml]; exact hmlle
    set σX : SkipList := ⟨ml, σR.arena.set t none, u2⟩ with hσX
    have hgX : ∀ r, r ≠ t → σX.getNode r = σR.getNode r := fun r hr => getNode_free_ne hr
    have hgXt : σX.getNode t = none := getNode_free_self (by rw [Ral]; exact htlt)
    have hlkX : ∀ r j, r ≠ t → σX.linkAt r j = σR.linkAt r j := by
      intro r j hr
      unfold SkipList.linkAt
      rw [hgX r hr]
    have hlcX : ∀ r, r ≠ t → σX.linkCount r = σR.linkCount r := by
      intro r hr
      unfold SkipList.linkCount
      rw [hgX r hr]
    have hvmXs : ∀ r, r ≠ t →
        (σX.getNode r).map Node.value = (s.getNode r).map Node.value := by
      intro r hr
      rw [hgX r hr]
      exact Rvm r
    have hlcXs : ∀ r, r ≠ t → σX.linkCount r = s.linkCount r :=
      fun r hr => (hlcX r hr).trans (Rlc r)
    have hvalXs : ∀ r, r ≠ t → σX.nodeVal r = s.nodeVal r := by
      intro r hr
      unfold SkipList.nodeVal
      rw [hvmXs r hr]
    have hchains := unsplice_chains hwf ht hv
      (fun r _ hrt => hlcXs r hrt)
      (fun r j hj hrt _ => (hlkX r j hrt).trans (Rhi r j hj))
      (fun j hj => (hlkX _ j (predAt_ne_t hwf ht hv j)).trans (RP j hj))
      (fun r j hrp hrt _ => (hlkX r j hrt).trans (RO r j hrp))
    have hrun : s.remove v = some (true, σX) := by
      unfold SkipList.remove
      simp only [Option.bind_eq_bind', Option.some_bind]
      rw [hscan]
      simp only [Option.some_bind]
      rw [if_pos trivial]
      rw [hu2fill 0 (by omega) hlc0t]
      simp only [Option.some_bind]
      have hlk00 : s.linkAt (predAt s ch v 0) 0 = some (some t) := by
        rw [link_pred hwf v (Nat.zero_le _), (nextGE_target hwf ht hv).1 hlc0t]
      rw [hlk00]
      simp only [Option.some_bind]
      rw [hrunU]
      simp only [Option.some_bind]
      rw [hshr]
      simp only [Option.some_bind, Option.pure_def]
    -- membership bookkeeping of the split chain
    have htA : t ∉ ch.takeWhile (valBelow s v) := by
      intro hmem2
      have hb := List.mem_takeWhile_imp hmem2
      unfold valBelow at hb
      rw [hv] at hb
      simp at hb
    have hd0c : ch.dropWhile (valBelow s v) = t :: (ch.dropWhile (valBelow s v)).tail := by
      have hnx : nextGE s ch v 0 = some t := (nextGE_target hwf ht hv).1 hlc0t
      unfold nextGE at hnx
      rw [hwf.chainAt_zero] at hnx
      rcases hd : ch.dropWhile (valBelow s v) with _ | ⟨x, rest⟩
      · rw [hd] at hnx
        exact absurd hnx (by simp)
      · rw [hd] at hnx
        simp at hnx
        rw [hnx]
        rfl
    have hsplitC : ch = ch.takeWhile (valBelow s v) ++
        t :: (ch.dropWhile (valBelow s v)).tail := by
      conv_lhs => rw [← List.takeWhile_append_dropWhile (p := valBelow s v) (l := ch), hd0c]
    have htR : t ∉ (ch.dropWhile (valBelow s v)).tail := by
      have hnd : ch.Nodup := hwf.nodup_ch
      rw [hsplitC] at hnd
      have h2 := List.nodup_middle.mp hnd
      exact (List.nodup_cons.mp h2).1 ∘ List.mem_append_right _
    have hA0ch : ∀ p ∈ ch.takeWhile (valBelow s v), p ∈ ch :=
      fun p hp => (List.takeWhile_sublist _).subset hp
    have hR0ch : ∀ p ∈ (ch.dropWhile (valBelow s v)).tail, p ∈ ch := by
      intro p hp
      rw [hsplitC]
      exact List.mem_append_right _ (List.mem_cons_of_mem _ hp)
    have hsubE : (ch.takeWhile (valBelow s v) ++ (ch.dropWhile (valBelow s v)).tail).Sublist
        ch := by
      conv_rhs => rw [hsplitC]
      exact List.Sublist.append_left (List.sublist_cons_self _ _) _
    have hmemE : ∀ p, p ∈ ch.takeWhile (valBelow s v) ++ (ch.dropWhile (valBelow s v)).tail →
        p ∈ ch ∧ p ≠ t := by
      intro p hp
      rcases List.mem_append.mp hp with hm | hm
      · exact ⟨hA0ch p hm, fun he => htA (he ▸ hm)⟩
      · exact ⟨hR0ch p hm, fun he => htR (he ▸ hm)⟩
    have hwfX : WF σX (ch.takeWhile (valBelow s v) ++ (ch.dropWhile (valBelow s v)).tail) := by
      refine ⟨?_, ?_, ?_, ?_, ?_, ?_, ?_, ?_, ?_⟩
      · obtain ⟨n0, h0, hlen0⟩ := hwf.hdr
        obtain ⟨n2, h2, hl2⟩ :=
          node_len_transfer (j := ml) (hvmXs 0 (fun he => ht0 he.symm))
            (hlcXs 0 (fun he => ht0 he.symm)) ⟨n0, h0, by omega⟩
        refine ⟨n2, h2, ?_⟩
        have hX : σX.max_level = ml := rfl
        rw [hX]
        omega
      · intro p hp
        obtain ⟨hpch, hpt⟩ := hmemE p hp
        exact live_transfer (hvmXs p hpt) (hwf.alive p hpch)
      · intro p n hp0 hpn
        have hpt : p ≠ t := by
          intro he
          rw [he, hgXt] at hpn
          exact absurd hpn (by simp)
        have hs : ∃ n2, s.getNode p = some n2 := by
          rcases hg : s.getNode p with _ | n2
          · have h8 := hvmXs p hpt
            rw [hpn, hg] at h8
            exact absurd h8 (by simp)
          · exact ⟨n2, rfl⟩
        obtain ⟨n2, hn2⟩ := hs
        have hpch : p ∈ ch := hwf.closed p n2 hp0 hn2
        rw [hsplitC] at hpch
        rcases List.mem_append.mp hpch with hm | hm
        · exact List.mem_append_left _ hm
        · rcases List.mem_cons.mp hm with hm | hm
          · exact absurd hm hpt
          · exact List.mem_append_right _ hm
      · exact hwf.nodup.sublist (List.Sublist.cons₂ 0 hsubE)
      · intro p hp
        obtain ⟨hpch, hpt⟩ := hmemE p hp
        rw [hlcXs p hpt]
        have hlev := hwf.levels p hpch
        refine ⟨hlev.1, ?_⟩
        have hX : σX.max_level = ml := rfl
        rw [show σX.max_level = ml from rfl] at *
        by_contra hgt
        have hjdef : ml < s.linkCount p - 1 := by omega
        have hjm : s.linkCount p - 1 ≤ s.max_level := by omega
        obtain ⟨l, hlX, hcX⟩ := hchains (s.linkCount p - 1) hjm
        have hlR : σX.linkAt 0 (s.linkCount p - 1) = σR.linkAt 0 (s.linkCount p - 1) :=
          hlkX 0 _ (fun he => ht0 he.symm)
        have hlnone : σX.linkAt 0 (s.linkCount p - 1) = some none := by
          rw [hlR]
          exact hnone _ (by omega) (by rw [Rml]; omega)
        rw [hlnone] at hlX
        have hle : l = none := (Option.some.inj hlX).symm
        subst hle
        have hpmem : p ∈ chainAt σX
            (ch.takeWhile (valBelow s v) ++ (ch.dropWhile (valBelow s v)).tail)
            (s.linkCount p - 1) := by
          unfold chainAt
          rw [List.mem_filter]
          refine ⟨hp, ?_⟩
          rw [hlcXs p hpt]
          simp
          omega
        rcases hcc : chainAt σX
            (ch.takeWhile (valBelow s v) ++ (ch.dropWhile (valBelow s v)).tail)
            (s.linkCount p - 1) with _ | ⟨a, rest⟩
        · rw [hcc] at hpmem
          simp at hpmem
        · rw [hcc] at hcX
          exact absurd hcX.head_eq (by simp)
      · have hmapE : (ch.takeWhile (valBelow s v) ++
            (ch.dropWhile (valBelow s v)).tail).map σX.nodeVal =
            (ch.takeWhile (valBelow s v) ++
            (ch.dropWhile (valBelow s v)).tail).map s.nodeVal :=
          List.map_congr_left fun p hp => hvalXs p (hmemE p hp).2
        rw [hmapE]
        exact hwf.sorted.sublist (hsubE.map _)
      · intro i hi
        have hX : σX.max_level = ml := rfl
        rw [hX] at hi
        exact hchains i (by omega)
      · intro i p hp
        have hpu : u2.get? i = some (some p) := hp
        by_cases hjt : i < s.linkCount t
        · have him : i ≤ s.max_level := by omega
          rw [hu2fill i (by omega) hjt] at hpu
          have hpe : p = predAt s ch v i := by
            have h2 := Option.some.inj hpu
            exact (Option.some.inj h2).symm
          rw [hpe]
          exact node_len_transfer (hvmXs _ (predAt_ne_t hwf ht hv i))
            (hlcXs _ (predAt_ne_t hwf ht hv i)) (predAt_live hwf v him)
        · rw [hu2keep i (Or.inr (by omega))] at hpu
          obtain ⟨n, hn, hni⟩ := hwf.upd_wf i p hpu
          have hpt : p ≠ t := by
            intro he
            rw [he] at hn
            have hlcn : s.linkCount t = n.next.length := by
              unfold SkipList.linkCount
              rw [hn]
              rfl
            omega
          exact node_len_transfer (hvmXs p hpt) (hlcXs p hpt) ⟨n, hn, hni⟩
      · intro _
        constructor
        · have hX : σX.max_level = ml := rfl
          have hXu : σX.update = u2 := rfl
          rw [hX, hXu, hu2len]
          omega
        · intro i hi
          have hX : σX.max_level = ml := rfl
          rw [hX] at hi
          by_cases hjt : i < s.linkCount t
          · exact ⟨predAt s ch v i, hu2fill i (by omega) hjt⟩
          · obtain ⟨p, hpu⟩ := (hwf.upd_full hchne).2 i (by omega)
            refine ⟨p, ?_⟩
            have hXu : σX.update = u2 := rfl
            rw [hXu, hu2keep i (Or.inr (by omega))]
            exact hpu
    -- value characterization
    have hAmlt : ∀ x ∈ (ch.takeWhile (valBelow s v)).map s.nodeVal, x < v := by
      intro x hx
      obtain ⟨p, hp, he⟩ := List.mem_map.mp hx
      have h5 := List.mem_takeWhile_imp hp
      unfold valBelow at h5
      simp at h5
      rw [← he]
      exact h5
    have hRmgt : ∀ x ∈ ((ch.dropWhile (valBelow s v)).tail).map s.nodeVal, v < x := by
      intro x hx
      obtain ⟨p, hp, he⟩ := List.mem_map.mp hx
      have hpd : p ∈ ch.dropWhile (fun q => decide (s.nodeVal q < v)) := by
        rw [valBelow_fun]
        exact (List.tail_sublist _).subset hp
      have h1 := mem_dropWhile_of_sorted hwf.ch_sorted hpd
      have h2 : s.nodeVal p ≠ v := by
        intro he2
        have hpe : p = t := pairwise_val_inj hwf.ch_sorted (hR0ch p hp) ht (by rw [he2, hv])
        exact htR (hpe ▸ hp)
      rw [← he]
      omega
    have hvals : ch.map s.nodeVal = (ch.takeWhile (valBelow s v)).map s.nodeVal ++
        v :: ((ch.dropWhile (valBelow s v)).tail).map s.nodeVal := by
      conv_lhs => rw [hsplitC]
      rw [List.map_append, List.map_cons, hv]
    have hmapgoal : (ch.takeWhile (valBelow s v) ++
        (ch.dropWhile (valBelow s v)).tail).map σX.nodeVal =
        (ch.map s.nodeVal).filter (fun x => decide (x ≠ v)) := by
      have hmapE : (ch.takeWhile (valBelow s v) ++
          (ch.dropWhile (valBelow s v)).tail).map σX.nodeVal =
          (ch.takeWhile (valBelow s v)).map s.nodeVal ++
          ((ch.dropWhile (valBelow s v)).tail).map s.nodeVal := by
        rw [List.map_append]
        rw [List.map_congr_left fun p hp => hvalXs p (fun he => htA (he ▸ hp)),
          List.map_congr_left fun p hp => hvalXs p (fun he => htR (he ▸ hp))]
      have hfA : ((ch.takeWhile (valBelow s v)).map s.nodeVal).filter
          (fun x => decide (x ≠ v)) = (ch.takeWhile (valBelow s v)).map s.nodeVal := by
        refine List.filter_eq_self.mpr fun a ha => ?_
        have h6 := hAmlt a ha
        simp
        omega
      have hfR : (((ch.dropWhile (valBelow s v)).tail).map s.nodeVal).filter
          (fun x => decide (x ≠ v)) = ((ch.dropWhile (valBelow s v)).tail).map s.nodeVal := by
        refine List.filter_eq_self.mpr fun a ha => ?_
        have h6 := hRmgt a ha
        simp
        omega
      rw [hmapE, hvals, List.filter_append, List.filter_cons]
      rw [if_neg (by simp)]
      rw [hfA, hfR]
    exact ⟨true, σX, _, hrun, hwfX, hmapgoal, iff_of_true rfl hmem, fun h => absurd h (by simp)⟩
  · have habs' : ∀ p ∈ ch, s.nodeVal p ≠ v := by
      intro p hp he
      exact hmem (he ▸ List.mem_map_of_mem _ hp)
    have hscanA := remScan_absent hwf habs' (s.max_level + 1) (le_refl _) s.update
    rw [predAt_top hwf v] at hscanA
    have hrun : s.remove v = some (false, s) := by
      unfold SkipList.remove
      simp only [Option.bind_eq_bind', Option.some_bind]
      rw [hscanA]
      simp only [Option.some_bind]
      rw [if_neg (by simp)]
      rfl
    have hfil : (ch.map s.nodeVal).filter (fun x => decide (x ≠ v)) = ch.map s.nodeVal := by
      refine List.filter_eq_self.mpr fun a ha => ?_
      simp
      intro he
      obtain ⟨p, hp, hpe⟩ := List.mem_map.mp ha
      exact habs' p hp (by rw [hpe, he])
    exact ⟨false, s, ch, hrun, hwf, hfil.symm, iff_of_false (by simp) hmem,
      fun _ => ⟨rfl, rfl⟩⟩

/-- Every state reachable by `insert`/`remove` calls from a fresh list is
well-formed. -/
lemma foldSk_wf : ∀ (ops : List SkOp) (s : SkipList) (ch : List Ptr), WF s ch →
    ∃ s2 ch2, ops.foldlM skStep s = some s2 ∧ WF s2 ch2 := by
  intro ops
  induction ops with
  | nil =>
    intro s ch hwf
    exact ⟨s, ch, rfl, hwf⟩
  | cons op ops ih =>
    intro s ch hwf
    cases op with
    | ins v coins =>
      obtain ⟨s1, ch1, hins, hwf1, _, _, _, _⟩ := insert_ok hwf v coins
      obtain ⟨s2, ch2, hrun, hwf2⟩ := ih s1 ch1 hwf1
      refine ⟨s2, ch2, ?_, hwf2⟩
      rw [List.foldlM_cons]
      show (s.insert v coins).bind (fun s2 => ops.foldlM skStep s2) = some s2
      rw [hins]
      simpa using hrun
    | rem v =>
      obtain ⟨b, s1, ch1, hrem, hwf1, _, _, _⟩ := remove_ok hwf v
      obtain ⟨s2, ch2, hrun, hwf2⟩ := ih s1 ch1 hwf1
      refine ⟨s2, ch2, ?_, hwf2⟩
      rw [List.foldlM_cons]
      show ((s.remove v).map Prod.snd).bind (fun s2 => ops.foldlM skStep s2) = some s2
      rw [hrem]
      simpa using hrun

lemma skRun_wf (m : Nat) (ops : List SkOp) :
    ∃ s ch, skRun m ops = some s ∧ WF s ch :=
  foldSk_wf ops (SkipList.create m) [] (WF_create m)

/-! ## Executing the traversals on a well-formed list -/

lemma chainGo_of_chain {s : SkipList} :
    ∀ {ps : List Ptr} {l : Option Ptr} {f : Nat}, IsChain s 0 l ps → ps.length < f →
    SkipList.chainGo s l f = some ps := by
  intro ps
  induction ps with
  | nil =>
    intro l f hc hf
    have hl := hc.eq_nil
    subst hl
    cases f with
    | zero => rfl
    | succ f => rfl
  | cons p rest ih =>
    intro l f hc hf
    have hl := hc.head_eq
    subst hl
    cases f with
    | zero => simp at hf
    | succ f =>
      obtain ⟨l2, hlk, hc2⟩ := hc.tail_link
      unfold SkipList.chainGo
      rw [hlk]
      simp only [Option.bind_eq_bind', Option.some_bind]
      rw [ih hc2 (by simp at hf; omega)]
      rfl

lemma countGo_of_chain {s : SkipList} :
    ∀ {ps : List Ptr} {l : Option Ptr} {f : Nat}, IsChain s 0 l ps → ps.length < f →
    SkipList.countGo s l f = some ps.length := by
  intro ps
  induction ps with
  | nil =>
    intro l f hc hf
    have hl := hc.eq_nil
    subst hl
    cases f with
    | zero => rfl
    | succ f => rfl
  | cons p rest ih =>
    intro l f hc hf
    have hl := hc.head_eq
    subst hl
    cases f with
    | zero => simp at hf
    | succ f =>
      obtain ⟨l2, hlk, hc2⟩ := hc.tail_link
      unfold SkipList.countGo
      rw [hlk]
      simp only [Option.bind_eq_bind', Option.some_bind]
      rw [ih hc2 (by simp at hf; omega)]
      rfl

lemma stepsGo_of_chain {s : SkipList} :
    ∀ {ps : List Ptr} {l : Option Ptr}, IsChain s 0 l ps →
    ∀ {k : Nat}, k < ps.length → ∃ p0, l = some p0 ∧
      SkipList.stepsGo s p0 k = ps.get? k := by
  intro ps
  induction ps with
  | nil =>
    intro l _ k hk
    simp at hk
  | cons p rest ih =>
    intro l hc k hk
    have hl := hc.head_eq
    subst hl
    obtain ⟨l2, hlk, hc2⟩ := hc.tail_link
    refine ⟨p, rfl, ?_⟩
    cases k with
    | zero => rfl
    | succ k =>
      unfold SkipList.stepsGo
      rw [hlk]
      simp only [Option.bind_eq_bind', Option.some_bind]
      have hk2 : k < rest.length := by simp at hk; omega
      obtain ⟨p1, hp1, hstep⟩ := ih hc2 hk2
      rw [hp1]
      exact hstep

lemma mapM_vals {s : SkipList} : ∀ {ps : List Ptr},
    (∀ p ∈ ps, ∃ n, s.getNode p = some n) →
    ps.mapM (fun p => (s.getNode p).map Node.value) = some (ps.map s.nodeVal) := by
  intro ps
  induction ps with
  | nil => intro _; rfl
  | cons p rest ih =>
    intro h
    obtain ⟨n, hn⟩ := h p (by simp)
    rw [List.mapM_cons, hn, ih fun q hq => h q (by simp [hq])]
    have hval : s.nodeVal p = n.value := by
      unfold SkipList.nodeVal
      rw [hn]
      rfl
    simp [hval]

/-- On a well-formed list the pointer- and value-chain traversals execute
and return exactly the invariant chain. -/
lemma chainVals_of_wf {s : SkipList} {ch : List Ptr} (hwf : WF s ch) :
    s.chainPtrs = some ch ∧ s.chainVals = some (ch.map s.nodeVal) := by
  obtain ⟨l, hl, hc⟩ := hwf.chains 0 (by omega)
  rw [hwf.chainAt_zero] at hc
  have hflen : ch.length < s.fuel := by
    have h2 := hwf.ch_length_le
    unfold SkipList.fuel
    omega
  have hptrs : s.chainPtrs = some ch := by
    unfold SkipList.chainPtrs
    rw [hl]
    simp only [Option.bind_eq_bind', Option.some_bind]
    exact chainGo_of_chain hc hflen
  refine ⟨hptrs, ?_⟩
  unfold SkipList.chainVals
  rw [hptrs]
  simp only [Option.bind_eq_bind', Option.some_bind]
  exact mapM_vals hwf.alive

/-- `getMedian` (both variants agree off the empty list) returns the
value at rank `⌊n/2⌋` of the sorted value chain. -/
lemma getMedian_of_wf {s : SkipList} {ch : List Ptr} (hwf : WF s ch) (hne : ch ≠ []) :
    s.getMedian = (ch.map s.nodeVal).get? (ch.length / 2) ∧
      s.getMedianEx = (ch.map s.nodeVal).get? (ch.length / 2) := by
  obtain ⟨l, hl, hc⟩ := hwf.chains 0 (by omega)
  rw [hwf.chainAt_zero] at hc
  have hflen : ch.length < s.fuel := by
    have h2 := hwf.ch_length_le
    unfold SkipList.fuel
    omega
  have hcnt := countGo_of_chain hc hflen
  have hlen0 : ch.length ≠ 0 := fun he => hne (List.length_eq_zero.mp he)
  have hstep := stepsGo_of_chain hc (k := ch.length / 2) (by omega)
  obtain ⟨p0, hp0, hsteps⟩ := hstep
  have hgetp : ∃ p, ch.get? (ch.length / 2) = some p ∧ p ∈ ch := by
    rcases hg : ch.get? (ch.length / 2) with _ | p
    · rw [List.get?_eq_none] at hg
      omega
    · exact ⟨p, rfl, List.get?_mem hg⟩
  obtain ⟨p, hgp, hpch⟩ := hgetp
  obtain ⟨n, hn⟩ := hwf.alive p hpch
  have hval : (ch.map s.nodeVal).get? (ch.length / 2) = some (s.nodeVal p) := by
    rw [List.get?_map, hgp]
    rfl
  have hnv : s.nodeVal p = n.value := by
    unfold SkipList.nodeVal
    rw [hn]
    rfl
  constructor
  · unfold SkipList.getMedian
    rw [hl]
    simp only [Option.bind_eq_bind', Option.some_bind]
    rw [hcnt]
    simp only [Option.some_bind]
    rw [if_neg hlen0, hp0]
    simp only [Option.some_bind]
    rw [hsteps, hgp]
    simp only [Option.some_bind]
    rw [hn]
    simp only [Option.some_bind]
    rw [hval, hnv]
    rfl
  · unfold SkipList.getMedianEx
    rw [hl]
    simp only [Option.bind_eq_bind', Option.some_bind]
    rw [hcnt]
    simp only [Option.some_bind]
    rw [if_neg hlen0, hp0]
    simp only [Option.some_bind]
    rw [hsteps, hgp]
    simp only [Option.some_bind]
    rw [hn]
    simp only [Option.some_bind]
    rw [hval, hnv]
    rfl

/-- On the empty list, the `src` variant fails while the examples-tree
variant silently returns the default value 0. -/
lemma getMedian_empty {s : SkipList} {ch : List Ptr} (hwf : WF s ch) (he : ch = []) :
    s.getMedian = none ∧ s.getMedianEx = some 0 := by
  subst he
  obtain ⟨l, hl, hc⟩ := hwf.chains 0 (by omega)
  rw [hwf.chainAt_zero] at hc
  have hle := hc.eq_nil
  subst hle
  have hcnt : SkipList.countGo s none s.fuel = some 0 := countGo_of_chain hc (by
    unfold SkipList.fuel
    simp)
  constructor
  · unfold SkipList.getMedian
    rw [hl]
    simp only [Option.bind_eq_bind', Option.some_bind]
    rw [hcnt]
    simp only [Option.some_bind]
    rw [if_pos trivial]
  · unfold SkipList.getMedianEx
    rw [hl]
    simp only [Option.bind_eq_bind', Option.some_bind]
    rw [hcnt]
    simp only [Option.some_bind]
    rw [if_pos trivial]
    rfl

/-- `getMedianEx` always produces a value on a well-formed list. -/
lemma getMedianEx_total {s : SkipList} {ch : List Ptr} (hwf : WF s ch) :
    ∃ x, s.getMedianEx = some x := by
  rcases hch : ch with _ | ⟨a, rest⟩
  · exact ⟨0, (getMedian_empty hwf hch).2⟩
  · have hne : ch ≠ [] := by rw [hch]; simp
    refine ⟨s.nodeVal ((ch.get? (ch.length / 2)).getD 0), ?_⟩
    rw [(getMedian_of_wf hwf hne).2]
    have hlt : ch.length / 2 < ch.length := by
      rw [hch]
      simp
      omega
    rcases hg : ch.get? (ch.length / 2) with _ | p
    · rw [List.get?_eq_none] at hg
      omega
    · rw [List.get?_map, hg]
      rfl

lemma atGo_oob {s : SkipList} {idx : Nat} :
    ∀ {ps : List Ptr} {l : Option Ptr} {cnt f : Nat}, IsChain s 0 l ps →
    ps.length < f → ps.length + cnt ≤ idx → SkipList.atGo s idx l cnt f = none := by
  intro ps
  induction ps with
  | nil =>
    intro l cnt f hc _ _
    have hl := hc.eq_nil
    subst hl
    cases f with
    | zero => rfl
    | succ f => rfl
  | cons p rest ih =>
    intro l cnt f hc hf hidx
    have hl := hc.head_eq
    subst hl
    cases f with
    | zero => simp at hf
    | succ f =>
      obtain ⟨l2, hlk, hc2⟩ := hc.tail_link
      obtain ⟨n, hn, _⟩ := hc.mem_live p (by simp)
      unfold SkipList.atGo
      rw [hn]
      simp only [Option.bind_eq_bind', Option.some_bind]
      rw [if_neg (by simp at hidx ⊢; omega)]
      rw [hlk]
      simp only [Option.some_bind]
      exact ih hc2 (by simp at hf; omega) (by simp at hidx; omega)

/-- `at(index)` past the end of the chain fails (throws, resp. returns
`false`) in both variants — modelled as `none`. -/
lemma atIndex_oob {s : SkipList} {ch : List Ptr} (hwf : WF s ch) {idx : Nat}
    (hidx : ch.length ≤ idx) : s.atIndex idx = none := by
  obtain ⟨l, hl, hc⟩ := hwf.chains 0 (by omega)
  rw [hwf.chainAt_zero] at hc
  have hflen : ch.length < s.fuel := by
    have h2 := hwf.ch_length_le
    unfold SkipList.fuel
    omega
  unfold SkipList.atIndex
  rw [hl]
  simp only [Option.bind_eq_bind', Option.some_bind]
  exact atGo_oob hc hflen (by omega)

lemma mem_sInsert_self (v : Int) (l : List Int) : v ∈ sInsert v l := by
  unfold sInsert
  by_cases hv : v ∈ l
  · rw [if_pos hv]
    exact hv
  · rw [if_neg hv]
    simp

/-- C2.  For every sequence of insert and remove operations on a skip
list, the run succeeds and the level-0 forward chain of values starting
at the header is strictly increasing — in particular each value appears
at most once. -/
theorem chain_sorted_all_traces (m : Nat) (ops : List SkOp) :
    ∃ s vs, skRun m ops = some s ∧ s.chainVals = some vs ∧
      vs.Pairwise (· < ·) ∧ vs.Nodup := by
  obtain ⟨s, ch, hrun, hwf⟩ := skRun_wf m ops
  refine ⟨s, ch.map s.nodeVal, hrun, (chainVals_of_wf hwf).2, hwf.sorted, ?_⟩
  exact hwf.sorted.imp fun h => ne_of_lt h

/-- C1.  On every reachable skip list whose level-0 value chain `vs` is
non-empty, both `getMedian` variants return the element at 0-indexed
rank `⌊n/2⌋` of the strictly sorted distinct values — the middle element
for odd `n`, the upper median for even `n`, never an average. -/
theorem skiplist_median_rank (m : Nat) (ops : List SkOp) (s : SkipList) (vs : List Int)
    (hrun : skRun m ops = some s) (hvals : s.chainVals = some vs) (hne : vs ≠ []) :
    vs.Pairwise (· < ·) ∧ s.getMedian = vs.get? (vs.length / 2) ∧
      s.getMedianEx = vs.get? (vs.length / 2) := by
  obtain ⟨s2, ch, hrun2, hwf⟩ := skRun_wf m ops
  rw [hrun] at hrun2
  have hse : s = s2 := Option.some.inj hrun2
  subst hse
  have hv2 := (chainVals_of_wf hwf).2
  rw [hvals] at hv2
  have hvse : vs = ch.map s.nodeVal := Option.some.inj hv2
  subst hvse
  have hchne : ch ≠ [] := by
    intro he
    rw [he] at hne
    simp at hne
  obtain ⟨h1, h2⟩ := getMedian_of_wf hwf hchne
  refine ⟨hwf.sorted, ?_, ?_⟩
  · rw [h1, List.length_map]
  · rw [h2, List.length_map]

theorem skiplist_median_rank_witness :
    ([3, 5, 8] : List Int).Pairwise (· < ·) ∧
      SkipList.getMedian ((skRun 2 [SkOp.ins 5 [], SkOp.ins 3 [], SkOp.ins 8 []]).getD
        (SkipList.create 0)) = ([3, 5, 8] : List Int).get?
          (([3, 5, 8] : List Int).length / 2) ∧
      SkipList.getMedianEx ((skRun 2 [SkOp.ins 5 [], SkOp.ins 3 [], SkOp.ins 8 []]).getD
        (SkipList.create 0)) = ([3, 5, 8] : List Int).get?
          (([3, 5, 8] : List Int).length / 2) :=
  skiplist_median_rank 2 [SkOp.ins 5 [], SkOp.ins 3 [], SkOp.ins 8 []] _ [3, 5, 8]
    rfl rfl (by decide)

/-- C3.  Inserting an already-present value is a no-op on the arena, the
`max_level` and the value chain: inserting the same value twice equals
inserting it once. -/
theorem insert_duplicate_noop (m : Nat) (ops : List SkOp) (s : SkipList) (v : Int)
    (c1 c2 : List Bool) (hrun : skRun m ops = some s) :
    ∃ s1 s2 vs, s.insert v c1 = some s1 ∧ s1.insert v c2 = some s2 ∧
      s1.chainVals = some vs ∧ s2.chainVals = some vs ∧
      s2.arena = s1.arena ∧ s2.max_level = s1.max_level := by
  obtain ⟨s0, ch, hrun2, hwf⟩ := skRun_wf m ops
  rw [hrun] at hrun2
  have hse : s = s0 := Option.some.inj hrun2
  subst hse
  obtain ⟨s1, ch1, hins1, hwf1, hvals1, _, _, _⟩ := insert_ok hwf v c1
  have hmem : v ∈ ch1.map s1.nodeVal := by
    rw [hvals1]
    exact mem_sInsert_self v _
  obtain ⟨s2, ch2, hins2, hwf2, hvals2, hml2, himp, _⟩ := insert_ok hwf1 v c2
  obtain ⟨harena, hch⟩ := himp hmem
  refine ⟨s1, s2, ch1.map s1.nodeVal, hins1, hins2, (chainVals_of_wf hwf1).2, ?_,
    harena, hml2⟩
  have heq : ch2.map s2.nodeVal = ch1.map s1.nodeVal := by
    rw [hvals2]
    unfold sInsert
    rw [if_pos hmem]
  rw [(chainVals_of_wf hwf2).2, heq]

theorem insert_duplicate_noop_witness :
    ∃ s1 s2 vs, (SkipList.create 2).insert 7 [true] = some s1 ∧
      s1.insert 7 [] = some s2 ∧
      s1.chainVals = some vs ∧ s2.chainVals = some vs ∧
      s2.arena = s1.arena ∧ s2.max_level = s1.max_level :=
  insert_duplicate_noop 2 [] (SkipList.create 2) 7 [true] [] rfl

/-- C4 counterexample.  On the empty skip list the examples-tree
`getMedian` executes `return T()`: the default value 0 comes back as an
ordinary result with no failure signalled, while the `src` variant throws
(modelled `none`) — so "both fail with a recoverable, typed out-of-range
condition, never returning a silent default" is false for the cited
examples-tree implementation. -/
theorem median_silent_default :
    SkipList.getMedianEx (SkipList.create 4) = some 0 ∧
      SkipList.getMedian (SkipList.create 4) = none ∧
      SkipList.chainVals (SkipList.create 4) = some [] := ⟨rfl, rfl, rfl⟩

/-- C4 (amended).  On every reachable skip list: with an empty chain the
`src`-tree `getMedian` fails with the out-of-range condition while the
examples-tree variant silently returns the default 0; `at(index)` for
`index ≥ size` fails (throw, resp. `false`) in both trees. -/
theorem median_empty_at_oob (m : Nat) (ops : List SkOp) (s : SkipList) (vs : List Int)
    (hrun : skRun m ops = some s) (hvals : s.chainVals = some vs) :
    (vs = [] → s.getMedian = none ∧ s.getMedianEx = some 0) ∧
    (∀ idx, vs.length ≤ idx → s.atIndex idx = none) := by
  obtain ⟨s2, ch, hrun2, hwf⟩ := skRun_wf m ops
  rw [hrun] at hrun2
  have hse : s = s2 := Option.some.inj hrun2
  subst hse
  have hv2 := (chainVals_of_wf hwf).2
  rw [hvals] at hv2
  have hvse : vs = ch.map s.nodeVal := Option.some.inj hv2
  subst hvse
  constructor
  · intro he
    exact getMedian_empty hwf (List.map_eq_nil.mp he)
  · intro idx hidx
    rw [List.length_map] at hidx
    exact atIndex_oob hwf hidx

theorem median_empty_at_oob_witness :
    (SkipList.getMedian (SkipList.create 3) = none ∧
      SkipList.getMedianEx (SkipList.create 3) = some 0) ∧
      SkipList.atIndex (SkipList.create 3) 0 = none := by
  have h := median_empty_at_oob 3 [] (SkipList.create 3) [] rfl rfl
  exact ⟨h.1 rfl, h.2 0 (by decide)⟩

/-! ## Engine: the once-per-add window sync (C6) -/

/-- Building the scratch skip list from the window always succeeds. -/
lemma buildSkipListGo_some : ∀ (vs : List Int) (cs : List (List Bool)) (s : SkipList)
    (ch : List Ptr), WF s ch →
    ∃ s2 ch2, MovingAverage.buildSkipListGo s vs cs = some s2 ∧ WF s2 ch2 := by
  intro vs
  induction vs with
  | nil =>
    intro cs s ch hwf
    exact ⟨s, ch, rfl, hwf⟩
  | cons v vs ih =>
    intro cs s ch hwf
    obtain ⟨s1, ch1, hins, hwf1, _, _, _, _⟩ := insert_ok hwf v (cs.headD [])
    obtain ⟨s2, ch2, hrun, hwf2⟩ := ih cs.tail s1 ch1 hwf1
    refine ⟨s2, ch2, ?_, hwf2⟩
    unfold MovingAverage.buildSkipListGo
    rw [hins]
    simpa using hrun

/-- Any windowed read on an enabled state whose sync yields `sp` (with a
non-empty, ≤ 255-long window) succeeds and observes exactly `sp.window`,
leaving the window and the updated flag in place. -/
lemma wread_go {r : WRead} {s sp : MovingAverage}
    (hen : s.enabled = true) (hsync : MovingAverage.sync r.size s = some sp)
    (hne : sp.window ≠ []) (hlen : sp.window.length ≤ 255)
    (henp : sp.enabled = true) (hinp : sp.input = s.input) :
    ∃ x s1, r.apply s = some (x, s1) ∧ s1.window = sp.window ∧
      s1.window_updated = true ∧ s1.enabled = true ∧ s1.input = s.input := by
  cases r with
  | avg w =>
    simp only [WRead.size] at hsync
    simp only [WRead.apply]
    unfold MovingAverage.readAverage
    rw [if_neg (by simp [hen]), hsync]
    simp only [Option.bind_eq_bind', Option.some_bind]
    rw [if_neg (fun h0 => hne (List.length_eq_zero.mp h0))]
    exact ⟨_, _, rfl, rfl, rfl, henp, hinp⟩
  | wavg w =>
    simp only [WRead.size] at hsync
    simp only [WRead.apply]
    rw [readWeightedAverage_of_sync hen hsync hne hlen]
    exact ⟨_, _, rfl, rfl, rfl, henp, hinp⟩
  | med w cs =>
    simp only [WRead.size] at hsync
    simp only [WRead.apply]
    unfold MovingAverage.readMovingMedian
    rw [if_neg (by simp [hen]), hsync]
    simp only [Option.bind_eq_bind', Option.some_bind]
    obtain ⟨sl, chl, hsl, hwfl⟩ :=
      buildSkipListGo_some sp.window cs (SkipList.create w) [] (WF_create w)
    rw [hsl]
    simp only [Option.some_bind]
    obtain ⟨x, hx⟩ := getMedianEx_total hwfl
    rw [hx]
    simp only [Option.some_bind]
    exact ⟨x, _, rfl, rfl, rfl, henp, hinp⟩

/-- A windowed read on an already-synced window leaves the window
identical. -/
lemma wread_synced {r : WRead} {s : MovingAverage}
    (hen : s.enabled = true) (hupd : s.window_updated = true)
    (hne : s.window ≠ []) (hlen : s.window.length ≤ 255) :
    ∃ x s1, r.apply s = some (x, s1) ∧ s1.window = s.window ∧
      s1.window_updated = true ∧ s1.enabled = true ∧ s1.input = s.input :=
  wread_go hen (MovingAverage.sync_of_updated hupd) hne hlen hen rfl

/-- The first windowed read after an `add` pushes exactly the latest
sample (evicting the oldest at capacity). -/
lemma wread_first {r : WRead} {s : MovingAverage}
    (hen : s.enabled = true) (hupd : s.window_updated = false)
    (hsz : 1 ≤ r.size) (hlen : s.window.length ≤ 254) :
    ∃ x s1, r.apply s = some (x, s1) ∧
      s1.window = pushEvict r.size s.input s.window ∧
      s1.window_updated = true ∧ s1.enabled = true ∧ s1.input = s.input := by
  have hsync := MovingAverage.sync_of_stale (W := r.size) hupd (Or.inr hsz)
  refine wread_go hen hsync ?_ ?_ hen rfl
  · exact pushEvict_ne_nil
  · have h2 := pushEvict_length_le_succ (W := r.size) (x := s.input) (w := s.window)
    simp only
    omega

/-- Every further windowed read before the next `add` observes the
identical window. -/
lemma foldWReads_synced : ∀ (rs : List WRead) (s : MovingAverage),
    s.enabled = true → s.window_updated = true → s.window ≠ [] → s.window.length ≤ 255 →
    ∃ s2, foldWReads rs s = some s2 ∧ s2.window = s.window := by
  intro rs
  induction rs with
  | nil =>
    intro s _ _ _ _
    exact ⟨s, rfl, rfl⟩
  | cons r rs ih =>
    intro s hen hupd hne hlen
    obtain ⟨x, s1, happ, hw, hu, he, hi⟩ := wread_synced hen hupd hne hlen
    obtain ⟨s2, hrun, hw2⟩ := ih s1 he hu (by rw [hw]; exact hne) (by rw [hw]; exact hlen)
    refine ⟨s2, ?_, hw2.trans hw⟩
    unfold foldWReads
    rw [List.foldlM_cons, happ]
    simpa [foldWReads] using hrun

/-- C6.  Between two consecutive `add` calls the window is mutated at
most once: the first windowed read (simple, weighted, or median) after
`add v` appends the narrowed sample `wrap16 v` — evicting the oldest
element first when the window is at capacity — and every further
windowed read before the next `add` (of any kind and any window size)
succeeds and observes the identical window. -/
theorem window_synced_once_per_add (s0 : MovingAverage) (v : Int) (r1 : WRead)
    (rs : List WRead) (hen : s0.enabled = true) (hsz : 1 ≤ r1.size)
    (hlen : s0.window.length ≤ 254) :
    ∃ x1 s1, r1.apply (s0.add v) = some (x1, s1) ∧
      s1.window = pushEvict r1.size (wrap16 v) s0.window ∧
      ∃ s2, foldWReads rs s1 = some s2 ∧ s2.window = s1.window := by
  have hen2 : (s0.add v).enabled = true := hen
  have hupd : (s0.add v).window_updated = false := rfl
  have hlen2 : (s0.add v).window.length ≤ 254 := hlen
  obtain ⟨x1, s1, happ, hw, hu, he, hi⟩ := wread_first hen2 hupd hsz hlen2
  have hw' : s1.window = pushEvict r1.size (wrap16 v) s0.window := hw
  obtain ⟨s2, hrun, hw2⟩ := foldWReads_synced rs s1 he hu
    (by rw [hw']; exact pushEvict_ne_nil)
    (by
      rw [hw']
      have h2 := pushEvict_length_le_succ (W := r1.size) (x := wrap16 v) (w := s0.window)
      omega)
  exact ⟨x1, s1, happ, hw', s2, hrun, hw2⟩

theorem window_synced_once_per_add_witness :
    ∃ x1 s1, (WRead.avg 3).apply ((MovingAverage.create.begin).add 5) = some (x1, s1) ∧
      s1.window = pushEvict (WRead.avg 3).size (wrap16 5)
        (MovingAverage.create.begin).window ∧
      ∃ s2, foldWReads [WRead.wavg 3, WRead.med 3 []] s1 = some s2 ∧
        s2.window = s1.window :=
  window_synced_once_per_add MovingAverage.create.begin 5 (WRead.avg 3)
    [WRead.wavg 3, WRead.med 3 []] rfl (by decide) (by decide)

end MovAvg
